import Mathlib

/-!
Verification of the A390393 sequence generator (`A390393List.py`).

The Python source is shallowly embedded below: Python arbitrary-precision
integers become `Int` (or `Nat` where the quantity is a bitmask, an index or
a count), Python lists become `List`, the dictionary `elem_to_mask` becomes
an association list with Python-dict insertion-order semantics, and the
generator `stream_unit_matches` is materialized into the `List` of the
values it yields (the orchestrator consumes the whole stream anyway).
-/

namespace A390393

/-- Entry of a half list: a partial Egyptian fraction sum, mirroring the
Python `HalfEntry` named tuple: value `num/den`, bitmask of denominators
used (bit `d - 1` stands for denominator `d`) and the largest denominator
in the subset. -/
structure HalfEntry where
  num : Int
  den : Int
  mask : Nat
  max_denom : Nat
deriving Repr, DecidableEq

/-- Full unit-sum obstruction, mirroring the Python `Match` named tuple. -/
structure Match where
  mask : Nat
  max_denom : Nat
deriving Repr, DecidableEq

/-- Model of Python `add_one_over_n`: `nnum = num*n + den`, `nden = den*n`,
both divided by their gcd.  Python `//` is floor division, hence `Int.fdiv`;
`math.gcd` returns a non-negative integer, hence the cast of `Int.gcd`. -/
def add_one_over_n (pair : Int × Int) (n : Int) : Int × Int :=
  let num := pair.1
  let den := pair.2
  let nnum := num * n + den
  let nden := den * n
  let g : Int := Int.gcd nnum nden
  (nnum.fdiv g, nden.fdiv g)

/-- Model of Python `rational_cmp`: sign of `a - b` by cross multiplication,
computed as `(lhs > rhs) - (lhs < rhs)` exactly as in the source. -/
def rational_cmp (a : Int × Int) (b : Int × Int) : Int :=
  let lhs := a.1 * b.2
  let rhs := b.1 * a.2
  (if lhs > rhs then (1 : Int) else 0) - (if lhs < rhs then (1 : Int) else 0)

/-- One pass of the builder loop body for denominator `n`: every existing
entry is extended by `1/n` whenever the extended value stays `≤ 1`
(`new_pair[0] <= new_pair[1]` in the source), and the survivors are
appended to the list (`entries.extend(add)`). -/
def extend_entries (entries : List ((Int × Int) × Nat × Nat)) (n : Nat) :
    List ((Int × Int) × Nat × Nat) :=
  entries ++ entries.filterMap (fun e =>
    let new_pair := add_one_over_n e.1 (n : Int)
    if new_pair.1 ≤ new_pair.2 then
      some (new_pair, e.2.1 ||| (1 <<< (n - 1)), max e.2.2 n)
    else none)

/-- The builder's accumulation loop `for n in range(lo, hi)` starting from
the single empty-subset entry `((0, 1), 0, 0)`. -/
def build_entries (lo hi : Nat) : List ((Int × Int) × Nat × Nat) :=
  (List.range' lo (hi - lo)).foldl extend_entries [((0, 1), 0, 0)]

/-- Insert into a sorted list, before the first element that `a` may
precede.  Together with `insertion_sort` below this is a stable sort, the
sorting contract of Python's `list.sort`. -/
def orderedInsert (le : α → α → Bool) (a : α) : List α → List α
  | [] => [a]
  | b :: l => if le a b then a :: b :: l else b :: orderedInsert le a l

/-- Stable sort by the Boolean comparator `le` (elements are processed
right to left, so earlier equal elements end up first, as in Python's
stable `list.sort`). -/
def insertion_sort (le : α → α → Bool) : List α → List α
  | [] => []
  | a :: l => orderedInsert le a (insertion_sort le l)

/-- Boolean comparator used to sort half entries ascending by exact rational
value; Python sorts with `cmp_to_key(rational_cmp)`, i.e. `x` may precede
`y` exactly when `rational_cmp x y ≤ 0`. -/
def entry_le (x y : HalfEntry) : Bool :=
  rational_cmp (x.num, x.den) (y.num, y.den) ≤ 0

/-- Model of Python `build_half_list`: all subset sums of
`{1/k : k in [lo, hi)}` that are `≤ 1`, sorted by exact rational value
(Python `list.sort` is a stable comparator sort, modeled by the stable
`insertion_sort`). -/
def build_half_list (lo hi : Nat) : List HalfEntry :=
  let entries := build_entries lo hi
  let result := entries.map (fun e => HalfEntry.mk e.1.1 e.1.2 e.2.1 e.2.2)
  insertion_sort entry_le result

/-- Pythonic `remaining_mask & ~covmask` on unbounded integers: keep the
bits of `a` that are not set in `b`; since `a &&& b` has only bits of `a`,
the xor removes exactly the bits of `a` that are also in `b`. -/
def and_not (a b : Nat) : Nat :=
  a ^^^ (a &&& b)

/-- Fuel-driven structural recursion computing the number of set bits; the
fuel only makes the recursion structural (hence kernel-reducible), the
value is independent of it as soon as `n ≤ fuel`. -/
def popCountF : Nat → Nat → Nat
  | 0, _ => 0
  | fuel + 1, n => if n = 0 then 0 else n % 2 + popCountF fuel (n / 2)

/-- Number of set bits of a natural number, mirroring Python
`int.bit_count`. -/
def popCount (n : Nat) : Nat := popCountF n n

/-- Fuel-driven structural recursion computing the binary length. -/
def bitLenF : Nat → Nat → Nat
  | 0, _ => 0
  | fuel + 1, n => if n = 0 then 0 else bitLenF fuel (n / 2) + 1

/-- Number of binary digits of `n` (`0` for `0`), Python `int.bit_length`,
used to locate the binade of a quotient when rounding it to a float. -/
def bitLen (n : Nat) : Nat := bitLenF n n

/-- Fuel-driven structural recursion listing set-bit positions. -/
def bitPositionsF : Nat → Nat → Nat → List Nat
  | 0, _, _ => []
  | fuel + 1, n, pos =>
    if n = 0 then []
    else (if n % 2 = 1 then [pos] else []) ++ bitPositionsF fuel (n / 2) (pos + 1)

/-- Positions of the set bits of `n`, offset by `pos`, in increasing order;
`bitPositions m 0` lists exactly the sequence of bit positions produced by
the Python lowbit loop `while mask: lowbit = mask & -mask; ...`. -/
def bitPositions (n pos : Nat) : List Nat := bitPositionsF n n pos

/-- Largest denominator encoded by a bitmask (bit `d - 1` stands for
denominator `d`), `0` for the empty mask; this is the specification of the
`max_denom` fields. -/
def maxDenomOf (m : Nat) : Nat :=
  (bitPositions m 0).foldr (fun p acc => max (p + 1) acc) 0

/-- Default entry used only for out-of-range `getD` accesses; the loop
conditions keep every actual access in bounds, mirroring the Python
indexing. -/
def dfltEntry : HalfEntry := ⟨0, 1, 0, 0⟩

/-- Python's inner collection loop for the left run: starting at index `i`,
scan forward while the entry has the same exact value as `(ln, ld)`
(`a.num * ld == ln * a.den`).  The run is a `takeWhile` of the suffix. -/
def left_run (left : List HalfEntry) (ln ld : Int) (i : Nat) : List HalfEntry :=
  (left.drop i).takeWhile (fun a => a.num * ld == ln * a.den)

/-- Python's inner collection loop for the right run: starting at index
`jp - 1`, scan backward while the entry has the same exact value as
`(rn, rd)` (`rn * b.den == b.num * rd`); the run is produced in descending
index order, exactly as the Python `while val_j >= 0` loop appends. -/
def right_run (right : List HalfEntry) (rn rd : Int) (jp : Nat) : List HalfEntry :=
  ((right.take jp).reverse).takeWhile (fun b => rn * b.den == b.num * rd)

/-- Fuel-driven structural version of the two-pointer loop of
`stream_unit_matches`.  `i` is the Python left index; `jp` is the Python
right index plus one (so the Python condition `j >= 0` becomes `0 < jp`,
and Python's initial `j = len(right_list) - 1` becomes
`jp = right_list.length`, which also handles the empty list the way
Python's `-1` does).  The loop terminates because `(left.length - i) + jp`
strictly decreases; the fuel merely makes that recursion structural, and
the result is fuel-independent once the fuel is at least that measure. -/
def smLoopF (left right : List HalfEntry) : Nat → Nat → Nat → List Match
  | 0, _, _ => []
  | fuel + 1, i, jp =>
    if i < left.length ∧ 0 < jp then
      let L := left.getD i dfltEntry
      let R := right.getD (jp - 1) dfltEntry
      let lhs := L.num * R.den + R.num * L.den
      let rhs := L.den * R.den
      if lhs = rhs then
        let left_eq := left_run left L.num L.den i
        let right_eq := right_run right R.num R.den jp
        (left_eq.flatMap (fun a => right_eq.map (fun b =>
            Match.mk (a.mask ||| b.mask) (max a.max_denom b.max_denom)))) ++
          smLoopF left right fuel (i + left_eq.length) (jp - right_eq.length)
      else if lhs < rhs then
        smLoopF left right fuel (i + 1) jp
      else
        smLoopF left right fuel i (jp - 1)
    else []

/-- The two-pointer loop, started with enough fuel for its measure. -/
def smLoop (left right : List HalfEntry) (i jp : Nat) : List Match :=
  smLoopF left right ((left.length - i) + jp) i jp

/-- Model of Python `stream_unit_matches`, materialized as the list of
yielded values, in yield order. -/
def stream_unit_matches (left_list right_list : List HalfEntry) : List Match :=
  smLoop left_list right_list 0 right_list.length

/-- Idealized exact-arithmetic variant of the memoized recursive decision
`solve` inside `exists_hitting_set`.  Memoization caches a pure function
and does not change its value, so it is dropped; `elems` is
`list(elem_to_mask.values())`.  The single deliberate idealization: the
source's pruning test `math.ceil(rem / max_cov) > k` divides with IEEE
doubles, while here the prune is the exact ceiling
`(rem + max_cov - 1) / max_cov`.  The faithful float model is `solveF`
below; `solveF_eq_solve` proves the two agree whenever the bit count of
`remaining_mask` is at most `2 ^ 53` (every ceiling the prune meets is
then exactly representable and below overflow), and
`exists_hitting_set_float_counterexample` exhibits their divergence
beyond. -/
def solve (elems : List Nat) (remaining_mask : Nat) (k : Nat) : Bool :=
  if remaining_mask = 0 then true
  else match k with
  | 0 => false
  | k' + 1 =>
    let rem := popCount remaining_mask
    let candidates := elems.filterMap (fun mask =>
      let cov := mask &&& remaining_mask
      if cov ≠ 0 then some (popCount cov, cov) else none)
    let max_cov := candidates.foldl (fun acc c => max acc c.1) 0
    if max_cov = 0 then false
    else if k' + 1 < (rem + max_cov - 1) / max_cov then false
    else
      let sorted := insertion_sort (fun x y =>
        decide (y.1 < x.1) || (decide (y.1 = x.1) && decide (y.2 ≤ x.2))) candidates
      sorted.any (fun c => solve elems (and_not remaining_mask c.2) k')

/-- Model of Python `exists_hitting_set`: the dictionary `elem_to_mask` is
an association list (Python dicts iterate in insertion order, so
`.values()` is `map Prod.snd`); `full_mask = (1 << num_obs) - 1`. -/
def exists_hitting_set (elem_to_mask : List (Nat × Nat)) (num_obs : Nat)
    (permitted : Nat) : Bool :=
  let full_mask := (1 <<< num_obs) - 1
  solve (elem_to_mask.map Prod.snd) full_mask permitted

/-- Round the fraction `num / den` (`den > 0`) to the nearest integer,
ties to even — the rounding step of correctly rounded binary64 division. -/
def rne (num den : Nat) : Nat :=
  let q := num / den
  let r := num % den
  if den < 2 * r then q + 1
  else if 2 * r < den then q
  else if q % 2 = 0 then q else q + 1

/-- Faithful model of Python `math.ceil(a / b)` on nonnegative ints.
CPython's `int.__truediv__` produces the correctly rounded IEEE-754
binary64 of the exact quotient (round to nearest, ties to even; gradual
underflow on the fixed grid `2 ^ (-1074)` below `2 ^ (-1022)`), raising
`OverflowError` when the magnitude rounded with unbounded exponent reaches
`2 ^ 1024`; `math.ceil` of the resulting double is exact.  `none` models
the exceptions (`OverflowError`, and `ZeroDivisionError` for `b = 0`):
`e` is the binade of `a / b` (so `2 ^ e ≤ a / b < 2 ^ (e + 1)`), the
significand `m` is the quotient scaled to `[2 ^ 52, 2 ^ 53]` and rounded,
and the value of the double is `m * 2 ^ (e - 52)`.  This helper performs
the rounding, overflow check and ceiling once the binade `e` is known. -/
def pyCeilDivWith (a b : Nat) (e : Int) : Option Nat :=
  if e < -1022 then
    some (if rne (a * 2 ^ 1074) b = 0 then 0 else 1)
  else
    let m := if 52 ≤ e then rne a (b * 2 ^ (e - 52).toNat)
      else rne (a * 2 ^ (52 - e).toNat) b
    if 1024 ≤ e ∨ (e = 1023 ∧ m = 2 ^ 53) then none
    else if 52 ≤ e then some (m * 2 ^ (e - 52).toNat)
    else some ((m + 2 ^ (52 - e).toNat - 1) / 2 ^ (52 - e).toNat)

/-- `math.ceil(a / b)` itself: locate the binade of `a / b` through the
bit lengths (it is `e0` or `e0 - 1`), then round on that binade. -/
def pyCeilDiv (a b : Nat) : Option Nat :=
  if b = 0 then none
  else if a = 0 then some 0
  else
    let e0 : Int := (bitLen a : Int) - (bitLen b : Int)
    pyCeilDivWith a b
      (if b * 2 ^ e0.toNat ≤ a * 2 ^ (-e0).toNat then e0 else e0 - 1)

/-- The solver's branching loop `for _, covmask in candidates: if solve(..):
return True`: try the branches in order, propagating an exception,
short-circuiting on the first `True`, `False` when all branches fail. -/
def branchLoop (f : Nat × Nat → Except Unit Bool) :
    List (Nat × Nat) → Except Unit Bool
  | [] => Except.ok false
  | c :: cs => match f c with
    | Except.error e => Except.error e
    | Except.ok true => Except.ok true
    | Except.ok false => branchLoop f cs

/-- Faithful model of the source's `solve`: identical to the idealized
`solve` except that the pruning test computes `math.ceil(rem / max_cov)`
through `pyCeilDiv`, whose `none` (an uncaught `OverflowError` escaping
the solver) becomes `Except.error ()`. -/
def solveF (elems : List Nat) (remaining_mask : Nat) (k : Nat) :
    Except Unit Bool :=
  if remaining_mask = 0 then Except.ok true
  else match k with
  | 0 => Except.ok false
  | k' + 1 =>
    let rem := popCount remaining_mask
    let candidates := elems.filterMap (fun mask =>
      let cov := mask &&& remaining_mask
      if cov ≠ 0 then some (popCount cov, cov) else none)
    let max_cov := candidates.foldl (fun acc c => max acc c.1) 0
    if max_cov = 0 then Except.ok false
    else
      let ceil? := pyCeilDiv rem max_cov
      if ceil? = none then Except.error ()
      else if k' + 1 < ceil?.getD 0 then Except.ok false
      else branchLoop
        (fun c => solveF elems (and_not remaining_mask c.2) k')
        (insertion_sort (fun x y =>
          decide (y.1 < x.1) || (decide (y.1 = x.1) && decide (y.2 ≤ x.2)))
          candidates)

/-- Faithful model of Python `exists_hitting_set`, built on the
float-pruned `solveF`; an `Except.error ()` is the `OverflowError` the
Python function would raise. -/
def exists_hitting_setF (elem_to_mask : List (Nat × Nat)) (num_obs : Nat)
    (permitted : Nat) : Except Unit Bool :=
  let full_mask := (1 <<< num_obs) - 1
  solveF (elem_to_mask.map Prod.snd) full_mask permitted

/-- Python dict read with default: `d.get(key, 0)`. -/
def dictGetD (d : List (Nat × Nat)) (key : Nat) : Nat :=
  match d.find? (fun p => p.1 == key) with
  | some p => p.2
  | none => 0

/-- Python dict write `d[key] = val`: overwrite in place if the key exists
(keeping insertion order), append otherwise. -/
def dictSet (d : List (Nat × Nat)) (key val : Nat) : List (Nat × Nat) :=
  if d.any (fun p => p.1 == key) then
    d.map (fun p => if p.1 = key then (p.1, val) else p)
  else d ++ [(key, val)]

/-- The orchestrator's rebuild of `elem_to_mask` at step `n`: for each
active obstruction (by index) and each set bit of its mask, the denominator
`dpos + 1`, when `≤ n`, gets the obstruction's index bit or-ed into its
entry.  `List.enum` is Python `enumerate`; `bitPositions m 0` is the Python
lowbit loop over the set bits of `m` in increasing order. -/
def buildElemToMask (obs : List Nat) (n : Nat) : List (Nat × Nat) :=
  obs.enum.foldl (fun d p =>
    (bitPositions p.2 0).foldl (fun d dpos =>
      let denom := dpos + 1
      if denom ≤ n then
        dictSet d denom (dictGetD d denom ||| (1 <<< p.1))
      else d) d) []

/-- State threaded through the orchestrator's main loop: the output list,
the active obstruction masks and the search starting point `current_k`. -/
structure LoopState where
  results : List Nat
  obs : List Nat
  current_k : Nat
deriving Repr, DecidableEq

/-- One iteration of the orchestrator's `for n in range(1, N)` loop:
extend the active obstructions with the bucket of matches activated at `n`
(the bucket of `max_denom = n` masks, in stream order, which is exactly
what the `defaultdict` bucketing collects), then either emit `n` when no
obstruction is active, or search `k` from `current_k` to `n` for the first
feasible hitting-set budget and emit `n - k`; when no budget succeeds emit
`0` and set `current_k = n`. -/
def A390393Step (matchList : List Match) (st : LoopState) (n : Nat) : LoopState :=
  let obs := st.obs ++ (matchList.filter (fun mt => mt.max_denom == n)).map Match.mask
  if obs.isEmpty then
    ⟨st.results ++ [n], obs, 0⟩
  else
    let m := obs.length
    let elem := buildElemToMask obs n
    match (List.range' st.current_k (n + 1 - st.current_k)).find?
        (fun k => exists_hitting_set elem m k) with
    | some k => ⟨st.results ++ [n - k], obs, k⟩
    | none => ⟨st.results ++ [0], obs, n⟩

/-- Model of Python `A390393List`: guard `N <= 1`, split at `N * 5 // 9`,
build the two half lists, stream the unit matches, and run the main loop
over `n = 1 .. N-1`. -/
def A390393List (N : Int) : List Nat :=
  if N ≤ 1 then []
  else
    let M := N.toNat
    let split := M * 5 / 9
    let left_list := build_half_list 1 split
    let right_list := build_half_list split M
    let matchList := stream_unit_matches left_list right_list
    ((List.range' 1 (M - 1)).foldl (A390393Step matchList) ⟨[], [], 0⟩).results

/-! Specification-side definitions, used to state the claims. -/

/-- Exact rational value of an integer pair. -/
def pairQ (p : Int × Int) : ℚ := (p.1 : ℚ) / (p.2 : ℚ)

/-- Exact rational value of a half entry. -/
def qval (e : HalfEntry) : ℚ := (e.num : ℚ) / (e.den : ℚ)

/-- Sum of the reciprocals `1/d` of the denominators `d` encoded by the
bits of a mask (bit `d - 1` stands for denominator `d`). -/
def maskSum (m : Nat) : ℚ :=
  ((bitPositions m 0).map (fun p : Nat => (1 : ℚ) / (p + 1))).sum

/-- A sub-collection `sub` of candidate elements covers all `numObs`
obstruction bits. -/
def covers (sub : List (Nat × Nat)) (numObs : Nat) : Prop :=
  ∀ i < numObs, ∃ p ∈ sub, p.2.testBit i = true

/-- There is a hitting set of size at most `t`: a sub-collection of the
candidate mapping, of at most `t` elements, whose masks cover all `numObs`
obstruction bits.  This is what brute-force enumeration of subsets
decides. -/
def HS (elems : List (Nat × Nat)) (numObs t : Nat) : Prop :=
  ∃ sub, sub.Sublist elems ∧ sub.length ≤ t ∧ covers sub numObs

/-- `t` is the exact minimum hitting-set size. -/
def LeastHS (elems : List (Nat × Nat)) (numObs t : Nat) : Prop :=
  HS elems numObs t ∧ ∀ s, HS elems numObs s → t ≤ s

/-- A list of masks covers every set bit of `rem`. -/
def coversMask (l : List Nat) (rem : Nat) : Prop :=
  ∀ i, rem.testBit i = true → ∃ m ∈ l, m.testBit i = true

/-- Specification-level hitting set over denominators: a duplicate-free set
`S` of denominators in `[1, n]`, of size at most `t`, such that every
active obstruction mask contains some member of `S`. -/
def DenHS (obs : List Nat) (n t : Nat) : Prop :=
  ∃ S : List Nat, S.Nodup ∧ (∀ d ∈ S, 1 ≤ d ∧ d ≤ n) ∧ S.length ≤ t ∧
    ∀ idx, idx < obs.length → ∃ d ∈ S, (obs.getD idx 0).testBit (d - 1) = true

/-- `t` is the exact minimum denominator-level hitting-set size. -/
def LeastDenHS (obs : List Nat) (n t : Nat) : Prop :=
  DenHS obs n t ∧ ∀ s, DenHS obs n s → t ≤ s

/-- One dictionary update of the `elem_to_mask` build: or the obstruction
index bit into the entry of the denominator. -/
def applyUpd (d : List (Nat × Nat)) (u : Nat × Nat) : List (Nat × Nat) :=
  dictSet d u.1 (dictGetD d u.1 ||| (1 <<< u.2))

/-- The flat list of `(denominator, obstruction index)` updates the nested
loops of `buildElemToMask` perform, in order. -/
def updatesOf (obs : List Nat) (n : Nat) : List (Nat × Nat) :=
  obs.enum.flatMap (fun p =>
    (bitPositions p.2 0).filterMap (fun dpos =>
      if dpos + 1 ≤ n then some (dpos + 1, p.1) else none))

/-- The obstruction masks active at step `n`: the concatenation, for
`k = 1 .. n`, of the bucket of matches whose activation point is `k`
(each bucket in stream order) — exactly the list `current_obs_masks`
that the orchestrator has accumulated after step `n`. -/
def activeObs (matchList : List Match) (n : Nat) : List Nat :=
  (List.range' 1 n).flatMap
    (fun k => (matchList.filter (fun mt => mt.max_denom == k)).map Match.mask)

/-- The match stream of the full pipeline for the bound `M = N.toNat`. -/
def theMatches (M : Nat) : List Match :=
  stream_unit_matches (build_half_list 1 (M * 5 / 9)) (build_half_list (M * 5 / 9) M)

/-- Invariant of a raw builder entry `((num, den), mask, mx)` over the
denominator range `[lo, ub)`: positive reduced value equal to the mask's
reciprocal sum, value at most `1`, `mx` the largest denominator of the
mask, and all mask denominators inside `[lo, ub)`. -/
def entryInv (lo ub : Nat) (e : (Int × Int) × Nat × Nat) : Prop :=
  0 < e.1.2 ∧ Int.gcd e.1.1 e.1.2 = 1 ∧ pairQ e.1 = maskSum e.2.1 ∧
    pairQ e.1 ≤ 1 ∧ e.2.2 = maxDenomOf e.2.1 ∧
    ∀ i, e.2.1.testBit i = true → lo ≤ i + 1 ∧ i + 1 < ub

/-- The same invariant for a packaged half entry. -/
def halfEntryInv (lo ub : Nat) (e : HalfEntry) : Prop :=
  0 < e.den ∧ Int.gcd e.num e.den = 1 ∧ qval e = maskSum e.mask ∧
    qval e ≤ 1 ∧ e.max_denom = maxDenomOf e.mask ∧
    ∀ i, e.mask.testBit i = true → lo ≤ i + 1 ∧ i + 1 < ub

/-- Invariant of the orchestrator loop state after processing `n = 1 .. n`:
the active obstruction list is exactly `activeObs`, one result has been
emitted per step, `current_k` is `0` while no obstruction is active and
afterwards always the exact minimum hitting-set size, and every emitted
result equals `j` (no obstruction active at step `j`) or `j` minus the
minimum hitting-set size at step `j`. -/
def LoopInv (matchList : List Match) (n : Nat) (st : LoopState) : Prop :=
  st.obs = activeObs matchList n ∧
    st.results.length = n ∧
    (st.obs = [] → st.current_k = 0) ∧
    (st.obs ≠ [] →
      LeastHS (buildElemToMask st.obs n) st.obs.length st.current_k) ∧
    ∀ j, 1 ≤ j → j ≤ n →
      (activeObs matchList j = [] → st.results.getD (j - 1) 0 = j) ∧
      (∀ t, LeastHS (buildElemToMask (activeObs matchList j) j)
        (activeObs matchList j).length t → st.results.getD (j - 1) 0 = j - t)

/-! ### Helper lemmas about the stable insertion sort -/

theorem orderedInsert_perm (le : α → α → Bool) (a : α) (l : List α) :
    (orderedInsert le a l).Perm (a :: l) := by
  induction l with
  | nil => exact List.Perm.refl _
  | cons b l ih =>
    by_cases h : le a b
    · simp [orderedInsert, h]
    · simp only [orderedInsert, h, Bool.false_eq_true, if_false]
      exact (ih.cons b).trans (List.Perm.swap a b l)

theorem insertion_sort_perm (le : α → α → Bool) (l : List α) :
    (insertion_sort le l).Perm l := by
  induction l with
  | nil => exact List.Perm.refl _
  | cons a l ih =>
    exact (orderedInsert_perm le a (insertion_sort le l)).trans (ih.cons a)

theorem mem_insertion_sort (le : α → α → Bool) (l : List α) (x : α) :
    x ∈ insertion_sort le l ↔ x ∈ l :=
  (insertion_sort_perm le l).mem_iff

theorem mem_orderedInsert (le : α → α → Bool) (a : α) (l : List α) (x : α) :
    x ∈ orderedInsert le a l ↔ x = a ∨ x ∈ l :=
  by simpa using (orderedInsert_perm le a l).mem_iff

theorem pairwise_orderedInsert (le : α → α → Bool) (a : α) (l : List α)
    (htot : ∀ x ∈ a :: l, ∀ y ∈ a :: l, le x y = true ∨ le y x = true)
    (htrans : ∀ x ∈ a :: l, ∀ y ∈ a :: l, ∀ z ∈ a :: l,
      le x y = true → le y z = true → le x z = true)
    (hl : l.Pairwise (fun x y => le x y = true)) :
    (orderedInsert le a l).Pairwise (fun x y => le x y = true) := by
  induction l with
  | nil => simp [orderedInsert]
  | cons b l ih =>
    rcases List.pairwise_cons.1 hl with ⟨hb, hl'⟩
    have hma : a ∈ a :: b :: l := by simp
    have hmb : b ∈ a :: b :: l := by simp
    by_cases h : le a b
    · simp only [orderedInsert, h, if_true]
      refine List.pairwise_cons.2 ⟨?_, hl⟩
      intro y hy
      rcases List.mem_cons.1 hy with rfl | hy
      · exact h
      · exact htrans a hma b hmb y (by simp [hy]) h (hb y hy)
    · simp only [orderedInsert, h, Bool.false_eq_true, if_false]
      refine List.pairwise_cons.2 ⟨?_, ?_⟩
      · intro y hy
        rcases (mem_orderedInsert le a l y).1 hy with hy1 | hy1
        · subst hy1
          rcases htot y hma b hmb with h1 | h1
          · exact (h h1).elim
          · exact h1
        · exact hb y hy1
      · refine ih ?_ ?_ hl'
        · intro x hx y hy
          exact htot x (by rcases List.mem_cons.1 hx with rfl | hx <;> simp [hx])
            y (by rcases List.mem_cons.1 hy with rfl | hy <;> simp [hy])
        · intro x hx y hy z hz
          exact htrans x (by rcases List.mem_cons.1 hx with rfl | hx <;> simp [hx])
            y (by rcases List.mem_cons.1 hy with rfl | hy <;> simp [hy])
            z (by rcases List.mem_cons.1 hz with rfl | hz <;> simp [hz])

theorem pairwise_insertion_sort (le : α → α → Bool) (l : List α)
    (htot : ∀ x ∈ l, ∀ y ∈ l, le x y = true ∨ le y x = true)
    (htrans : ∀ x ∈ l, ∀ y ∈ l, ∀ z ∈ l,
      le x y = true → le y z = true → le x z = true) :
    (insertion_sort le l).Pairwise (fun x y => le x y = true) := by
  induction l with
  | nil => simp [insertion_sort]
  | cons a l ih =>
    have hmem : ∀ x ∈ a :: insertion_sort le l, x ∈ a :: l := by
      intro x hx
      rcases List.mem_cons.1 hx with rfl | hx
      · simp
      · simp [List.mem_cons, (mem_insertion_sort le l x).1 hx]
    refine pairwise_orderedInsert le a (insertion_sort le l)
      (fun x hx y hy => htot x (hmem x hx) y (hmem y hy))
      (fun x hx y hy z hz => htrans x (hmem x hx) y (hmem y hy) z (hmem z hz)) ?_
    exact ih (fun x hx y hy => htot x (by simp [List.mem_cons, hx]) y
        (by simp [List.mem_cons, hy]))
      (fun x hx y hy z hz => htrans x (by simp [List.mem_cons, hx]) y
        (by simp [List.mem_cons, hy]) z (by simp [List.mem_cons, hz]))

/-! ### Fuel elimination for the structural bit recursions -/

theorem popCountF_zero (fuel : Nat) : popCountF fuel 0 = 0 := by
  cases fuel <;> simp [popCountF]

theorem popCountF_congr : ∀ {f1 f2 n : Nat}, n ≤ f1 → n ≤ f2 →
    popCountF f1 n = popCountF f2 n := by
  intro f1
  induction f1 with
  | zero => intro f2 n h1 _; interval_cases n; simp [popCountF_zero]
  | succ f ih =>
    intro f2 n h1 h2
    by_cases hn : n = 0
    · subst hn; simp [popCountF_zero]
    · rcases f2 with _ | f2'
      · omega
      · simp only [popCountF, hn, if_false]
        have hd : n / 2 ≤ f := by omega
        have hd2 : n / 2 ≤ f2' := by omega
        rw [ih hd hd2]

theorem popCount_eq (n : Nat) :
    popCount n = if n = 0 then 0 else n % 2 + popCount (n / 2) := by
  by_cases hn : n = 0
  · subst hn; simp [popCount, popCountF_zero]
  · rcases n with _ | m
    · exact (hn rfl).elim
    · simp only [popCount, popCountF, hn, if_false]
      have : (m + 1) / 2 ≤ m := by omega
      rw [popCountF_congr this (Nat.le_refl _)]

theorem bitPositionsF_zero (fuel pos : Nat) : bitPositionsF fuel 0 pos = [] := by
  cases fuel <;> simp [bitPositionsF]

theorem bitPositionsF_congr : ∀ {f1 f2 n pos : Nat}, n ≤ f1 → n ≤ f2 →
    bitPositionsF f1 n pos = bitPositionsF f2 n pos := by
  intro f1
  induction f1 with
  | zero => intro f2 n pos h1 _; interval_cases n; simp [bitPositionsF_zero]
  | succ f ih =>
    intro f2 n pos h1 h2
    by_cases hn : n = 0
    · subst hn; simp [bitPositionsF_zero]
    · rcases f2 with _ | f2'
      · omega
      · simp only [bitPositionsF, hn, if_false]
        have hd : n / 2 ≤ f := by omega
        have hd2 : n / 2 ≤ f2' := by omega
        rw [ih hd hd2]

theorem bitPositions_eq (n pos : Nat) :
    bitPositions n pos = if n = 0 then []
      else (if n % 2 = 1 then [pos] else []) ++ bitPositions (n / 2) (pos + 1) := by
  by_cases hn : n = 0
  · subst hn; simp [bitPositions, bitPositionsF_zero]
  · rcases n with _ | m
    · exact (hn rfl).elim
    · simp only [bitPositions, bitPositionsF, hn, if_false]
      have : (m + 1) / 2 ≤ m := by omega
      rw [bitPositionsF_congr this (Nat.le_refl _)]

/-! ### Bitmask helper lemmas -/

theorem lt_two_pow_iff_testBit (x n : Nat) :
    x < 2 ^ n ↔ ∀ i, x.testBit i = true → i < n := by
  constructor
  · intro h i hi
    by_contra hin
    have h2 : 2 ^ n ≤ 2 ^ i := Nat.pow_le_pow_right (by omega) (by omega)
    have := Nat.testBit_eq_false_of_lt (lt_of_lt_of_le h h2)
    rw [this] at hi; exact Bool.false_ne_true hi
  · intro h
    by_contra hx
    rcases Nat.ge_two_pow_implies_high_bit_true (Nat.le_of_not_lt hx) with ⟨i, hin, hi⟩
    exact absurd (h i hi) (by omega)

theorem and_not_testBit (a b i : Nat) :
    (and_not a b).testBit i = (a.testBit i && !(b.testBit i)) := by
  simp only [and_not, Nat.testBit_xor, Nat.testBit_land]
  cases a.testBit i <;> cases b.testBit i <;> rfl

theorem lor_lt_two_pow {a b n : Nat} (ha : a < 2 ^ n) (hb : b < 2 ^ n) :
    a ||| b < 2 ^ n := by
  rw [lt_two_pow_iff_testBit] at ha hb ⊢
  intro i hi
  rw [Nat.testBit_lor] at hi
  rcases Bool.or_eq_true_iff.1 hi with h | h
  · exact ha i h
  · exact hb i h

theorem testBit_mod_two (n : Nat) : n.testBit 0 = true ↔ n % 2 = 1 := by
  rw [Nat.testBit_zero]; exact decide_eq_true_iff

/-- Bridge from the fuel recursion over the bits of `m` to a `Finset.range`
sum: mapping `f` over the listed bit positions and summing equals the sum
of `f (pos + i)` over the set bits `i` of `m`, for any bit bound `B`. -/
theorem bitPositions_map_sum {M : Type _} [AddCommMonoid M] (f : Nat → M) :
    ∀ B m pos, m < 2 ^ B →
      ((bitPositions m pos).map f).sum =
        ∑ i ∈ Finset.range B, if m.testBit i = true then f (pos + i) else 0 := by
  intro B
  induction B with
  | zero =>
    intro m pos hm
    interval_cases m
    simp [bitPositions_eq]
  | succ B ih =>
    intro m pos hm
    by_cases hm0 : m = 0
    · subst hm0; simp [bitPositions_eq]
    · rw [bitPositions_eq]
      simp only [hm0, if_false]
      have hdiv : m / 2 < 2 ^ B := by
        have : m < 2 * 2 ^ B := by rw [← pow_succ']; exact hm
        omega
      rw [Finset.sum_range_succ' (fun i => if m.testBit i = true then f (pos + i) else 0)]
      have hshift : ∀ i, m.testBit (i + 1) = (m / 2).testBit i := fun i =>
        Nat.testBit_succ m i
      have hrec := ih (m / 2) (pos + 1) hdiv
      rw [List.map_append, List.sum_append, hrec]
      have hhead : ((if m % 2 = 1 then [pos] else []).map f).sum =
          (if m.testBit 0 = true then f (pos + 0) else 0) := by
        by_cases h2 : m % 2 = 1
        · simp [h2, (testBit_mod_two m).2 h2]
        · have : m.testBit 0 = false := by
            rw [Nat.testBit_zero]; simp [h2]
          simp [h2, this]
      rw [hhead]
      have hidx : ∀ i : Nat, pos + 1 + i = pos + (i + 1) := by intro i; omega
      have htail : (∑ i ∈ Finset.range B,
            if (m / 2).testBit i = true then f (pos + 1 + i) else 0) =
          ∑ k ∈ Finset.range B, if m.testBit (k + 1) = true then f (pos + (k + 1)) else 0 := by
        apply Finset.sum_congr rfl
        intro i _
        rw [hshift i, hidx i]
      rw [htail, add_comm]

/-- Membership in the listed bit positions is exactly `testBit`. -/
theorem mem_bitPositions (m : Nat) :
    ∀ pos q, q ∈ bitPositions m pos ↔ ∃ i, q = pos + i ∧ m.testBit i = true := by
  induction m using Nat.strong_induction_on with
  | _ m ih =>
    intro pos q
    by_cases hm : m = 0
    · subst hm; simp [bitPositions_eq]
    · rw [bitPositions_eq]
      simp only [hm, if_false, List.mem_append]
      have hdivlt : m / 2 < m := Nat.div_lt_self (Nat.pos_of_ne_zero hm) (by omega)
      rw [ih (m / 2) hdivlt (pos + 1) q]
      constructor
      · intro h
        rcases h with h | ⟨i, rfl, hi⟩
        · refine ⟨0, ?_, ?_⟩
          · by_cases h2 : m % 2 = 1 <;> simp [h2] at h
            · omega
          · by_cases h2 : m % 2 = 1
            · exact (testBit_mod_two m).2 h2
            · simp [h2] at h
        · exact ⟨i + 1, by omega, by rw [Nat.testBit_succ]; exact hi⟩
      · rintro ⟨i, rfl, hi⟩
        rcases i with _ | i'
        · left
          have h2 := (testBit_mod_two m).1 hi
          simp [h2]
        · right
          exact ⟨i', by omega, by rw [← Nat.testBit_succ]; exact hi⟩

/-! ### popCount as a counting function -/

theorem popCount_eq_sum :
    ∀ B m, m < 2 ^ B →
      popCount m = ∑ i ∈ Finset.range B, if m.testBit i = true then 1 else 0 := by
  intro B
  induction B with
  | zero => intro m hm; interval_cases m; simp [popCount, popCountF_zero]
  | succ B ih =>
    intro m hm
    by_cases hm0 : m = 0
    · subst hm0; simp [popCount, popCountF_zero]
    · rw [popCount_eq]
      simp only [hm0, if_false]
      have hdiv : m / 2 < 2 ^ B := by
        have : m < 2 * 2 ^ B := by rw [← pow_succ']; exact hm
        omega
      rw [ih (m / 2) hdiv]
      rw [Finset.sum_range_succ' (fun i => if m.testBit i = true then 1 else 0)]
      have hshift : ∀ i, m.testBit (i + 1) = (m / 2).testBit i := fun i =>
        Nat.testBit_succ m i
      simp only [hshift]
      have hhead : m % 2 = if m.testBit 0 = true then 1 else 0 := by
        by_cases h2 : m % 2 = 1
        · simp [h2, (testBit_mod_two m).2 h2]
        · have hf : m.testBit 0 = false := by rw [Nat.testBit_zero]; simp [h2]
          simp [hf]; omega
      rw [hhead, add_comm]

theorem popCount_zero_iff (m : Nat) : popCount m = 0 ↔ m = 0 := by
  constructor
  · intro h
    by_contra hm
    rcases Nat.ge_two_pow_implies_high_bit_true (x := m) (n := 0)
      (by omega) with ⟨i, _, hi⟩
    have hmB : m < 2 ^ (i + 1 + m) := by
      calc m < 2 ^ m := Nat.lt_two_pow m
      _ ≤ 2 ^ (i + 1 + m) := Nat.pow_le_pow_right (by omega) (by omega)
    rw [popCount_eq_sum (i + 1 + m) m hmB] at h
    have hterm : (1 : Nat) ≤ ∑ j ∈ Finset.range (i + 1 + m),
        if m.testBit j = true then 1 else 0 := by
      have := Finset.single_le_sum
        (f := fun j => if m.testBit j = true then 1 else 0)
        (fun j _ => Nat.zero_le _) (Finset.mem_range.2 (show i < i + 1 + m by omega))
      simpa [hi] using this
    omega
  · intro h; subst h; simp [popCount, popCountF_zero]

theorem popCount_le_of_subset {a b : Nat}
    (h : ∀ i, a.testBit i = true → b.testBit i = true) :
    popCount a ≤ popCount b := by
  have ha : a < 2 ^ (a + b) := by
    calc a < 2 ^ a := Nat.lt_two_pow a
    _ ≤ 2 ^ (a + b) := Nat.pow_le_pow_right (by omega) (by omega)
  have hb : b < 2 ^ (a + b) := by
    calc b < 2 ^ b := Nat.lt_two_pow b
    _ ≤ 2 ^ (a + b) := Nat.pow_le_pow_right (by omega) (by omega)
  rw [popCount_eq_sum (a + b) a ha, popCount_eq_sum (a + b) b hb]
  apply Finset.sum_le_sum
  intro i _
  by_cases hai : a.testBit i = true
  · simp [hai, h i hai]
  · simp [hai]

theorem popCount_lor_le (a b : Nat) :
    popCount (a ||| b) ≤ popCount a + popCount b := by
  have ha : a < 2 ^ (a + b + 1) := by
    calc a < 2 ^ a := Nat.lt_two_pow a
    _ ≤ 2 ^ (a + b + 1) := Nat.pow_le_pow_right (by omega) (by omega)
  have hb : b < 2 ^ (a + b + 1) := by
    calc b < 2 ^ b := Nat.lt_two_pow b
    _ ≤ 2 ^ (a + b + 1) := Nat.pow_le_pow_right (by omega) (by omega)
  have hab : a ||| b < 2 ^ (a + b + 1) := lor_lt_two_pow ha hb
  rw [popCount_eq_sum _ _ ha, popCount_eq_sum _ _ hb, popCount_eq_sum _ _ hab,
    ← Finset.sum_add_distrib]
  apply Finset.sum_le_sum
  intro i _
  rw [Nat.testBit_lor]
  cases ha' : a.testBit i <;> cases hb' : b.testBit i <;> simp

/-! ### maskSum lemmas -/

theorem maskSum_eq_sum (B m : Nat) (hm : m < 2 ^ B) :
    maskSum m = ∑ i ∈ Finset.range B,
      if m.testBit i = true then (1 : ℚ) / (i + 1) else 0 := by
  unfold maskSum
  have h := bitPositions_map_sum (fun p => (1 : ℚ) / (p + 1)) B m 0 hm
  simpa only [zero_add] using h

theorem maskSum_zero : maskSum 0 = 0 := by
  simp [maskSum, bitPositions_eq]

theorem maskSum_nonneg (m : Nat) : 0 ≤ maskSum m := by
  have hm : m < 2 ^ m := Nat.lt_two_pow m
  rw [maskSum_eq_sum m m hm]
  apply Finset.sum_nonneg
  intro i _
  by_cases h : m.testBit i = true <;> simp [h] <;> positivity

theorem maskSum_pos {m : Nat} (hm : m ≠ 0) : 0 < maskSum m := by
  rcases Nat.ge_two_pow_implies_high_bit_true (x := m) (n := 0)
    (by omega) with ⟨i, _, hi⟩
  have hmB : m < 2 ^ (i + 1 + m) := by
    calc m < 2 ^ m := Nat.lt_two_pow m
    _ ≤ 2 ^ (i + 1 + m) := Nat.pow_le_pow_right (by omega) (by omega)
  rw [maskSum_eq_sum _ m hmB]
  have hterm : (1 : ℚ) / (i + 1) ≤ ∑ j ∈ Finset.range (i + 1 + m),
      if m.testBit j = true then (1 : ℚ) / (j + 1) else 0 := by
    have := Finset.single_le_sum
      (f := fun j => if m.testBit j = true then (1 : ℚ) / (j + 1) else 0)
      (fun j _ => by by_cases h : m.testBit j = true <;> simp [h] <;> positivity)
      (Finset.mem_range.2 (show i < i + 1 + m by omega))
    simpa [hi] using this
  have hpos : (0 : ℚ) < 1 / (i + 1) := by positivity
  linarith

theorem maskSum_lor_disjoint {a b : Nat} (hd : a &&& b = 0) :
    maskSum (a ||| b) = maskSum a + maskSum b := by
  have ha : a < 2 ^ (a + b + 1) := by
    calc a < 2 ^ a := Nat.lt_two_pow a
    _ ≤ 2 ^ (a + b + 1) := Nat.pow_le_pow_right (by omega) (by omega)
  have hb : b < 2 ^ (a + b + 1) := by
    calc b < 2 ^ b := Nat.lt_two_pow b
    _ ≤ 2 ^ (a + b + 1) := Nat.pow_le_pow_right (by omega) (by omega)
  have hab : a ||| b < 2 ^ (a + b + 1) := lor_lt_two_pow ha hb
  rw [maskSum_eq_sum _ _ ha, maskSum_eq_sum _ _ hb, maskSum_eq_sum _ _ hab,
    ← Finset.sum_add_distrib]
  apply Finset.sum_congr rfl
  intro i _
  have hnand : ¬(a.testBit i = true ∧ b.testBit i = true) := by
    rintro ⟨h1, h2⟩
    have := Nat.testBit_land a b i
    rw [hd, h1, h2] at this
    simp [Nat.zero_testBit] at this
  rw [Nat.testBit_lor]
  cases ha' : a.testBit i <;> cases hb' : b.testBit i <;>
    simp_all

theorem testBit_shiftLeft_one (p i : Nat) :
    (1 <<< p).testBit i = decide (p = i) := by
  rw [Nat.shiftLeft_eq, one_mul, Nat.testBit_two_pow]

theorem maskSum_single (p : Nat) : maskSum (1 <<< p) = (1 : ℚ) / (p + 1) := by
  have hlt : 1 <<< p < 2 ^ (p + 1) := by
    rw [Nat.shiftLeft_eq, one_mul]
    exact Nat.pow_lt_pow_right (by omega) (by omega)
  rw [maskSum_eq_sum (p + 1) _ hlt]
  simp only [testBit_shiftLeft_one, decide_eq_true_eq]
  rw [Finset.sum_ite_eq (Finset.range (p + 1)) p
    (fun i => (1 : ℚ) / (i + 1))]
  simp

/-! ### maxDenomOf lemmas -/

theorem foldr_max_le {L : List Nat} {q : Nat} (h : q ∈ L) :
    q + 1 ≤ L.foldr (fun p acc => max (p + 1) acc) 0 := by
  induction L with
  | nil => cases h
  | cons a L ih =>
    rcases List.mem_cons.1 h with rfl | h'
    · simp
    · simp only [List.foldr_cons]
      exact le_trans (ih h') (le_max_right _ _)

theorem foldr_max_mem {L : List Nat} (h : L ≠ []) :
    ∃ q ∈ L, L.foldr (fun p acc => max (p + 1) acc) 0 = q + 1 := by
  induction L with
  | nil => exact (h rfl).elim
  | cons a L ih =>
    rcases L with _ | ⟨b, L'⟩
    · exact ⟨a, by simp⟩
    · rcases ih (by simp) with ⟨q, hq, hfold⟩
      simp only [List.foldr_cons] at hfold ⊢
      by_cases hcmp : (b + 1) ⊔ List.foldr (fun p acc => max (p + 1) acc) 0 L' ≤ a + 1
      · exact ⟨a, by simp, by omega⟩
      · refine ⟨q, by simp [List.mem_cons] at hq ⊢; tauto, ?_⟩
        rw [hfold] at hcmp ⊢
        omega

theorem le_maxDenomOf {m i : Nat} (h : m.testBit i = true) :
    i + 1 ≤ maxDenomOf m := by
  have hmem : i ∈ bitPositions m 0 := by
    rw [mem_bitPositions m 0 i]
    exact ⟨i, by omega, h⟩
  exact foldr_max_le hmem

theorem maxDenomOf_mem {m : Nat} (hm : m ≠ 0) :
    ∃ i, m.testBit i = true ∧ maxDenomOf m = i + 1 := by
  rcases Nat.ge_two_pow_implies_high_bit_true (x := m) (n := 0)
    (by omega) with ⟨j, _, hj⟩
  have hne : bitPositions m 0 ≠ [] := by
    intro hnil
    have : j ∈ bitPositions m 0 := (mem_bitPositions m 0 j).2 ⟨j, by omega, hj⟩
    rw [hnil] at this; cases this
  rcases foldr_max_mem hne with ⟨q, hq, hfold⟩
  rcases (mem_bitPositions m 0 q).1 hq with ⟨i, rfl, hi⟩
  exact ⟨i, by simpa using hi, by simpa [maxDenomOf] using hfold⟩

theorem maxDenomOf_zero : maxDenomOf 0 = 0 := by
  simp [maxDenomOf, bitPositions_eq]

theorem maxDenomOf_le_iff (m B : Nat) :
    maxDenomOf m ≤ B ↔ ∀ i, m.testBit i = true → i + 1 ≤ B := by
  constructor
  · intro h i hi
    exact le_trans (le_maxDenomOf hi) h
  · intro h
    by_cases hm : m = 0
    · subst hm; simp [maxDenomOf_zero]
    · rcases maxDenomOf_mem hm with ⟨i, hi, heq⟩
      rw [heq]
      exact h i hi

theorem maxDenomOf_lor (a b : Nat) :
    maxDenomOf (a ||| b) = max (maxDenomOf a) (maxDenomOf b) := by
  apply le_antisymm
  · rw [maxDenomOf_le_iff]
    intro i hi
    rw [Nat.testBit_lor] at hi
    rcases Bool.or_eq_true_iff.1 hi with h | h
    · exact le_trans (le_maxDenomOf h) (le_max_left _ _)
    · exact le_trans (le_maxDenomOf h) (le_max_right _ _)
  · apply max_le
    · by_cases ha : a = 0
      · subst ha; simp [maxDenomOf_zero]
      · rcases maxDenomOf_mem ha with ⟨i, hi, heq⟩
        rw [heq]
        exact le_maxDenomOf (by rw [Nat.testBit_lor, hi]; rfl)
    · by_cases hb : b = 0
      · subst hb; simp [maxDenomOf_zero]
      · rcases maxDenomOf_mem hb with ⟨i, hi, heq⟩
        rw [heq]
        exact le_maxDenomOf (by rw [Nat.testBit_lor, hi, Bool.or_true])

theorem maxDenomOf_shiftLeft_one (p : Nat) : maxDenomOf (1 <<< p) = p + 1 := by
  apply le_antisymm
  · rw [maxDenomOf_le_iff]
    intro i hi
    rw [testBit_shiftLeft_one] at hi
    have := of_decide_eq_true hi
    omega
  · exact le_maxDenomOf (by rw [testBit_shiftLeft_one]; simp)

/-! ### Exact rational arithmetic -/

/-- Core correctness of `add_one_over_n`, with no reducedness assumption on
the input (the output is reduced regardless): positive denominator in,
positive reduced denominator out, and the exact value is `num/den + 1/n`. -/
theorem add_one_over_n_spec (num den n : Int) (hden : 0 < den) (hn : 0 < n) :
    0 < (add_one_over_n (num, den) n).2 ∧
      Int.gcd (add_one_over_n (num, den) n).1 (add_one_over_n (num, den) n).2 = 1 ∧
      pairQ (add_one_over_n (num, den) n) = pairQ (num, den) + 1 / (n : ℚ) := by
  simp only [add_one_over_n]
  set nnum : Int := num * n + den with hnnum
  set nden : Int := den * n with hnden
  have hndenpos : 0 < nden := mul_pos hden hn
  have hgn : Int.gcd nnum nden ≠ 0 := by
    intro h
    rcases Int.gcd_eq_zero_iff.1 h with ⟨_, h2⟩
    omega
  set g : Int := (Int.gcd nnum nden : Int) with hg
  have hgpos : 0 < g := by
    have := Int.natCast_pos.2 (Nat.pos_of_ne_zero hgn)
    simpa [hg] using this
  have hdvd1 : g ∣ nnum := Int.gcd_dvd_left
  have hdvd2 : g ∣ nden := Int.gcd_dvd_right
  have hf1 : nnum.fdiv g = nnum / g := Int.fdiv_eq_ediv nnum (le_of_lt hgpos)
  have hf2 : nden.fdiv g = nden / g := Int.fdiv_eq_ediv nden (le_of_lt hgpos)
  have hq1 : g * (nnum / g) = nnum := Int.mul_ediv_cancel' hdvd1
  have hq2 : g * (nden / g) = nden := Int.mul_ediv_cancel' hdvd2
  have hdenpos' : 0 < nden / g := by nlinarith [hq2]
  refine ⟨by simpa [hf2] using hdenpos', ?_, ?_⟩
  · have := Int.gcd_div_gcd_div_gcd (i := nnum) (j := nden)
      (Nat.pos_of_ne_zero hgn)
    simpa [hf1, hf2, hg] using this
  · simp only [hf1, hf2, pairQ]
    have hgQ : (g : ℚ) ≠ 0 := by
      exact_mod_cast ne_of_gt hgpos
    have hdenQ : (den : ℚ) ≠ 0 := by exact_mod_cast ne_of_gt hden
    have hnQ : (n : ℚ) ≠ 0 := by exact_mod_cast ne_of_gt hn
    have hndQ : ((nden / g : Int) : ℚ) ≠ 0 := by
      exact_mod_cast ne_of_gt hdenpos'
    have hc1 : (g : ℚ) * ((nnum / g : Int) : ℚ) = (nnum : ℚ) := by
      exact_mod_cast congrArg (fun z : Int => (z : ℚ)) hq1
    have hc2 : (g : ℚ) * ((nden / g : Int) : ℚ) = (nden : ℚ) := by
      exact_mod_cast congrArg (fun z : Int => (z : ℚ)) hq2
    have hval : ((nnum / g : Int) : ℚ) / ((nden / g : Int) : ℚ) =
        (nnum : ℚ) / (nden : ℚ) := by
      rw [← hc1, ← hc2]
      rw [mul_div_mul_left _ _ hgQ]
    rw [hval]
    have hnnumQ : (nnum : ℚ) = (num : ℚ) * (n : ℚ) + (den : ℚ) := by
      rw [hnnum]; push_cast; ring
    have hndenQ2 : (nden : ℚ) = (den : ℚ) * (n : ℚ) := by
      rw [hnden]; push_cast; ring
    rw [hnnumQ, hndenQ2]
    field_simp

/-- C8: for every fraction `(num, den)` in lowest terms with `den > 0` and
every positive integer `n`, `add_one_over_n ((num, den), n)` returns exactly
the rational `num/den + 1/n`, in lowest terms (gcd of the returned
numerator and denominator is `1`, denominator positive), with no loss of
precision. -/
theorem add_one_over_n_exact (num den n : Int) (hden : 0 < den) (hn : 0 < n)
    (hred : Int.gcd num den = 1) :
    0 < (add_one_over_n (num, den) n).2 ∧
      Int.gcd (add_one_over_n (num, den) n).1 (add_one_over_n (num, den) n).2 = 1 ∧
      pairQ (add_one_over_n (num, den) n) = pairQ (num, den) + 1 / (n : ℚ) :=
  add_one_over_n_spec num den n hden hn

/-- Witness for C8 at `num = 1`, `den = 2`, `n = 3`. -/
theorem add_one_over_n_exact_witness :
    ((0 : Int) < 2 ∧ (0 : Int) < 3 ∧ Int.gcd (1 : Int) 2 = 1) ∧
      (0 < (add_one_over_n (1, 2) 3).2 ∧
        Int.gcd (add_one_over_n (1, 2) 3).1 (add_one_over_n (1, 2) 3).2 = 1 ∧
        pairQ (add_one_over_n (1, 2) 3) = pairQ (1, 2) + 1 / (3 : ℚ)) :=
  ⟨⟨by decide, by decide, by decide⟩,
    add_one_over_n_exact 1 2 3 (by decide) (by decide) (by decide)⟩

/-! ### Rational comparison lemmas -/

theorem sign_sub_le_zero_iff (x y : Int) :
    ((if x > y then (1 : Int) else 0) - (if x < y then (1 : Int) else 0)) ≤ 0 ↔
      x ≤ y := by
  split_ifs with h1 h2 <;> omega

theorem rational_cmp_le_zero_iff (a b : Int × Int) :
    rational_cmp a b ≤ 0 ↔ a.1 * b.2 ≤ b.1 * a.2 := by
  simp only [rational_cmp]
  exact sign_sub_le_zero_iff _ _

theorem entry_le_iff {x y : HalfEntry} (hx : 0 < x.den) (hy : 0 < y.den) :
    entry_le x y = true ↔ qval x ≤ qval y := by
  rw [entry_le, decide_eq_true_iff, rational_cmp_le_zero_iff]
  simp only [qval]
  rw [div_le_div_iff (by exact_mod_cast hx) (by exact_mod_cast hy)]
  constructor
  · intro h; exact_mod_cast h
  · intro h; exact_mod_cast h

theorem entry_le_total (x y : HalfEntry) :
    entry_le x y = true ∨ entry_le y x = true := by
  simp only [entry_le, decide_eq_true_iff, rational_cmp_le_zero_iff]
  omega

theorem pair_le_one_iff {p : Int × Int} (hp : 0 < p.2) :
    p.1 ≤ p.2 ↔ pairQ p ≤ 1 := by
  rw [pairQ, div_le_one (by exact_mod_cast hp)]
  constructor
  · intro h; exact_mod_cast h
  · intro h; exact_mod_cast h

/-! ### Builder invariants -/

theorem extend_entries_inv {lo n : Nat} (hn1 : 1 ≤ n) (hn : lo ≤ n)
    {entries : List ((Int × Int) × Nat × Nat)}
    (h : ∀ e ∈ entries, entryInv lo n e) :
    ∀ e ∈ extend_entries entries n, entryInv lo (n + 1) e := by
  intro e he
  rcases List.mem_append.1 he with hold | hnew
  · rcases h e hold with ⟨h1, h2, h3, h4, h5, h6⟩
    exact ⟨h1, h2, h3, h4, h5, fun i hi => by
      rcases h6 i hi with ⟨ha, hb⟩; exact ⟨ha, by omega⟩⟩
  · rcases List.mem_filterMap.1 hnew with ⟨e₀, he₀, hf⟩
    rcases h e₀ he₀ with ⟨h1, h2, h3, h4, h5, h6⟩
    simp only at hf
    by_cases hguard : (add_one_over_n e₀.1 (n : Int)).1 ≤ (add_one_over_n e₀.1 (n : Int)).2
    swap
    · rw [if_neg hguard] at hf; cases hf
    rw [if_pos hguard] at hf
    have hnpos : (0 : Int) < (n : Int) := by exact_mod_cast (by omega : 0 < n)
    have hspec := add_one_over_n_spec e₀.1.1 e₀.1.2 (n : Int) h1 hnpos
    rcases hspec with ⟨hs1, hs2, hs3⟩
    have hdisj : e₀.2.1 &&& (1 <<< (n - 1)) = 0 := by
      apply Nat.eq_of_testBit_eq
      intro i
      rw [Nat.testBit_land, testBit_shiftLeft_one, Nat.zero_testBit]
      by_cases hbit : e₀.2.1.testBit i = true
      · rcases h6 i hbit with ⟨_, hlt⟩
        have : n - 1 ≠ i := by omega
        simp [hbit, this]
      · simp [Bool.eq_false_iff.2 hbit]
    have hmswap : maskSum (e₀.2.1 ||| (1 <<< (n - 1))) =
        maskSum e₀.2.1 + 1 / (n : ℚ) := by
      rw [maskSum_lor_disjoint hdisj, maskSum_single (n - 1)]
      have h1n : (1 : Nat) ≤ n := by omega
      have hcast : ((n - 1 : Nat) : ℚ) = (n : ℚ) - 1 := by
        rw [Nat.cast_sub h1n, Nat.cast_one]
      rw [hcast]
      ring_nf
    have hmax : maxDenomOf (e₀.2.1 ||| (1 <<< (n - 1))) = max e₀.2.2 n := by
      rw [maxDenomOf_lor, maxDenomOf_shiftLeft_one, h5]
      congr 1
      omega
    have he' := Option.some.inj hf
    subst he'
    refine ⟨hs1, hs2, ?_, ?_, ?_, ?_⟩
    · simp only
      rw [hs3, h3, hmswap]
      have : ((n : Int) : ℚ) = (n : ℚ) := by push_cast; rfl
      rw [this]
    · simp only
      exact ((pair_le_one_iff hs1).1 hguard)
    · simpa using hmax.symm
    · intro i hi
      simp only at hi
      rw [Nat.testBit_lor] at hi
      rcases Bool.or_eq_true_iff.1 hi with hb | hb
      · rcases h6 i hb with ⟨ha, hlt⟩
        exact ⟨ha, by omega⟩
      · rw [testBit_shiftLeft_one] at hb
        have := of_decide_eq_true hb
        subst this
        constructor <;> omega

theorem build_entries_inv (lo : Nat) (hlo : 1 ≤ lo) :
    ∀ c, ∀ e ∈ (List.range' lo c).foldl extend_entries [((0, 1), 0, 0)],
      entryInv lo (lo + c) e := by
  intro c
  induction c with
  | zero =>
    intro e he
    simp only [List.range'_zero, List.foldl_nil, List.mem_singleton] at he
    subst he
    refine ⟨by norm_num, by norm_num, ?_, ?_, ?_, ?_⟩
    · simp [pairQ, maskSum_zero]
    · simp [pairQ]
    · simp [maxDenomOf_zero]
    · intro i hi; simp [Nat.zero_testBit] at hi
  | succ c ih =>
    intro e he
    have hconcat : List.range' lo (c + 1) = List.range' lo c ++ [lo + c] := by
      have := (List.range'_concat lo c : List.range' lo (c + 1) 1 = _)
      simpa using this
    rw [hconcat, List.foldl_append, List.foldl_cons, List.foldl_nil] at he
    have hstep := extend_entries_inv (by omega : 1 ≤ lo + c)
      (by omega : lo ≤ lo + c) ih e he
    have : lo + c + 1 = lo + (c + 1) := by omega
    rwa [this] at hstep

/-- Every entry of `build_half_list lo hi` satisfies the full invariant. -/
theorem build_half_list_mem {lo hi : Nat} (hlo : 1 ≤ lo) :
    ∀ e ∈ build_half_list lo hi, halfEntryInv lo (lo + (hi - lo)) e := by
  intro e he
  simp only [build_half_list] at he
  rw [mem_insertion_sort] at he
  rcases List.mem_map.1 he with ⟨e₀, he₀, rfl⟩
  rcases build_entries_inv lo hlo (hi - lo) e₀ he₀ with ⟨h1, h2, h3, h4, h5, h6⟩
  exact ⟨h1, h2, h3, h4, h5, h6⟩

/-- The half list is sorted ascending by exact rational value. -/
theorem build_half_list_sorted {lo hi : Nat} (hlo : 1 ≤ lo) :
    (build_half_list lo hi).Pairwise (fun x y => qval x ≤ qval y) := by
  have hden : ∀ e ∈ (build_entries lo hi).map
      (fun e => HalfEntry.mk e.1.1 e.1.2 e.2.1 e.2.2), 0 < e.den := by
    intro e he
    rcases List.mem_map.1 he with ⟨e₀, he₀, rfl⟩
    exact (build_entries_inv lo hlo (hi - lo) e₀ he₀).1
  have hpw := pairwise_insertion_sort entry_le
    ((build_entries lo hi).map (fun e => HalfEntry.mk e.1.1 e.1.2 e.2.1 e.2.2))
    (fun x _ y _ => entry_le_total x y)
    (fun x hx y hy z hz h1 h2 => by
      rw [entry_le_iff (hden x hx) (hden y hy)] at h1
      rw [entry_le_iff (hden y hy) (hden z hz)] at h2
      rw [entry_le_iff (hden x hx) (hden z hz)]
      exact le_trans h1 h2)
  have hmemden : ∀ e ∈ build_half_list lo hi, 0 < e.den := by
    intro e he
    exact (build_half_list_mem hlo e he).1
  simp only [build_half_list] at hpw ⊢
  refine List.Pairwise.imp_of_mem ?_ hpw
  intro a b ha hb hle
  have hda : 0 < a.den := hmemden a (by simpa [build_half_list] using ha)
  have hdb : 0 < b.den := hmemden b (by simpa [build_half_list] using hb)
  exact (entry_le_iff hda hdb).1 hle

/-- C7: for `1 ≤ lo ≤ hi`, every entry of `build_half_list lo hi` has value
at most `1`, value exactly the sum of `1/d` over the denominators encoded
by its mask bits, and `max_denom` the largest such denominator; and the
returned list is sorted ascending by exact rational value. -/
theorem build_half_list_correct (lo hi : Nat) (hlo : 1 ≤ lo) (hhi : lo ≤ hi) :
    (∀ e ∈ build_half_list lo hi,
      qval e ≤ 1 ∧ qval e = maskSum e.mask ∧ e.max_denom = maxDenomOf e.mask) ∧
      (build_half_list lo hi).Pairwise (fun x y => qval x ≤ qval y) := by
  constructor
  · intro e he
    rcases build_half_list_mem hlo e he with ⟨_, _, h3, h4, h5, _⟩
    exact ⟨h4, h3, h5⟩
  · exact build_half_list_sorted hlo

/-- Witness for C7 at `lo = 1`, `hi = 3`. -/
theorem build_half_list_correct_witness :
    (1 ≤ 1 ∧ 1 ≤ 3) ∧
      ((∀ e ∈ build_half_list 1 3,
        qval e ≤ 1 ∧ qval e = maskSum e.mask ∧ e.max_denom = maxDenomOf e.mask) ∧
        (build_half_list 1 3).Pairwise (fun x y => qval x ≤ qval y)) :=
  ⟨⟨by decide, by decide⟩, build_half_list_correct 1 3 (by decide) (by decide)⟩

/-! ### Boundary behavior of the orchestrator -/

/-- C9: every integer `N ≤ 1` yields the empty list (invalid input is
handled by returning an empty result, not an error), and `N = 2` yields
`[0]`. -/
theorem A390393List_boundary :
    (∀ N : Int, N ≤ 1 → A390393List N = []) ∧ A390393List 2 = [0] := by
  constructor
  · intro N hN
    simp [A390393List, hN]
  · rfl

/-- Witness for C9, instantiating the guarded part at `N = -5`. -/
theorem A390393List_boundary_witness :
    ((-5 : Int) ≤ 1 ∧ A390393List (-5) = []) ∧ A390393List 2 = [0] :=
  ⟨⟨by decide, A390393List_boundary.1 (-5) (by decide)⟩, A390393List_boundary.2⟩

/-- C6 (behavior the code actually has, contradicting the specified fatal
error): when the hitting-set search fails for every budget `k ≤ n`, the
orchestrator's loop body silently appends `0` to the results and sets
`current_k = n`; no error of any kind is raised.  Demonstrated on the loop
state with the single active obstruction mask `2` (denominator `2`, not
yet eligible at `n = 1`), on which the solver fails for every budget. -/
theorem A390393Step_silent_zero :
    (∀ k, exists_hitting_set (buildElemToMask [2] 1) 1 k = false) ∧
      A390393Step [] ⟨[], [2], 0⟩ 1 = ⟨[0], [2], 1⟩ := by
  constructor
  · intro k
    have helem : buildElemToMask [2] 1 = [] := rfl
    rw [helem]
    cases k <;> simp [exists_hitting_set, solve]
  · rfl

/-! ### Exactness of the hitting-set solver -/

theorem exists_testBit_of_ne_zero {m : Nat} (hm : m ≠ 0) :
    ∃ i, m.testBit i = true := by
  rcases Nat.ge_two_pow_implies_high_bit_true (x := m) (n := 0)
    (by omega) with ⟨i, _, hi⟩
  exact ⟨i, hi⟩

theorem eq_zero_iff_no_testBit (m : Nat) :
    m = 0 ↔ ∀ i, m.testBit i = false := by
  constructor
  · intro h; subst h; exact Nat.zero_testBit
  · intro h
    by_contra hm
    rcases exists_testBit_of_ne_zero hm with ⟨i, hi⟩
    rw [h i] at hi
    exact Bool.false_ne_true hi

theorem solve_zero (elems : List Nat) (rem : Nat) :
    solve elems rem 0 = if rem = 0 then true else false := rfl

theorem solve_succ (elems : List Nat) (rem k : Nat) :
    solve elems rem (k + 1) =
      if rem = 0 then true
      else
        (fun candidates =>
          (fun max_cov =>
            if max_cov = 0 then false
            else if k + 1 < (popCount rem + max_cov - 1) / max_cov then false
            else (insertion_sort (fun x y =>
                decide (y.1 < x.1) || (decide (y.1 = x.1) && decide (y.2 ≤ x.2)))
                candidates).any
              (fun c => solve elems (and_not rem c.2) k))
          (candidates.foldl (fun acc c => max acc c.1) 0))
        (elems.filterMap (fun mask =>
          if mask &&& rem ≠ 0 then some (popCount (mask &&& rem), mask &&& rem)
          else none)) := rfl

theorem foldl_max_init_le (L : List (Nat × Nat)) :
    ∀ a : Nat, a ≤ L.foldl (fun acc c => max acc c.1) a := by
  induction L with
  | nil => intro a; simp
  | cons x L ih =>
    intro a
    simp only [List.foldl_cons]
    exact le_trans (le_max_left a x.1) (ih (max a x.1))

theorem le_foldl_max {L : List (Nat × Nat)} {x : Nat × Nat} (hx : x ∈ L) :
    ∀ a : Nat, x.1 ≤ L.foldl (fun acc c => max acc c.1) a := by
  induction L with
  | nil => cases hx
  | cons y L ih =>
    intro a
    simp only [List.foldl_cons]
    rcases List.mem_cons.1 hx with rfl | hx'
    · exact le_trans (le_max_right a x.1) (foldl_max_init_le L _)
    · exact ih hx' _

theorem sum_map_const {β : Type _} (l : List β) (c : Nat) :
    (l.map (fun _ => c)).sum = l.length * c := by
  induction l with
  | nil => simp
  | cons x l ih =>
    simp only [List.map_cons, List.sum_cons, List.length_cons, ih]
    ring

theorem land_lor_and_not (rem m : Nat) :
    (rem &&& m) ||| and_not rem m = rem := by
  apply Nat.eq_of_testBit_eq
  intro i
  rw [Nat.testBit_lor, Nat.testBit_land, and_not_testBit]
  cases rem.testBit i <;> cases m.testBit i <;> rfl

/-- Counting bound behind the pruning rule: if `l` covers every bit of
`rem`, the bit count of `rem` is at most the sum of the covered counts. -/
theorem coversMask_popCount_le {l : List Nat} {rem : Nat}
    (h : coversMask l rem) :
    popCount rem ≤ (l.map (fun m => popCount (m &&& rem))).sum := by
  induction l generalizing rem with
  | nil =>
    have : rem = 0 := by
      rw [eq_zero_iff_no_testBit]
      intro i
      by_contra hbit
      rcases h i (Bool.of_not_eq_false hbit) with ⟨m, hm, _⟩
      cases hm
    subst this
    simp [popCount, popCountF_zero]
  | cons m l ih =>
    have hsplit : popCount rem ≤ popCount (rem &&& m) + popCount (and_not rem m) := by
      calc popCount rem = popCount ((rem &&& m) ||| and_not rem m) := by
            rw [land_lor_and_not]
      _ ≤ _ := popCount_lor_le _ _
    have hrest : coversMask l (and_not rem m) := by
      intro i hi
      rw [and_not_testBit] at hi
      rcases Bool.and_eq_true_iff.1 hi with ⟨h1, h2⟩
      rcases h i h1 with ⟨m', hm', hbit⟩
      rcases List.mem_cons.1 hm' with rfl | hm''
      · rw [hbit] at h2; cases h2
      · exact ⟨m', hm'', hbit⟩
    have hih := ih hrest
    have hmono : (l.map (fun q => popCount (q &&& and_not rem m))).sum ≤
        (l.map (fun q => popCount (q &&& rem))).sum := by
      apply List.sum_le_sum
      intro q _
      apply popCount_le_of_subset
      intro i hi
      rw [Nat.testBit_land] at hi ⊢
      rcases Bool.and_eq_true_iff.1 hi with ⟨h1, h2⟩
      rw [and_not_testBit] at h2
      rcases Bool.and_eq_true_iff.1 h2 with ⟨h3, _⟩
      rw [h1, h3]
      rfl
    have hcomm : popCount (rem &&& m) = popCount (m &&& rem) := by
      rw [Nat.land_comm]
    simp only [List.map_cons, List.sum_cons]
    omega

/-- Exactness of `solve`: it returns `true` exactly when some list of at
most `k` masks drawn from `elems` covers every set bit of `rem`. -/
theorem solve_iff (elems : List Nat) :
    ∀ k rem, solve elems rem k = true ↔
      ∃ l : List Nat, (∀ m ∈ l, m ∈ elems) ∧ l.length ≤ k ∧ coversMask l rem := by
  intro k
  induction k with
  | zero =>
    intro rem
    rw [solve_zero]
    by_cases hrem : rem = 0
    · subst hrem
      constructor
      · intro _
        exact ⟨[], by simp, by simp, fun i hi => by simp [Nat.zero_testBit] at hi⟩
      · intro _
        rw [if_pos rfl]
    · simp only [if_neg hrem]
      constructor
      · intro h; cases h
      · rintro ⟨l, _, hlen, hcov⟩
        have hl : l = [] := List.length_eq_zero.1 (by omega)
        subst hl
        rcases exists_testBit_of_ne_zero hrem with ⟨i, hi⟩
        rcases hcov i hi with ⟨m, hm, _⟩
        cases hm
  | succ k ih =>
    intro rem
    rw [solve_succ]
    by_cases hrem : rem = 0
    · subst hrem
      constructor
      · intro _
        exact ⟨[], by simp, by simp, fun i hi => by simp [Nat.zero_testBit] at hi⟩
      · intro _
        rw [if_pos rfl]
    · simp only [if_neg hrem]
      set cands := elems.filterMap (fun mask =>
        if mask &&& rem ≠ 0 then some (popCount (mask &&& rem), mask &&& rem)
        else none) with hcands
      set max_cov := cands.foldl (fun acc c => max acc c.1) 0 with hmc
      have hmem_cands : ∀ c : Nat × Nat, c ∈ cands ↔
          ∃ m ∈ elems, m &&& rem ≠ 0 ∧ c = (popCount (m &&& rem), m &&& rem) := by
        intro c
        rw [hcands, List.mem_filterMap]
        constructor
        · rintro ⟨m, hm, hf⟩
          by_cases hz : m &&& rem ≠ 0
          · rw [if_pos hz] at hf
            exact ⟨m, hm, hz, (Option.some.inj hf).symm⟩
          · rw [if_neg hz] at hf; cases hf
        · rintro ⟨m, hm, hz, rfl⟩
          exact ⟨m, hm, by rw [if_pos hz]⟩
      constructor
      · -- soundness
        intro h
        by_cases hmc0 : max_cov = 0
        · rw [if_pos hmc0] at h; cases h
        rw [if_neg hmc0] at h
        by_cases hprune : k + 1 < (popCount rem + max_cov - 1) / max_cov
        · rw [if_pos hprune] at h; cases h
        rw [if_neg hprune] at h
        rcases List.any_eq_true.1 h with ⟨c, hcmem, hcsolve⟩
        rw [mem_insertion_sort] at hcmem
        rcases (hmem_cands c).1 hcmem with ⟨m, hmelems, hmz, rfl⟩
        rcases (ih (and_not rem (m &&& rem))).1 hcsolve with ⟨l, hlmem, hllen, hlcov⟩
        refine ⟨m :: l, ?_, by simpa using hllen, ?_⟩
        · intro q hq
          rcases List.mem_cons.1 hq with rfl | hq'
          · exact hmelems
          · exact hlmem q hq'
        · intro i hi
          by_cases hmi : m.testBit i = true
          · exact ⟨m, by simp, hmi⟩
          · have : (and_not rem (m &&& rem)).testBit i = true := by
              rw [and_not_testBit, Nat.testBit_land]
              rw [hi, Bool.eq_false_iff.2 hmi]
              rfl
            rcases hlcov i this with ⟨q, hq, hqbit⟩
            exact ⟨q, by simp [List.mem_cons, hq], hqbit⟩
      · -- completeness
        rintro ⟨l, hlmem, hllen, hlcov⟩
        rcases exists_testBit_of_ne_zero hrem with ⟨i0, hi0⟩
        rcases hlcov i0 hi0 with ⟨m0, hm0l, hm0bit⟩
        have hm0elems : m0 ∈ elems := hlmem m0 hm0l
        have hcov0 : m0 &&& rem ≠ 0 := by
          intro hz
          have := Nat.testBit_land m0 rem i0
          rw [hz, hm0bit, hi0, Nat.zero_testBit] at this
          cases this
        have hc0mem : (popCount (m0 &&& rem), m0 &&& rem) ∈ cands :=
          (hmem_cands _).2 ⟨m0, hm0elems, hcov0, rfl⟩
        have hc0le : popCount (m0 &&& rem) ≤ max_cov := le_foldl_max hc0mem 0
        have hc0pos : 0 < popCount (m0 &&& rem) := by
          rcases Nat.eq_zero_or_pos (popCount (m0 &&& rem)) with hz | hp
          · exact absurd ((popCount_zero_iff _).1 hz) hcov0
          · exact hp
        have hmcpos : 0 < max_cov := lt_of_lt_of_le hc0pos hc0le
        rw [if_neg (by omega : ¬max_cov = 0)]
        have hcount : popCount rem ≤ (k + 1) * max_cov := by
          have h1 := coversMask_popCount_le hlcov
          have h2 : (l.map (fun m => popCount (m &&& rem))).sum ≤
              l.length * max_cov := by
            have : ∀ q ∈ l, popCount (q &&& rem) ≤ max_cov := by
              intro q hq
              by_cases hz : q &&& rem ≠ 0
              · exact le_foldl_max ((hmem_cands _).2 ⟨q, hlmem q hq, hz, rfl⟩) 0
              · have : q &&& rem = 0 := by tauto
                rw [this]
                simp [popCount, popCountF_zero]
            calc (l.map (fun m => popCount (m &&& rem))).sum
                ≤ (l.map (fun _ => max_cov)).sum := by
                  apply List.sum_le_sum
                  intro q hq
                  exact this q hq
            _ = l.length * max_cov := sum_map_const l max_cov
          calc popCount rem ≤ (l.map (fun m => popCount (m &&& rem))).sum := h1
          _ ≤ l.length * max_cov := h2
          _ ≤ (k + 1) * max_cov := Nat.mul_le_mul_right _ (by omega)
        have hnoprune : ¬(k + 1 < (popCount rem + max_cov - 1) / max_cov) := by
          have hdiv : (popCount rem + max_cov - 1) / max_cov ≤ k + 1 := by
            rw [Nat.div_le_iff_le_mul_add_pred hmcpos]
            have : max_cov * (k + 1) = (k + 1) * max_cov := by ring
            omega
          omega
        rw [if_neg hnoprune]
        apply List.any_eq_true.2
        refine ⟨(popCount (m0 &&& rem), m0 &&& rem), ?_, ?_⟩
        · rw [mem_insertion_sort]
          exact hc0mem
        · apply (ih (and_not rem (m0 &&& rem))).2
          refine ⟨l.erase m0, ?_, ?_, ?_⟩
          · intro q hq
            exact hlmem q (List.mem_of_mem_erase hq)
          · have := List.length_erase_of_mem hm0l
            omega
          · intro i hi
            rw [and_not_testBit, Nat.testBit_land] at hi
            rcases Bool.and_eq_true_iff.1 hi with ⟨h1, h2⟩
            rcases hlcov i h1 with ⟨q, hql, hqbit⟩
            have hqne : q ≠ m0 := by
              intro hqeq
              subst hqeq
              rw [hqbit, h1] at h2
              simp at h2
            exact ⟨q, (List.mem_erase_of_ne hqne).2 hql, hqbit⟩

theorem testBit_full_mask (num_obs i : Nat) :
    ((1 <<< num_obs) - 1).testBit i = true ↔ i < num_obs := by
  rw [Nat.shiftLeft_eq, one_mul, Nat.testBit_two_pow_sub_one]
  exact decide_eq_true_iff

/-- Exactness of `exists_hitting_set` against the subset-existence
specification. -/
theorem hs_iff (elems : List (Nat × Nat)) (num_obs t : Nat) :
    exists_hitting_set elems num_obs t = true ↔ HS elems num_obs t := by
  rw [exists_hitting_set]
  rw [solve_iff]
  constructor
  · rintro ⟨l, hlmem, hllen, hlcov⟩
    have hdn : l.dedup.Nodup := l.nodup_dedup
    have hdsub : l.dedup ⊆ elems.map Prod.snd := by
      intro m hm
      exact hlmem m (l.dedup_sublist.subset hm)
    rcases hdn.subperm hdsub with ⟨l2, hl2perm, hl2sub⟩
    rcases List.sublist_map_iff.1 hl2sub with ⟨subP, hsubP, hl2eq⟩
    refine ⟨subP, hsubP, ?_, ?_⟩
    · have h1 : l2.length = l.dedup.length := hl2perm.length_eq
      have h2 : l.dedup.length ≤ l.length := l.dedup_sublist.length_le
      have h3 : subP.length = l2.length := by rw [hl2eq, List.length_map]
      omega
    · intro i hi
      have hbit : ((1 <<< num_obs) - 1).testBit i = true :=
        (testBit_full_mask num_obs i).2 hi
      rcases hlcov i hbit with ⟨m, hml, hmbit⟩
      have hmdedup : m ∈ l.dedup := List.mem_dedup.2 hml
      have hml2 : m ∈ l2 := hl2perm.mem_iff.2 hmdedup
      rw [hl2eq] at hml2
      rcases List.mem_map.1 hml2 with ⟨p, hp, hpeq⟩
      exact ⟨p, hp, by rw [hpeq]; exact hmbit⟩
  · rintro ⟨subP, hsubP, hlen, hcov⟩
    refine ⟨subP.map Prod.snd, ?_, by simpa using hlen, ?_⟩
    · intro m hm
      rcases List.mem_map.1 hm with ⟨p, hp, rfl⟩
      exact List.mem_map.2 ⟨p, hsubP.subset hp, rfl⟩
    · intro i hbit
      have hi : i < num_obs := (testBit_full_mask num_obs i).1 hbit
      rcases hcov i hi with ⟨p, hp, hpbit⟩
      exact ⟨p.2, List.mem_map.2 ⟨p, hp, rfl⟩, hpbit⟩

/-- Exactness of the idealized exact-ceiling solver: `exists_hitting_set`
returns `true` if and only if some set of at most `permitted` candidate
elements covers all `num_obs` bits.  The source's float prune diverges
from this idealization once ceilings exceed `2 ^ 53` — see
`exists_hitting_set_float_counterexample` — so the claim-level statement
lives on the faithful `exists_hitting_setF` instead. -/
theorem exists_hitting_set_exact (elem_to_mask : List (Nat × Nat))
    (num_obs permitted : Nat) :
    exists_hitting_set elem_to_mask num_obs permitted = true ↔
      HS elem_to_mask num_obs permitted :=
  hs_iff elem_to_mask num_obs permitted

/-! ### The float-pruned solver: bit lengths, correct rounding, agreement -/

theorem bitLenF_zero (fuel : Nat) : bitLenF fuel 0 = 0 := by
  cases fuel <;> simp [bitLenF]

theorem bitLenF_congr : ∀ {f1 f2 n : Nat}, n ≤ f1 → n ≤ f2 →
    bitLenF f1 n = bitLenF f2 n := by
  intro f1
  induction f1 with
  | zero => intro f2 n h1 _; interval_cases n; simp [bitLenF_zero]
  | succ f ih =>
    intro f2 n h1 h2
    by_cases hn : n = 0
    · subst hn; simp [bitLenF_zero]
    · rcases f2 with _ | f2'
      · omega
      · simp only [bitLenF, hn, if_false]
        have hd : n / 2 ≤ f := by omega
        have hd2 : n / 2 ≤ f2' := by omega
        rw [ih hd hd2]

theorem bitLen_eq (n : Nat) :
    bitLen n = if n = 0 then 0 else bitLen (n / 2) + 1 := by
  by_cases hn : n = 0
  · subst hn; simp [bitLen, bitLenF_zero]
  · rcases n with _ | m
    · exact (hn rfl).elim
    · simp only [bitLen, bitLenF, hn, if_false]
      have : (m + 1) / 2 ≤ m := by omega
      rw [bitLenF_congr this (Nat.le_refl _)]

theorem bitLen_bounds : ∀ n : Nat, n ≠ 0 →
    2 ^ (bitLen n - 1) ≤ n ∧ n < 2 ^ bitLen n := by
  intro n
  induction n using Nat.strong_induction_on with
  | _ n ih =>
    intro hn
    rw [bitLen_eq, if_neg hn]
    by_cases h2 : n / 2 = 0
    · have hn1 : n = 1 := by omega
      subst hn1
      norm_num [bitLen, bitLenF]
    · have hlt : n / 2 < n := by omega
      obtain ⟨h1, h1'⟩ := ih (n / 2) hlt h2
      have hL1 : 1 ≤ bitLen (n / 2) := by
        rcases Nat.eq_zero_or_pos (bitLen (n / 2)) with h | h
        · rw [h, pow_zero] at h1'; omega
        · exact h
      constructor
      · have hpow : 2 ^ (bitLen (n / 2) + 1 - 1) =
            2 * 2 ^ (bitLen (n / 2) - 1) := by
          rw [show bitLen (n / 2) + 1 - 1 = bitLen (n / 2) - 1 + 1 by omega,
            pow_succ]
          ring
        rw [hpow]
        omega
      · have hpow : 2 ^ (bitLen (n / 2) + 1) = 2 * 2 ^ bitLen (n / 2) := by
          rw [pow_succ]
          ring
        rw [hpow]
        omega

theorem rne_le {num den C : Nat} (hden : 0 < den) (h : num ≤ C * den) :
    rne num den ≤ C := by
  have hdm := Nat.div_add_mod num den
  have hrlt : num % den < den := Nat.mod_lt _ hden
  have hqC : num / den ≤ C := by
    have h1 : (num / den) * den ≤ C * den := by
      rw [Nat.mul_comm (num / den) den]
      omega
    exact Nat.le_of_mul_le_mul_right h1 hden
  have hstrict : 0 < num % den → num / den < C := by
    intro hr0
    have h1 : (num / den) * den < C * den := by
      rw [Nat.mul_comm (num / den) den]
      omega
    exact lt_of_mul_lt_mul_right h1 (Nat.zero_le den)
  simp only [rne]
  split_ifs with h1 h2 h3
  · have hr0 : 0 < num % den := by omega
    have := hstrict hr0
    omega
  · exact hqC
  · exact hqC
  · have hr0 : 0 < num % den := by omega
    have := hstrict hr0
    omega

/-- Core admissibility on a fixed binade `E ≤ 52`: no overflow, and the
ceiling of the rounded quotient is at most the exact ceiling, because the
exact ceiling times the grid width bounds the scaled significand. -/
theorem pyCeilDiv_core {a b E : Nat} (hb : 0 < b)
    (hc0 : a ≤ ((a + b - 1) / b) * b)
    (hlow : 2 ^ E * b ≤ a) (hcorner : a < b * 2 ^ 53) :
    ∃ c, pyCeilDivWith a b (E : Int) = some c ∧ c ≤ (a + b - 1) / b := by
  have hE52 : E ≤ 52 := by
    by_contra hcon
    push_neg at hcon
    have h1 : 2 ^ 53 ≤ 2 ^ E := Nat.pow_le_pow_right (by omega) (by omega)
    have h2 : 2 ^ 53 * b ≤ 2 ^ E * b := Nat.mul_le_mul_right _ h1
    have h3 : b * 2 ^ 53 = 2 ^ 53 * b := Nat.mul_comm _ _
    omega
  have hnsub : ¬((E : Int) < -1022) := by omega
  have hnov : ∀ m : Nat, ¬((1024 : Int) ≤ (E : Int) ∨
      ((E : Int) = 1023 ∧ m = 2 ^ 53)) := by
    intro m
    rintro (h | ⟨h, _⟩) <;> omega
  simp only [pyCeilDivWith]
  rw [if_neg hnsub]
  by_cases h52 : (52 : Int) ≤ (E : Int)
  · have hEeq : E = 52 := by omega
    subst hEeq
    rw [if_pos h52]
    have htz : (((52 : Nat) : Int) - 52).toNat = 0 := by omega
    rw [htz, pow_zero, mul_one]
    rw [if_neg (hnov _)]
    rw [if_pos h52]
    rw [mul_one]
    exact ⟨rne a b, rfl, rne_le hb hc0⟩
  · rw [if_neg h52]
    have htz : ((52 : Int) - (E : Int)).toNat = 52 - E := by omega
    rw [htz]
    rw [if_neg (hnov _)]
    rw [if_neg h52]
    refine ⟨_, rfl, ?_⟩
    have hm : rne (a * 2 ^ (52 - E)) b ≤ ((a + b - 1) / b) * 2 ^ (52 - E) := by
      apply rne_le hb
      have h1 : a * 2 ^ (52 - E) ≤ (((a + b - 1) / b) * b) * 2 ^ (52 - E) :=
        Nat.mul_le_mul_right _ hc0
      have h2 : (((a + b - 1) / b) * b) * 2 ^ (52 - E) =
          (((a + b - 1) / b) * 2 ^ (52 - E)) * b := by ring
      omega
    have hDpos : 0 < 2 ^ (52 - E) := Nat.two_pow_pos _
    rw [Nat.div_le_iff_le_mul_add_pred hDpos]
    have hcm : 2 ^ (52 - E) * ((a + b - 1) / b) =
        ((a + b - 1) / b) * 2 ^ (52 - E) := Nat.mul_comm _ _
    omega

/-- Admissibility of the float prune: as long as the exact ceiling stays
at most `2 ^ 53` (so it is exactly representable as a double), the float
ceiling neither overflows nor exceeds it — rounding the quotient to the
nearest double cannot jump past a representable integer above it. -/
theorem pyCeilDiv_le_ceil {a b : Nat} (hb : 0 < b) (hba : b ≤ a)
    (ha : a ≤ 2 ^ 53) :
    ∃ c, pyCeilDiv a b = some c ∧ c ≤ (a + b - 1) / b := by
  have hc0 : a ≤ ((a + b - 1) / b) * b := by
    have hdm := Nat.div_add_mod (a + b - 1) b
    have hrlt : (a + b - 1) % b < b := Nat.mod_lt _ hb
    have hcm := Nat.mul_comm ((a + b - 1) / b) b
    omega
  by_cases hcorner : b * 2 ^ 53 ≤ a
  · have hb1 : b = 1 := by
      by_contra hbne
      have h2 : 2 ≤ b := by omega
      have h3 : 2 * 2 ^ 53 ≤ b * 2 ^ 53 := Nat.mul_le_mul_right _ h2
      omega
    subst hb1
    rw [one_mul] at hcorner
    have ha1 : a = 2 ^ 53 := by omega
    subst ha1
    refine ⟨2 ^ 53, by decide, ?_⟩
    norm_num
  · push_neg at hcorner
    have ha0 : a ≠ 0 := by omega
    have hb0 : b ≠ 0 := by omega
    obtain ⟨hda, hda2⟩ := bitLen_bounds a ha0
    obtain ⟨hdb, hdb2⟩ := bitLen_bounds b hb0
    simp only [pyCeilDiv]
    rw [if_neg hb0, if_neg ha0]
    set d := bitLen a with hdv
    set db := bitLen b with hdbv
    have hd1 : 1 ≤ d := by
      rcases Nat.eq_zero_or_pos d with h | h
      · rw [h, pow_zero] at hda2; omega
      · exact h
    have hdb1 : 1 ≤ db := by
      rcases Nat.eq_zero_or_pos db with h | h
      · rw [h, pow_zero] at hdb2; omega
      · exact h
    have hdble : db ≤ d := by
      by_contra hcon
      push_neg at hcon
      have h1 : 2 ^ d ≤ 2 ^ (db - 1) := Nat.pow_le_pow_right (by omega) (by omega)
      omega
    have ht1 : ((d : Int) - (db : Int)).toNat = d - db := by omega
    have ht2 : (-((d : Int) - (db : Int))).toNat = 0 := by omega
    rw [ht1, ht2, pow_zero, mul_one]
    by_cases hbr : b * 2 ^ (d - db) ≤ a
    · rw [if_pos hbr]
      have hE : (d : Int) - (db : Int) = ((d - db : Nat) : Int) := by omega
      rw [hE]
      have hlow : 2 ^ (d - db) * b ≤ a := by
        rw [Nat.mul_comm]
        exact hbr
      exact pyCeilDiv_core hb hc0 hlow hcorner
    · rw [if_neg hbr]
      have hddb : db + 1 ≤ d := by
        by_contra hcon
        push_neg at hcon
        have hdeq : d = db := by omega
        exact hbr (by rw [hdeq, Nat.sub_self, pow_zero, mul_one]; exact hba)
      have hE : (d : Int) - (db : Int) - 1 = ((d - db - 1 : Nat) : Int) := by omega
      rw [hE]
      have hlow : 2 ^ (d - db - 1) * b ≤ a := by
        have h1 : 2 ^ (d - db - 1) * b < 2 ^ (d - db - 1) * 2 ^ db :=
          mul_lt_mul_of_pos_left hdb2 (Nat.two_pow_pos _)
        have h2 : 2 ^ (d - db - 1) * 2 ^ db = 2 ^ (d - 1) := by
          rw [← pow_add]
          congr 1
          omega
        omega
      exact pyCeilDiv_core hb hc0 hlow hcorner

theorem solveF_zero (elems : List Nat) (rem : Nat) :
    solveF elems rem 0 =
      if rem = 0 then Except.ok true else Except.ok false := rfl

theorem solveF_succ (elems : List Nat) (rem k : Nat) :
    solveF elems rem (k + 1) =
      if rem = 0 then Except.ok true
      else
        (fun candidates =>
          (fun max_cov =>
            if max_cov = 0 then Except.ok false
            else
              if pyCeilDiv (popCount rem) max_cov = none then Except.error ()
              else if k + 1 < (pyCeilDiv (popCount rem) max_cov).getD 0 then
                Except.ok false
              else branchLoop
                (fun c => solveF elems (and_not rem c.2) k)
                (insertion_sort (fun x y =>
                  decide (y.1 < x.1) || (decide (y.1 = x.1) && decide (y.2 ≤ x.2)))
                  candidates))
          (candidates.foldl (fun acc c => max acc c.1) 0))
        (elems.filterMap (fun mask =>
          if mask &&& rem ≠ 0 then some (popCount (mask &&& rem), mask &&& rem)
          else none)) := rfl

/-- `branchLoop` on branches that never raise is `any` of their values. -/
theorem branchLoop_ok {f : Nat × Nat → Except Unit Bool} {G : Nat × Nat → Bool} :
    ∀ L : List (Nat × Nat), (∀ x ∈ L, f x = Except.ok (G x)) →
      branchLoop f L = Except.ok (L.any G) := by
  intro L
  induction L with
  | nil => intro _; rfl
  | cons c cs ih =>
    intro h
    have hc := h c (List.mem_cons_self c cs)
    simp only [branchLoop, List.any_cons]
    rw [hc]
    rcases hG : G c with _ | _
    · show branchLoop f cs = Except.ok (false || cs.any G)
      rw [Bool.false_or]
      exact ih (fun y hy => h y (List.mem_cons_of_mem c hy))
    · rfl

/-- Membership characterization of the solver's candidate list. -/
theorem mem_solve_candidates (elems : List Nat) (rem : Nat) (c : Nat × Nat) :
    c ∈ elems.filterMap (fun mask =>
        if mask &&& rem ≠ 0 then some (popCount (mask &&& rem), mask &&& rem)
        else none) ↔
      ∃ m ∈ elems, m &&& rem ≠ 0 ∧ c = (popCount (m &&& rem), m &&& rem) := by
  rw [List.mem_filterMap]
  constructor
  · rintro ⟨m, hm, hf⟩
    by_cases hz : m &&& rem ≠ 0
    · rw [if_pos hz] at hf
      exact ⟨m, hm, hz, (Option.some.inj hf).symm⟩
    · rw [if_neg hz] at hf; cases hf
  · rintro ⟨m, hm, hz, rfl⟩
    exact ⟨m, hm, by rw [if_pos hz]⟩

theorem foldl_max_le {B : Nat} : ∀ L : List (Nat × Nat),
    (∀ x ∈ L, x.1 ≤ B) → ∀ a : Nat, a ≤ B →
      L.foldl (fun acc c => max acc c.1) a ≤ B := by
  intro L
  induction L with
  | nil => intro _ a ha; simpa using ha
  | cons x L ih =>
    intro h a ha
    simp only [List.foldl_cons]
    exact ih (fun y hy => h y (List.mem_cons_of_mem x hy)) _
      (max_le ha (h x (List.mem_cons_self x L)))

theorem popCount_shiftLeft_one (p : Nat) : popCount (1 <<< p) = 1 := by
  induction p with
  | zero => rfl
  | succ p ih =>
    have h1 : (1 <<< (p + 1) : Nat) = 2 * (1 <<< p) := by
      rw [Nat.shiftLeft_eq, Nat.shiftLeft_eq, one_mul, one_mul, pow_succ]
      ring
    rw [h1, popCount_eq]
    have hpos := Nat.two_pow_pos p
    rw [Nat.shiftLeft_eq, one_mul] at ih ⊢
    rw [if_neg (by omega : ¬(2 * 2 ^ p = 0))]
    have h2 : 2 * 2 ^ p % 2 = 0 := by omega
    have h3 : 2 * 2 ^ p / 2 = 2 ^ p := by omega
    rw [h2, h3, ih]

theorem popCount_two_pow_sub_one (n : Nat) : popCount ((1 <<< n) - 1) = n := by
  induction n with
  | zero => rfl
  | succ n ih =>
    have hpos := Nat.two_pow_pos n
    have h1 : (1 <<< (n + 1) : Nat) - 1 = 2 * ((1 <<< n) - 1) + 1 := by
      rw [Nat.shiftLeft_eq, Nat.shiftLeft_eq, one_mul, one_mul, pow_succ]
      omega
    rw [h1, popCount_eq]
    rw [if_neg (by omega : ¬(2 * ((1 <<< n : Nat) - 1) + 1 = 0))]
    have h2 : (2 * ((1 <<< n : Nat) - 1) + 1) % 2 = 1 := by omega
    have h3 : (2 * ((1 <<< n : Nat) - 1) + 1) / 2 = (1 <<< n) - 1 := by omega
    rw [h2, h3, ih]
    omega

theorem filterMap_eq_map_of_some {α β : Type _} {g : α → Option β} {h : α → β} :
    ∀ l : List α, (∀ x ∈ l, g x = some (h x)) → l.filterMap g = l.map h := by
  intro l
  induction l with
  | nil => intro _; rfl
  | cons x l ih =>
    intro hx
    rw [List.filterMap_cons_some (hx x (List.mem_cons_self x l)), List.map_cons,
      ih (fun y hy => hx y (List.mem_cons_of_mem x hy))]

/-- Agreement of the faithful float-pruned solver with the idealized
exact-ceiling solver: while the bit count of the remaining mask stays at
most `2 ^ 53`, every ceiling the prune meets is at most `2 ^ 53`, the
float ceiling is defined and bounded by the exact one (`pyCeilDiv_le_ceil`),
an extra float prune implies the exact prune, and a missing float prune
makes the branch loop reproduce the exact answer. -/
theorem solveF_eq_solve (elems : List Nat) :
    ∀ k rem, popCount rem ≤ 2 ^ 53 →
      solveF elems rem k = Except.ok (solve elems rem k) := by
  intro k
  induction k with
  | zero =>
    intro rem _
    rw [solveF_zero, solve_zero]
    by_cases hrem : rem = 0
    · rw [if_pos hrem, if_pos hrem]
    · rw [if_neg hrem, if_neg hrem]
  | succ k ih =>
    intro rem hrem53
    rw [solveF_succ, solve_succ]
    by_cases hrem : rem = 0
    · rw [if_pos hrem, if_pos hrem]
    · simp only [if_neg hrem]
      set cands := elems.filterMap (fun mask =>
        if mask &&& rem ≠ 0 then some (popCount (mask &&& rem), mask &&& rem)
        else none) with hcands
      set max_cov := cands.foldl (fun acc c => max acc c.1) 0 with hmc
      by_cases hmc0 : max_cov = 0
      · rw [if_pos hmc0, if_pos hmc0]
      · rw [if_neg hmc0, if_neg hmc0]
        have hmc1 : 0 < max_cov := Nat.pos_of_ne_zero hmc0
        have hmcle : max_cov ≤ popCount rem := by
          rw [hmc]
          apply foldl_max_le cands ?_ 0 (Nat.zero_le _)
          intro x hx
          rcases (mem_solve_candidates elems rem x).1 hx with ⟨m, _, _, rfl⟩
          apply popCount_le_of_subset
          intro i hi
          rw [Nat.testBit_land] at hi
          exact (Bool.and_eq_true_iff.1 hi).2
        obtain ⟨c, hpc, hcle⟩ := pyCeilDiv_le_ceil hmc1 hmcle hrem53
        rw [hpc]
        rw [if_neg (Option.some_ne_none c)]
        rw [Option.getD_some]
        by_cases hpr : k + 1 < c
        · rw [if_pos hpr, if_pos (lt_of_lt_of_le hpr hcle)]
        · rw [if_neg hpr]
          set sorted := insertion_sort (fun x y =>
            decide (y.1 < x.1) || (decide (y.1 = x.1) && decide (y.2 ≤ x.2)))
            cands with hsorted
          have hbranch : ∀ x ∈ sorted, solveF elems (and_not rem x.2) k =
              Except.ok (solve elems (and_not rem x.2) k) := by
            intro x _
            apply ih
            apply le_trans ?_ hrem53
            apply popCount_le_of_subset
            intro i hi
            rw [and_not_testBit] at hi
            exact (Bool.and_eq_true_iff.1 hi).1
          rw [branchLoop_ok sorted hbranch]
          by_cases hpr2 : k + 1 < (popCount rem + max_cov - 1) / max_cov
          · rw [if_pos hpr2]
            congr 1
            rw [List.any_eq_false]
            intro x hx
            intro hsolve
            rw [solve_iff] at hsolve
            obtain ⟨l, hlmem, hllen, hlcov⟩ := hsolve
            rw [hsorted, mem_insertion_sort] at hx
            rcases (mem_solve_candidates elems rem x).1 hx with ⟨m, hmelems, hmz, rfl⟩
            have hcov2 : coversMask (m :: l) rem := by
              intro i hi
              by_cases hmi : m.testBit i = true
              · exact ⟨m, List.mem_cons_self m l, hmi⟩
              · have hio : (and_not rem (m &&& rem)).testBit i = true := by
                  rw [and_not_testBit, Nat.testBit_land]
                  rw [hi, Bool.eq_false_iff.2 hmi]
                  rfl
                rcases hlcov i hio with ⟨q, hq, hqbit⟩
                exact ⟨q, List.mem_cons_of_mem m hq, hqbit⟩
            have hcount : popCount rem ≤ (k + 1) * max_cov := by
              have h1 := coversMask_popCount_le hcov2
              have hall : ∀ q ∈ m :: l, popCount (q &&& rem) ≤ max_cov := by
                intro q hq
                by_cases hz : q &&& rem ≠ 0
                · have hqel : q ∈ elems := by
                    rcases List.mem_cons.1 hq with rfl | hq'
                    · exact hmelems
                    · exact hlmem q hq'
                  exact le_foldl_max ((mem_solve_candidates elems rem _).2
                    ⟨q, hqel, hz, rfl⟩) 0
                · have hz0 : q &&& rem = 0 := by tauto
                  rw [hz0]
                  simp [popCount, popCountF_zero]
              have h2 : ((m :: l).map (fun q => popCount (q &&& rem))).sum ≤
                  ((m :: l).map (fun _ => max_cov)).sum := by
                apply List.sum_le_sum
                intro q hq
                exact hall q hq
              have h3 : ((m :: l).map (fun _ => max_cov)).sum =
                  (m :: l).length * max_cov := sum_map_const _ max_cov
              have h4 : (m :: l).length * max_cov ≤ (k + 1) * max_cov := by
                apply Nat.mul_le_mul_right
                simp only [List.length_cons]
                omega
              omega
            have hdiv : (popCount rem + max_cov - 1) / max_cov ≤ k + 1 := by
              rw [Nat.div_le_iff_le_mul_add_pred hmc1]
              have hcm : max_cov * (k + 1) = (k + 1) * max_cov :=
                Nat.mul_comm _ _
              omega
            omega
          · rw [if_neg hpr2]

/-! ### Cross-multiplication facts for the matcher -/

theorem cross_eq_iff {a b : HalfEntry} (ha : 0 < a.den) (hb : 0 < b.den) :
    a.num * b.den = b.num * a.den ↔ qval a = qval b := by
  have ha' : (a.den : ℚ) ≠ 0 := by exact_mod_cast ne_of_gt ha
  have hb' : (b.den : ℚ) ≠ 0 := by exact_mod_cast ne_of_gt hb
  rw [qval, qval, div_eq_div_iff ha' hb']
  constructor
  · intro h; exact_mod_cast h
  · intro h; exact_mod_cast h

theorem unit_sum_eq_iff {a b : HalfEntry} (ha : 0 < a.den) (hb : 0 < b.den) :
    a.num * b.den + b.num * a.den = a.den * b.den ↔ qval a + qval b = 1 := by
  have ha' : (a.den : ℚ) ≠ 0 := by exact_mod_cast ne_of_gt ha
  have hb' : (b.den : ℚ) ≠ 0 := by exact_mod_cast ne_of_gt hb
  rw [qval, qval, div_add_div _ _ ha' hb',
    div_eq_one_iff_eq (mul_ne_zero ha' hb')]
  constructor
  · intro h
    have hq : ((a.num * b.den + b.num * a.den : Int) : ℚ) =
        ((a.den * b.den : Int) : ℚ) := by exact_mod_cast h
    push_cast at hq
    linarith [hq, mul_comm (a.den : ℚ) (b.num : ℚ)]
  · intro h
    have hq : (a.num : ℚ) * b.den + (b.num : ℚ) * a.den =
        (a.den : ℚ) * b.den := by
      linarith [h, mul_comm (a.den : ℚ) (b.num : ℚ)]
    exact_mod_cast hq

theorem unit_sum_lt_iff {a b : HalfEntry} (ha : 0 < a.den) (hb : 0 < b.den) :
    a.num * b.den + b.num * a.den < a.den * b.den ↔ qval a + qval b < 1 := by
  have ha' : (0 : ℚ) < a.den := by exact_mod_cast ha
  have hb' : (0 : ℚ) < b.den := by exact_mod_cast hb
  rw [qval, qval, div_add_div _ _ (ne_of_gt ha') (ne_of_gt hb'),
    div_lt_one (mul_pos ha' hb')]
  constructor
  · intro h
    have hq : ((a.num * b.den + b.num * a.den : Int) : ℚ) <
        ((a.den * b.den : Int) : ℚ) := by exact_mod_cast h
    push_cast at hq
    linarith [hq, mul_comm (a.den : ℚ) (b.num : ℚ)]
  · intro h
    have hq : (a.num : ℚ) * b.den + (b.num : ℚ) * a.den <
        (a.den : ℚ) * b.den := by
      linarith [h, mul_comm (a.den : ℚ) (b.num : ℚ)]
    exact_mod_cast hq

/-! ### Characterization of the equal-value runs -/

theorem sorted_getD_le {l : List HalfEntry}
    (hsort : l.Pairwise (fun x y => qval x ≤ qval y)) {i j : Nat}
    (hij : i ≤ j) (hj : j < l.length) :
    qval (l.getD i dfltEntry) ≤ qval (l.getD j dfltEntry) := by
  rcases Nat.lt_or_ge i j with hlt | hge
  · have hi : i < l.length := by omega
    rw [List.getD_eq_getElem l dfltEntry hi, List.getD_eq_getElem l dfltEntry hj]
    exact List.pairwise_iff_getElem.1 hsort i j hi hj hlt
  · have : i = j := by omega
    subst this
    exact le_refl _

theorem left_run_length_le (left : List HalfEntry) (ln ld : Int) (i : Nat) :
    (left_run left ln ld i).length ≤ left.length - i := by
  have h1 := (List.takeWhile_sublist
    (l := left.drop i) (fun a => a.num * ld == ln * a.den)).length_le
  simpa [left_run] using h1

theorem left_run_getD {left : List HalfEntry} {ln ld : Int} {i j : Nat}
    (hj : j < (left_run left ln ld i).length) :
    (left_run left ln ld i).getD j dfltEntry = left.getD (i + j) dfltEntry := by
  have hpre : left_run left ln ld i <+: left.drop i := List.takeWhile_prefix _
  have hjd : j < (left.drop i).length := lt_of_lt_of_le hj hpre.length_le
  have hij : i + j < left.length := by
    rw [List.length_drop] at hjd
    omega
  rw [List.getD_eq_getElem _ dfltEntry hj, List.getD_eq_getElem _ dfltEntry hij]
  rw [hpre.getElem hj]
  exact List.getElem_drop left

theorem left_run_pred {left : List HalfEntry} {ln ld : Int} {i : Nat}
    {a : HalfEntry} (ha : a ∈ left_run left ln ld i) :
    a.num * ld = ln * a.den := by
  have := List.mem_takeWhile_imp (l := left.drop i) ha
  exact beq_iff_eq.1 this

theorem left_run_mem {left : List HalfEntry} {ln ld : Int} {i : Nat}
    {a : HalfEntry} (ha : a ∈ left_run left ln ld i) : a ∈ left := by
  have h1 : a ∈ left.drop i := (List.takeWhile_sublist _).subset ha
  exact (List.drop_sublist i left).subset h1

theorem left_run_pos {left : List HalfEntry} {i : Nat} (hi : i < left.length) :
    0 < (left_run left (left.getD i dfltEntry).num
      (left.getD i dfltEntry).den i).length := by
  rcases hdrop : left.drop i with _ | ⟨a, as⟩
  · have := congrArg List.length hdrop
    simp only [List.length_drop, List.length_nil] at this
    omega
  · have hhead : a = left.getD i dfltEntry := by
      have h1 : (left.drop i).head? = some a := by rw [hdrop]; rfl
      rw [List.head?_drop, List.getElem?_eq_getElem hi] at h1
      rw [List.getD_eq_getElem left dfltEntry hi]
      exact (Option.some.inj h1).symm
    simp only [left_run, hdrop, List.takeWhile]
    rw [hhead]
    simp

theorem left_run_stop {left : List HalfEntry} {ln ld : Int} {i : Nat}
    (hstop : i + (left_run left ln ld i).length < left.length) :
    ¬((left.getD (i + (left_run left ln ld i).length) dfltEntry).num * ld =
      ln * (left.getD (i + (left_run left ln ld i).length) dfltEntry).den) := by
  set r := (left_run left ln ld i).length with hr
  have hrd : r < (left.drop i).length := by
    rw [List.length_drop]
    omega
  have hsplit := List.takeWhile_append_dropWhile (l := left.drop i)
    (p := fun a => a.num * ld == ln * a.den)
  have hlen : ((left.drop i).dropWhile (fun a => a.num * ld == ln * a.den)).length =
      (left.drop i).length - r := by
    have h2 := congrArg List.length hsplit
    rw [List.length_append] at h2
    rw [← left_run] at h2
    omega
  have hpos : 0 < ((left.drop i).dropWhile
      (fun a => a.num * ld == ln * a.den)).length := by omega
  have hdw : (left.drop i).dropWhile (fun a => a.num * ld == ln * a.den) ≠ [] := by
    intro hnil
    rw [hnil] at hpos
    simp at hpos
  have hfail := List.head_dropWhile_not
    (l := left.drop i) (fun a => a.num * ld == ln * a.den) hdw
  have hir : i + r < left.length := hstop
  have h0 : ((left.drop i).dropWhile (fun a => a.num * ld == ln * a.den))[0]? =
      some (((left.drop i).dropWhile (fun a => a.num * ld == ln * a.den)).head hdw) := by
    rw [List.getElem?_eq_getElem hpos]
    exact congrArg some (List.getElem_zero hpos)
  have h1 : (left.drop i)[r]? = some (left.getD (i + r) dfltEntry) := by
    rw [List.getElem?_drop, List.getElem?_eq_getElem hir,
      List.getD_eq_getElem left dfltEntry hir]
  have happ : (left.drop i) = ((left.drop i).takeWhile
      (fun a => a.num * ld == ln * a.den)) ++
      ((left.drop i).dropWhile (fun a => a.num * ld == ln * a.den)) := hsplit.symm
  have hidx : (left.drop i)[r]? =
      ((left.drop i).dropWhile (fun a => a.num * ld == ln * a.den))[0]? := by
    conv =>
      lhs
      rw [happ]
    rw [List.getElem?_append_right (by rw [← left_run])]
    have : r - (left_run left ln ld i).length = 0 := by omega
    rw [left_run] at this
    rw [this]
  have hhead : left.getD (i + r) dfltEntry =
      ((left.drop i).dropWhile (fun a => a.num * ld == ln * a.den)).head hdw := by
    have := hidx
    rw [h0, h1] at this
    exact Option.some.inj this
  rw [← hhead] at hfail
  intro heq
  rw [beq_iff_eq.2 heq] at hfail
  cases hfail

theorem takeWhile_stop {α : Type _} (dflt : α) {l : List α} {p : α → Bool}
    (h : (l.takeWhile p).length < l.length) :
    p (l.getD (l.takeWhile p).length dflt) = false := by
  set r := (l.takeWhile p).length with hr
  have hsplit := List.takeWhile_append_dropWhile (l := l) (p := p)
  have hlen : (l.dropWhile p).length = l.length - r := by
    have h2 := congrArg List.length hsplit
    rw [List.length_append] at h2
    omega
  have hpos : 0 < (l.dropWhile p).length := by omega
  have hdw : l.dropWhile p ≠ [] := by
    intro hnil
    rw [hnil] at hpos
    simp at hpos
  have hfail := List.head_dropWhile_not p l hdw
  have h0 : (l.dropWhile p)[0]? = some ((l.dropWhile p).head hdw) := by
    rw [List.getElem?_eq_getElem hpos]
    exact congrArg some (List.getElem_zero hpos)
  have h1 : l[r]? = some (l.getD r dflt) := by
    rw [List.getElem?_eq_getElem h, List.getD_eq_getElem l dflt h]
  have hidx : l[r]? = (l.dropWhile p)[0]? := by
    conv =>
      lhs
      rw [hsplit.symm]
    rw [List.getElem?_append_right (by omega)]
    have : r - (l.takeWhile p).length = 0 := by omega
    rw [this]
  have hhead : l.getD r dflt = (l.dropWhile p).head hdw := by
    have h3 := hidx
    rw [h0, h1] at h3
    exact Option.some.inj h3
  rw [hhead]
  exact hfail

theorem takeWhile_pos_of_head? {α : Type _} {l : List α} {p : α → Bool} {a : α}
    (h : l.head? = some a) (hp : p a = true) :
    0 < (l.takeWhile p).length := by
  rcases l with _ | ⟨b, bs⟩
  · simp at h
  · simp only [List.head?_cons, Option.some.injEq] at h
    subst h
    simp [List.takeWhile, hp]

theorem rlist_length {right : List HalfEntry} {jp : Nat} (hjp : jp ≤ right.length) :
    ((right.take jp).reverse).length = jp := by
  rw [List.length_reverse, List.length_take]
  omega

theorem rlist_getD {right : List HalfEntry} {jp t : Nat}
    (hjp : jp ≤ right.length) (ht : t < jp) :
    ((right.take jp).reverse).getD t dfltEntry = right.getD (jp - 1 - t) dfltEntry := by
  have hlen : ((right.take jp).reverse).length = jp := rlist_length hjp
  have ht2 : t < ((right.take jp).reverse).length := by omega
  have hidx : jp - 1 - t < right.length := by omega
  rw [List.getD_eq_getElem _ dfltEntry ht2, List.getD_eq_getElem right dfltEntry hidx]
  rw [List.getElem_reverse]
  have htake : ∀ (hk : (right.take jp).length - 1 - t < (right.take jp).length),
      (right.take jp)[(right.take jp).length - 1 - t] =
      right.get ⟨jp - 1 - t, hidx⟩ := by
    intro hk
    rw [List.getElem_take]
    congr 1
    rw [List.length_take]
    omega
  exact htake _

theorem right_run_length_le {right : List HalfEntry} (rn rd : Int) (jp : Nat) :
    (right_run right rn rd jp).length ≤ jp := by
  have h1 := (List.takeWhile_sublist
    (l := (right.take jp).reverse) (fun b => rn * b.den == b.num * rd)).length_le
  rw [List.length_reverse, List.length_take] at h1
  have : (right_run right rn rd jp).length ≤ min jp right.length := h1
  omega

theorem right_run_getD {right : List HalfEntry} {rn rd : Int} {jp t : Nat}
    (hjp : jp ≤ right.length) (ht : t < (right_run right rn rd jp).length) :
    (right_run right rn rd jp).getD t dfltEntry = right.getD (jp - 1 - t) dfltEntry := by
  have hpre : right_run right rn rd jp <+: (right.take jp).reverse :=
    List.takeWhile_prefix _
  have ht2 : t < ((right.take jp).reverse).length := lt_of_lt_of_le ht hpre.length_le
  have htjp : t < jp := by
    rw [rlist_length hjp] at ht2
    exact ht2
  rw [List.getD_eq_getElem _ dfltEntry ht, hpre.getElem ht]
  rw [← List.getD_eq_getElem _ dfltEntry ht2]
  exact rlist_getD hjp htjp

theorem right_run_pred {right : List HalfEntry} {rn rd : Int} {jp : Nat}
    {b : HalfEntry} (hb : b ∈ right_run right rn rd jp) :
    rn * b.den = b.num * rd := by
  have := List.mem_takeWhile_imp (l := (right.take jp).reverse) hb
  exact beq_iff_eq.1 this

theorem right_run_mem {right : List HalfEntry} {rn rd : Int} {jp : Nat}
    {b : HalfEntry} (hb : b ∈ right_run right rn rd jp) : b ∈ right := by
  have h1 : b ∈ (right.take jp).reverse := (List.takeWhile_sublist _).subset hb
  rw [List.mem_reverse] at h1
  exact (List.take_sublist jp right).subset h1

theorem right_run_pos {right : List HalfEntry} {jp : Nat}
    (hjp0 : 0 < jp) (hjp : jp ≤ right.length) :
    0 < (right_run right (right.getD (jp - 1) dfltEntry).num
      (right.getD (jp - 1) dfltEntry).den jp).length := by
  have hlen : ((right.take jp).reverse).length = jp := rlist_length hjp
  have h0 : ((right.take jp).reverse).head? = some (right.getD (jp - 1) dfltEntry) := by
    have hpos : 0 < ((right.take jp).reverse).length := by omega
    rcases hl : (right.take jp).reverse with _ | ⟨a, as⟩
    · rw [hl] at hpos; simp at hpos
    · have ha : ((right.take jp).reverse).getD 0 dfltEntry = a := by rw [hl]; rfl
      rw [rlist_getD hjp hjp0] at ha
      have : jp - 1 - 0 = jp - 1 := by omega
      rw [this] at ha
      simp only [List.head?_cons]
      exact congrArg some ha.symm
  apply takeWhile_pos_of_head? h0
  simp [mul_comm]

theorem right_run_stop {right : List HalfEntry} {rn rd : Int} {jp : Nat}
    (hjp : jp ≤ right.length)
    (hlt : (right_run right rn rd jp).length < jp) :
    ¬(rn * (right.getD (jp - 1 - (right_run right rn rd jp).length) dfltEntry).den =
      (right.getD (jp - 1 - (right_run right rn rd jp).length) dfltEntry).num * rd) := by
  have hlen : ((right.take jp).reverse).length = jp := rlist_length hjp
  have hstop : ((((right.take jp).reverse)).takeWhile
      (fun b => rn * b.den == b.num * rd)).length < ((right.take jp).reverse).length := by
    rw [hlen]
    exact hlt
  have hfail := takeWhile_stop dfltEntry hstop
  have hconv : ((right.take jp).reverse).getD
      (((right.take jp).reverse).takeWhile (fun b => rn * b.den == b.num * rd)).length
      dfltEntry =
      right.getD (jp - 1 - (right_run right rn rd jp).length) dfltEntry := by
    exact @rlist_getD right jp (right_run right rn rd jp).length hjp hlt
  rw [hconv] at hfail
  intro heq
  rw [beq_iff_eq.2 heq] at hfail
  cases hfail

theorem smLoopF_succ (left right : List HalfEntry) (fuel i jp : Nat) :
    smLoopF left right (fuel + 1) i jp =
      if i < left.length ∧ 0 < jp then
        (if (left.getD i dfltEntry).num * (right.getD (jp - 1) dfltEntry).den +
            (right.getD (jp - 1) dfltEntry).num * (left.getD i dfltEntry).den =
            (left.getD i dfltEntry).den * (right.getD (jp - 1) dfltEntry).den then
          ((left_run left (left.getD i dfltEntry).num
              (left.getD i dfltEntry).den i).flatMap
            (fun a => (right_run right (right.getD (jp - 1) dfltEntry).num
                (right.getD (jp - 1) dfltEntry).den jp).map (fun b =>
              Match.mk (a.mask ||| b.mask) (max a.max_denom b.max_denom)))) ++
            smLoopF left right fuel
              (i + (left_run left (left.getD i dfltEntry).num
                (left.getD i dfltEntry).den i).length)
              (jp - (right_run right (right.getD (jp - 1) dfltEntry).num
                (right.getD (jp - 1) dfltEntry).den jp).length)
        else if (left.getD i dfltEntry).num * (right.getD (jp - 1) dfltEntry).den +
            (right.getD (jp - 1) dfltEntry).num * (left.getD i dfltEntry).den <
            (left.getD i dfltEntry).den * (right.getD (jp - 1) dfltEntry).den then
          smLoopF left right fuel (i + 1) jp
        else
          smLoopF left right fuel i (jp - 1))
      else [] := rfl

/-- Soundness of the two-pointer loop: every emitted match comes from one
left entry and one right entry whose exact values sum to `1`, and carries
the union of their masks and the max of their `max_denom` fields. -/
theorem smLoopF_sound {left right : List HalfEntry}
    (hdenL : ∀ e ∈ left, 0 < e.den) (hdenR : ∀ e ∈ right, 0 < e.den) :
    ∀ fuel i jp, ∀ mt ∈ smLoopF left right fuel i jp,
      ∃ a, a ∈ left ∧ ∃ b, b ∈ right ∧ qval a + qval b = 1 ∧
        mt = Match.mk (a.mask ||| b.mask) (max a.max_denom b.max_denom) := by
  intro fuel
  induction fuel with
  | zero => intro i jp mt hmt; cases hmt
  | succ fuel ih =>
    intro i jp mt hmt
    rw [smLoopF_succ] at hmt
    by_cases hguard : i < left.length ∧ 0 < jp
    swap
    · rw [if_neg hguard] at hmt; cases hmt
    rw [if_pos hguard] at hmt
    set L := left.getD i dfltEntry with hL
    set R := right.getD (jp - 1) dfltEntry with hR
    have hLmem : L ∈ left := by
      rw [hL, List.getD_eq_getElem left dfltEntry hguard.1]
      exact List.getElem_mem hguard.1
    by_cases heq : L.num * R.den + R.num * L.den = L.den * R.den
    · rw [if_pos heq] at hmt
      rcases List.mem_append.1 hmt with hcross | hrec
      · rcases List.mem_flatMap.1 hcross with ⟨a, ha, hmt2⟩
        rcases List.mem_map.1 hmt2 with ⟨b, hb, hmk⟩
        have haL : a ∈ left := left_run_mem ha
        have hbR : b ∈ right := right_run_mem hb
        have hda : 0 < a.den := hdenL a haL
        have hdb : 0 < b.den := hdenR b hbR
        have hdL : 0 < L.den := hdenL L hLmem
        have hdR : 0 < R.den := by
          by_cases hjpr : jp - 1 < right.length
          · refine hdenR R ?_
            rw [hR, List.getD_eq_getElem right dfltEntry hjpr]
            exact List.getElem_mem hjpr
          · have : R = dfltEntry := by
              rw [hR, List.getD_eq_getElem?_getD, List.getElem?_eq_none (by omega)]
              rfl
            rw [this]
            exact Int.zero_lt_one
        have hqa : qval a = qval L :=
          (cross_eq_iff hda hdL).1 (left_run_pred ha)
        have hqb : qval R = qval b :=
          (cross_eq_iff hdR hdb).1 (right_run_pred hb)
        have hsum : qval L + qval R = 1 := (unit_sum_eq_iff hdL hdR).1 heq
        exact ⟨a, haL, b, hbR, by rw [hqa, ← hqb]; exact hsum, hmk.symm⟩
      · exact ih _ _ mt hrec
    · rw [if_neg heq] at hmt
      by_cases hlt : L.num * R.den + R.num * L.den < L.den * R.den
      · rw [if_pos hlt] at hmt
        exact ih _ _ mt hmt
      · rw [if_neg hlt] at hmt
        exact ih _ _ mt hmt

/-- C5: every match yielded by `stream_unit_matches` on half lists built by
`build_half_list` over disjoint denominator ranges satisfies: the sum of
`1/d` over the denominators `d` encoded by its mask bits equals exactly
`1`, and its `max_denom` equals the largest denominator among those mask
bits. -/
theorem stream_unit_matches_invariant (lo1 hi1 lo2 hi2 : Nat)
    (h1 : 1 ≤ lo1) (h2 : lo1 ≤ hi1) (h3 : hi1 ≤ lo2) :
    ∀ mt ∈ stream_unit_matches (build_half_list lo1 hi1) (build_half_list lo2 hi2),
      maskSum mt.mask = 1 ∧ mt.max_denom = maxDenomOf mt.mask := by
  intro mt hmt
  have hlo2 : 1 ≤ lo2 := by omega
  have hdenL : ∀ e ∈ build_half_list lo1 hi1, 0 < e.den :=
    fun e he => (build_half_list_mem h1 e he).1
  have hdenR : ∀ e ∈ build_half_list lo2 hi2, 0 < e.den :=
    fun e he => (build_half_list_mem hlo2 e he).1
  rcases smLoopF_sound hdenL hdenR _ _ _ mt hmt with ⟨a, ha, b, hb, hsum, rfl⟩
  rcases build_half_list_mem h1 a ha with ⟨_, _, hqa, _, hma, hba⟩
  rcases build_half_list_mem hlo2 b hb with ⟨_, _, hqb, _, hmb, hbb⟩
  have hdisj : a.mask &&& b.mask = 0 := by
    apply Nat.eq_of_testBit_eq
    intro i
    rw [Nat.testBit_land, Nat.zero_testBit]
    by_cases hai : a.mask.testBit i = true
    · rcases hba i hai with ⟨_, hlt⟩
      have hbi : b.mask.testBit i = false := by
        by_contra hbi'
        rcases hbb i (Bool.of_not_eq_false hbi') with ⟨hge, _⟩
        omega
      rw [hai, hbi]
      rfl
    · rw [Bool.eq_false_iff.2 hai]
      rfl
  constructor
  · simp only [Match.mask]
    rw [maskSum_lor_disjoint hdisj, ← hqa, ← hqb]
    exact hsum
  · simp only [Match.mask, Match.max_denom]
    rw [maxDenomOf_lor, hma, hmb]

/-- Witness for C5 at ranges `[1, 3)` and `[3, 7)`. -/
theorem stream_unit_matches_invariant_witness :
    (1 ≤ 1 ∧ 1 ≤ 3 ∧ 3 ≤ 3) ∧
      ∀ mt ∈ stream_unit_matches (build_half_list 1 3) (build_half_list 3 7),
        maskSum mt.mask = 1 ∧ mt.max_denom = maxDenomOf mt.mask :=
  ⟨⟨by decide, by decide, by decide⟩,
    stream_unit_matches_invariant 1 3 3 7 (by decide) (by decide) (by decide)⟩

/-- Completeness of the two-pointer loop: as long as the remaining search
rectangle `[i, left.length) × [0, jp)` contains an index pair whose exact
values sum to `1`, the corresponding match is emitted. -/
theorem smLoopF_complete {left right : List HalfEntry}
    (hdenL : ∀ e ∈ left, 0 < e.den) (hdenR : ∀ e ∈ right, 0 < e.den)
    (hsortL : left.Pairwise (fun x y => qval x ≤ qval y))
    (hsortR : right.Pairwise (fun x y => qval x ≤ qval y)) :
    ∀ fuel i jp, (left.length - i) + jp ≤ fuel → jp ≤ right.length →
      ∀ i2 j2, i ≤ i2 → i2 < left.length → j2 < jp →
        qval (left.getD i2 dfltEntry) + qval (right.getD j2 dfltEntry) = 1 →
        Match.mk ((left.getD i2 dfltEntry).mask ||| (right.getD j2 dfltEntry).mask)
          (max (left.getD i2 dfltEntry).max_denom (right.getD j2 dfltEntry).max_denom)
          ∈ smLoopF left right fuel i jp := by
  intro fuel
  induction fuel with
  | zero =>
    intro i jp hfuel hjp i2 j2 hi2l hi2r hj2 hsum
    omega
  | succ fuel ih =>
    intro i jp hfuel hjp i2 j2 hi2l hi2r hj2 hsum
    have hil : i < left.length := by omega
    have hjp0 : 0 < jp := by omega
    rw [smLoopF_succ, if_pos ⟨hil, hjp0⟩]
    set L := left.getD i dfltEntry with hLdef
    set R := right.getD (jp - 1) dfltEntry with hRdef
    have hmemL : ∀ idx, idx < left.length → left.getD idx dfltEntry ∈ left := by
      intro idx hidx
      rw [List.getD_eq_getElem left dfltEntry hidx]
      exact List.getElem_mem hidx
    have hmemR : ∀ idx, idx < right.length → right.getD idx dfltEntry ∈ right := by
      intro idx hidx
      rw [List.getD_eq_getElem right dfltEntry hidx]
      exact List.getElem_mem hidx
    have hdL : 0 < L.den := hdenL L (hmemL i hil)
    have hdR : 0 < R.den := hdenR R (hmemR (jp - 1) (by omega))
    set lel := (left_run left L.num L.den i).length with hleldef
    set rel := (right_run right R.num R.den jp).length with hreldef
    have hlel1 : 1 ≤ lel := left_run_pos hil
    have hrel1 : 1 ≤ rel := right_run_pos hjp0 hjp
    have hlelle : lel ≤ left.length - i := left_run_length_le left L.num L.den i
    have hrelle : rel ≤ jp := @right_run_length_le right R.num R.den jp
    have hrunvalL : ∀ idx, i ≤ idx → idx < i + lel →
        qval (left.getD idx dfltEntry) = qval L := by
      intro idx h1 h2
      have hj : idx - i < lel := by omega
      have hgd := @left_run_getD left L.num L.den i (idx - i) hj
      have hidx : i + (idx - i) = idx := by omega
      rw [hidx] at hgd
      have hmem : left.getD idx dfltEntry ∈ left_run left L.num L.den i := by
        rw [← hgd, List.getD_eq_getElem _ dfltEntry hj]
        exact List.getElem_mem hj
      have hidxl : idx < left.length := by omega
      exact (cross_eq_iff (hdenL _ (hmemL idx hidxl)) hdL).1 (left_run_pred hmem)
    have hrunvalR : ∀ jdx, jp - rel ≤ jdx → jdx < jp →
        qval (right.getD jdx dfltEntry) = qval R := by
      intro jdx h1 h2
      have ht : jp - 1 - jdx < rel := by omega
      have hgd := @right_run_getD right R.num R.den jp (jp - 1 - jdx) hjp ht
      have hidx : jp - 1 - (jp - 1 - jdx) = jdx := by omega
      rw [hidx] at hgd
      have hmem : right.getD jdx dfltEntry ∈ right_run right R.num R.den jp := by
        rw [← hgd, List.getD_eq_getElem _ dfltEntry ht]
        exact List.getElem_mem ht
      have hjdxl : jdx < right.length := by omega
      exact ((cross_eq_iff hdR (hdenR _ (hmemR jdx hjdxl))).1
        (right_run_pred hmem)).symm
    by_cases heq : L.num * R.den + R.num * L.den = L.den * R.den
    · rw [if_pos heq]
      have hsumLR : qval L + qval R = 1 := (unit_sum_eq_iff hdL hdR).1 heq
      by_cases hi2run : i2 < i + lel
      · by_cases hj2run : jp - rel ≤ j2
        · -- target pair inside the two runs: it is in the cross product
          apply List.mem_append.2
          left
          apply List.mem_flatMap.2
          have hjA : i2 - i < lel := by omega
          have hgdA := @left_run_getD left L.num L.den i (i2 - i) hjA
          have hidxA : i + (i2 - i) = i2 := by omega
          rw [hidxA] at hgdA
          have hmemA : left.getD i2 dfltEntry ∈ left_run left L.num L.den i := by
            rw [← hgdA, List.getD_eq_getElem _ dfltEntry hjA]
            exact List.getElem_mem hjA
          refine ⟨left.getD i2 dfltEntry, hmemA, ?_⟩
          apply List.mem_map.2
          have htB : jp - 1 - j2 < rel := by omega
          have hgdB := @right_run_getD right R.num R.den jp (jp - 1 - j2) hjp htB
          have hidxB : jp - 1 - (jp - 1 - j2) = j2 := by omega
          rw [hidxB] at hgdB
          have hmemB : right.getD j2 dfltEntry ∈ right_run right R.num R.den jp := by
            rw [← hgdB, List.getD_eq_getElem _ dfltEntry htB]
            exact List.getElem_mem htB
          exact ⟨right.getD j2 dfltEntry, hmemB, rfl⟩
        · -- below the right run: sum would be < 1, contradiction
          exfalso
          have hreljp : rel < jp := by omega
          have hstop := @right_run_stop right R.num R.den jp hjp hreljp
          have hstopval : qval (right.getD (jp - 1 - rel) dfltEntry) < qval R := by
            have hne : qval R ≠ qval (right.getD (jp - 1 - rel) dfltEntry) := by
              intro habs
              exact hstop ((cross_eq_iff hdR
                (hdenR _ (hmemR (jp - 1 - rel) (by omega)))).2 habs)
            have hle : qval (right.getD (jp - 1 - rel) dfltEntry) ≤ qval R :=
              sorted_getD_le hsortR (by omega) (by omega)
            rcases lt_or_eq_of_le hle with h | h
            · exact h
            · exact absurd h.symm hne
          have hj2le : qval (right.getD j2 dfltEntry) ≤
              qval (right.getD (jp - 1 - rel) dfltEntry) :=
            sorted_getD_le hsortR (by omega) (by omega)
          have hvi2 : qval (left.getD i2 dfltEntry) = qval L :=
            hrunvalL i2 hi2l hi2run
          rw [hvi2] at hsum
          linarith
      · -- to the right of the left run: recurse past both runs
        apply List.mem_append.2
        right
        have hstopL : qval L < qval (left.getD (i + lel) dfltEntry) := by
          have hstop := @left_run_stop left L.num L.den i (by omega)
          have hne : qval (left.getD (i + lel) dfltEntry) ≠ qval L := by
            intro habs
            exact hstop ((cross_eq_iff
              (hdenL _ (hmemL (i + lel) (by omega))) hdL).2 habs)
          have hle : qval L ≤ qval (left.getD (i + lel) dfltEntry) :=
            sorted_getD_le hsortL (by omega) (by omega)
          rcases lt_or_eq_of_le hle with h | h
          · exact h
          · exact absurd h.symm hne
        have hvi2 : qval L < qval (left.getD i2 dfltEntry) :=
          lt_of_lt_of_le hstopL (sorted_getD_le hsortL (by omega) hi2r)
        have hj2lt : j2 < jp - rel := by
          by_contra hge
          have hvr : qval (right.getD j2 dfltEntry) = qval R :=
            hrunvalR j2 (by omega) hj2
          rw [hvr] at hsum
          linarith
        exact ih (i + lel) (jp - rel) (by omega) (by omega) i2 j2 (by omega)
          hi2r hj2lt hsum
    · rw [if_neg heq]
      by_cases hlt : L.num * R.den + R.num * L.den < L.den * R.den
      · rw [if_pos hlt]
        have hsumlt : qval L + qval R < 1 := (unit_sum_lt_iff hdL hdR).1 hlt
        have hi2ne : i ≠ i2 := by
          intro habs
          subst habs
          have hrle : qval (right.getD j2 dfltEntry) ≤ qval R :=
            sorted_getD_le hsortR (by omega) (by omega)
          rw [← hLdef] at hsum
          linarith
        exact ih (i + 1) jp (by omega) hjp i2 j2 (by omega) hi2r hj2 hsum
      · rw [if_neg hlt]
        have hsumgt : 1 < qval L + qval R := by
          rcases lt_trichotomy (qval L + qval R) 1 with h | h | h
          · exact absurd ((unit_sum_lt_iff hdL hdR).2 h) hlt
          · exact absurd ((unit_sum_eq_iff hdL hdR).2 h) heq
          · exact h
        have hj2ne : j2 ≠ jp - 1 := by
          intro habs
          subst habs
          have hlle : qval L ≤ qval (left.getD i2 dfltEntry) :=
            sorted_getD_le hsortL hi2l hi2r
          rw [← hRdef] at hsum
          linarith
        exact ih i (jp - 1) (by omega) (by omega) i2 j2 hi2l hi2r
          (by omega) hsum

/-- C4: for every pair of entry lists with positive denominators, each
sorted ascending by exact rational value, `stream_unit_matches` yields a
match for every index pair whose rational values sum to exactly `1` — no
unit-sum pair is missed, ties included (equal-value runs are emitted as
full cross products). -/
theorem stream_unit_matches_complete {left right : List HalfEntry}
    (hdenL : ∀ e ∈ left, 0 < e.den) (hdenR : ∀ e ∈ right, 0 < e.den)
    (hsortL : left.Pairwise (fun x y => qval x ≤ qval y))
    (hsortR : right.Pairwise (fun x y => qval x ≤ qval y))
    (i j : Nat) (hi : i < left.length) (hj : j < right.length)
    (hsum : qval (left.getD i dfltEntry) + qval (right.getD j dfltEntry) = 1) :
    Match.mk ((left.getD i dfltEntry).mask ||| (right.getD j dfltEntry).mask)
      (max (left.getD i dfltEntry).max_denom (right.getD j dfltEntry).max_denom)
      ∈ stream_unit_matches left right :=
  smLoopF_complete hdenL hdenR hsortL hsortR
    ((left.length - 0) + right.length) 0 right.length (le_refl _) (le_refl _)
    i j (Nat.zero_le i) hi hj hsum

/-- Witness for C4 on the concrete sorted lists
`[(0,1), (1,2)]` and `[(1,2), (1,2)]` (values `0, 1/2` and `1/2, 1/2`),
at the unit pair of indices `1` and `0`. -/
theorem stream_unit_matches_complete_witness :
    ((∀ e ∈ [HalfEntry.mk 0 1 0 0, HalfEntry.mk 1 2 2 2], 0 < e.den) ∧
      (∀ e ∈ [HalfEntry.mk 1 2 4 3, HalfEntry.mk 1 2 8 4], 0 < e.den) ∧
      ([HalfEntry.mk 0 1 0 0, HalfEntry.mk 1 2 2 2].Pairwise
        (fun x y => qval x ≤ qval y)) ∧
      ([HalfEntry.mk 1 2 4 3, HalfEntry.mk 1 2 8 4].Pairwise
        (fun x y => qval x ≤ qval y))) ∧
      Match.mk ((([HalfEntry.mk 0 1 0 0, HalfEntry.mk 1 2 2 2]).getD 1 dfltEntry).mask |||
          (([HalfEntry.mk 1 2 4 3, HalfEntry.mk 1 2 8 4]).getD 0 dfltEntry).mask)
        (max (([HalfEntry.mk 0 1 0 0, HalfEntry.mk 1 2 2 2]).getD 1 dfltEntry).max_denom
          (([HalfEntry.mk 1 2 4 3, HalfEntry.mk 1 2 8 4]).getD 0 dfltEntry).max_denom)
        ∈ stream_unit_matches [HalfEntry.mk 0 1 0 0, HalfEntry.mk 1 2 2 2]
          [HalfEntry.mk 1 2 4 3, HalfEntry.mk 1 2 8 4] :=
  ⟨⟨by decide, by decide,
      by norm_num [List.pairwise_cons, qval],
      by norm_num [List.pairwise_cons, qval]⟩,
    stream_unit_matches_complete (by decide) (by decide)
      (by norm_num [List.pairwise_cons, qval])
      (by norm_num [List.pairwise_cons, qval])
      1 0 (by decide) (by decide)
      (show qval (HalfEntry.mk 1 2 2 2) + qval (HalfEntry.mk 1 2 4 3) = 1 by
        norm_num [qval])⟩

/-! ### The empty-subset entry and builder completeness -/

/-- Processing the (never valid) denominator `0` extends nothing: the
candidate value `pair + 1/0` computes to the pair `(1, 0)`, which fails the
`num ≤ den` guard. -/
theorem extend_entries_zero {entries : List ((Int × Int) × Nat × Nat)}
    (h : ∀ e ∈ entries, 0 < e.1.2) :
    extend_entries entries 0 = entries := by
  rw [extend_entries]
  have : entries.filterMap (fun e =>
      let new_pair := add_one_over_n e.1 ((0 : Nat) : Int)
      if new_pair.1 ≤ new_pair.2 then
        some (new_pair, e.2.1 ||| (1 <<< (0 - 1)), max e.2.2 0)
      else none) = [] := by
    rw [List.filterMap_eq_nil]
    intro e he
    have hden := h e he
    have hpair : add_one_over_n e.1 ((0 : Nat) : Int) = (1, 0) := by
      simp only [add_one_over_n, Nat.cast_zero, mul_zero, zero_add]
      have hg : Int.gcd e.1.2 0 = e.1.2.natAbs := Int.gcd_zero_right e.1.2
      rw [hg]
      have habs : (e.1.2.natAbs : Int) = e.1.2 := Int.natAbs_of_nonneg (by omega)
      rw [habs]
      rw [Int.fdiv_eq_ediv _ (by omega), Int.fdiv_eq_ediv _ (by omega)]
      rw [Int.ediv_self (by omega), Int.zero_ediv]
    rw [hpair]
    norm_num
  rw [this, List.append_nil]

/-- The builder invariant without the lower range bound holds for every
`lo`, including `lo = 0`. -/
theorem build_entries_inv0 (lo : Nat) :
    ∀ c, ∀ e ∈ (List.range' lo c).foldl extend_entries [((0, 1), 0, 0)],
      entryInv 0 (lo + c) e := by
  intro c
  induction c with
  | zero =>
    intro e he
    simp only [List.range'_zero, List.foldl_nil, List.mem_singleton] at he
    subst he
    refine ⟨by norm_num, by norm_num, ?_, ?_, ?_, ?_⟩
    · simp [pairQ, maskSum_zero]
    · simp [pairQ]
    · simp [maxDenomOf_zero]
    · intro i hi; simp [Nat.zero_testBit] at hi
  | succ c ih =>
    intro e he
    have hconcat : List.range' lo (c + 1) = List.range' lo c ++ [lo + c] := by
      have := (List.range'_concat lo c : List.range' lo (c + 1) 1 = _)
      simpa using this
    rw [hconcat, List.foldl_append, List.foldl_cons, List.foldl_nil] at he
    by_cases hzero : lo + c = 0
    · rw [hzero, extend_entries_zero (fun e2 he2 => (ih e2 he2).1)] at he
      rcases ih e he with ⟨h1, h2, h3, h4, h5, h6⟩
      exact ⟨h1, h2, h3, h4, h5, fun i hi => by
        rcases h6 i hi with ⟨ha, hb⟩; exact ⟨ha, by omega⟩⟩
    · have hstep := extend_entries_inv (by omega : 1 ≤ lo + c)
        (by omega : 0 ≤ lo + c) ih e he
      have : lo + c + 1 = lo + (c + 1) := by omega
      rwa [this] at hstep

/-- Basic invariant of every half-list entry, for every range. -/
theorem build_half_list_mem0 (lo hi : Nat) :
    ∀ e ∈ build_half_list lo hi, halfEntryInv 0 (lo + (hi - lo)) e := by
  intro e he
  simp only [build_half_list] at he
  rw [mem_insertion_sort] at he
  rcases List.mem_map.1 he with ⟨e₀, he₀, rfl⟩
  rcases build_entries_inv0 lo (hi - lo) e₀ he₀ with ⟨h1, h2, h3, h4, h5, h6⟩
  exact ⟨h1, h2, h3, h4, h5, h6⟩

/-- The half list is sorted ascending by exact rational value, for every
range. -/
theorem build_half_list_sorted0 (lo hi : Nat) :
    (build_half_list lo hi).Pairwise (fun x y => qval x ≤ qval y) := by
  have hden : ∀ e ∈ (build_entries lo hi).map
      (fun e => HalfEntry.mk e.1.1 e.1.2 e.2.1 e.2.2), 0 < e.den := by
    intro e he
    rcases List.mem_map.1 he with ⟨e₀, he₀, rfl⟩
    exact (build_entries_inv0 lo (hi - lo) e₀ he₀).1
  have hpw := pairwise_insertion_sort entry_le
    ((build_entries lo hi).map (fun e => HalfEntry.mk e.1.1 e.1.2 e.2.1 e.2.2))
    (fun x _ y _ => entry_le_total x y)
    (fun x hx y hy z hz h1 h2 => by
      rw [entry_le_iff (hden x hx) (hden y hy)] at h1
      rw [entry_le_iff (hden y hy) (hden z hz)] at h2
      rw [entry_le_iff (hden x hx) (hden z hz)]
      exact le_trans h1 h2)
  have hmemden : ∀ e ∈ build_half_list lo hi, 0 < e.den := by
    intro e he
    exact (build_half_list_mem0 lo hi e he).1
  simp only [build_half_list] at hpw ⊢
  refine List.Pairwise.imp_of_mem ?_ hpw
  intro a b ha hb hle
  have hda : 0 < a.den := hmemden a (by simpa [build_half_list] using ha)
  have hdb : 0 < b.den := hmemden b (by simpa [build_half_list] using hb)
  exact (entry_le_iff hda hdb).1 hle

/-- The empty-subset entry survives every builder pass. -/
theorem build_entries_mem_init (lo hi : Nat) :
    ((0, 1), 0, 0) ∈ build_entries lo hi := by
  rw [build_entries]
  generalize List.range' lo (hi - lo) = ds
  induction ds using List.reverseRecOn with
  | nil => simp
  | append_singleton ds n ih =>
    rw [List.foldl_append, List.foldl_cons, List.foldl_nil]
    exact List.mem_append.2 (Or.inl ih)

/-- The empty-subset entry is a member of every built half list. -/
theorem build_half_list_mem_init (lo hi : Nat) :
    HalfEntry.mk 0 1 0 0 ∈ build_half_list lo hi := by
  simp only [build_half_list]
  rw [mem_insertion_sort]
  exact List.mem_map.2 ⟨((0, 1), 0, 0), build_entries_mem_init lo hi, rfl⟩

/-- The empty-subset entry sorts first in every built half list. -/
theorem build_half_list_head (lo hi : Nat) :
    (build_half_list lo hi).head? = some (HalfEntry.mk 0 1 0 0) := by
  have hmem := build_half_list_mem_init lo hi
  rcases hl : build_half_list lo hi with _ | ⟨hd, tl⟩
  · rw [hl] at hmem; cases hmem
  · rw [List.head?_cons]
    have hsort := build_half_list_sorted0 lo hi
    rw [hl] at hsort hmem
    rcases List.pairwise_cons.1 hsort with ⟨hhd, _⟩
    have hhd0 : qval hd ≤ 0 := by
      rcases List.mem_cons.1 hmem with heq | htl
      · rw [← heq]
        simp [qval]
      · have := hhd _ htl
        simpa [qval] using this
    have hinv : halfEntryInv 0 (lo + (hi - lo)) hd := by
      apply build_half_list_mem0
      rw [hl]
      simp
    rcases hinv with ⟨h1, h2, h3, _, h5, _⟩
    have hq0 : qval hd = 0 := le_antisymm hhd0 (h3 ▸ maskSum_nonneg hd.mask)
    have hmask0 : hd.mask = 0 := by
      by_contra hne
      have := maskSum_pos hne
      rw [← h3, hq0] at this
      exact lt_irrefl 0 this
    have hnum0 : hd.num = 0 := by
      have hden : (hd.den : ℚ) ≠ 0 := by
        exact_mod_cast ne_of_gt h1
      have := hq0
      rw [qval, div_eq_zero_iff] at this
      rcases this with h | h
      · exact_mod_cast h
      · exact absurd h hden
    have hden1 : hd.den = 1 := by
      rw [hnum0] at h2
      have : Int.gcd 0 hd.den = hd.den.natAbs := Int.gcd_zero_left hd.den
      rw [this] at h2
      omega
    have hmax0 : hd.max_denom = 0 := by
      rw [h5, hmask0, maxDenomOf_zero]
    cases hd
    simp only at hnum0 hden1 hmask0 hmax0
    subst hnum0; subst hden1; subst hmask0; subst hmax0
    rfl

/-- Builder completeness: every subset of the processed denominators whose
reciprocal sum stays at most `1` shows up as an entry mask. -/
theorem build_entries_complete (lo : Nat) (hlo : 1 ≤ lo) :
    ∀ c mask,
      (∀ i, mask.testBit i = true → lo ≤ i + 1 ∧ i + 1 < lo + c) →
      maskSum mask ≤ 1 →
      ∃ e ∈ (List.range' lo c).foldl extend_entries [((0, 1), 0, 0)],
        e.2.1 = mask := by
  intro c
  induction c with
  | zero =>
    intro mask hbits hsum
    have hmask0 : mask = 0 := by
      rw [eq_zero_iff_no_testBit]
      intro i
      by_contra hbit
      rcases hbits i (Bool.of_not_eq_false hbit) with ⟨ha, hb⟩
      omega
    subst hmask0
    exact ⟨((0, 1), 0, 0), by simp, rfl⟩
  | succ c ih =>
    intro mask hbits hsum
    have hconcat : List.range' lo (c + 1) = List.range' lo c ++ [lo + c] := by
      have := (List.range'_concat lo c : List.range' lo (c + 1) 1 = _)
      simpa using this
    rw [hconcat, List.foldl_append, List.foldl_cons, List.foldl_nil]
    set n := lo + c with hn
    by_cases hbitn : mask.testBit (n - 1) = true
    · -- clear the top bit, find the sub-entry, extend it
      set mask' := and_not mask (1 <<< (n - 1)) with hmask'
      have hm'bits : ∀ i, mask'.testBit i = true → lo ≤ i + 1 ∧ i + 1 < lo + c := by
        intro i hi
        rw [hmask', and_not_testBit, testBit_shiftLeft_one] at hi
        rcases Bool.and_eq_true_iff.1 hi with ⟨h1, h2⟩
        rcases hbits i h1 with ⟨ha, hb⟩
        have hne : ¬(n - 1 = i) := by
          intro habs
          rw [habs] at h2
          simp at h2
        constructor
        · exact ha
        · omega
      have hdisj : mask' &&& (1 <<< (n - 1)) = 0 := by
        apply Nat.eq_of_testBit_eq
        intro i
        rw [Nat.testBit_land, hmask', and_not_testBit, testBit_shiftLeft_one,
          Nat.zero_testBit]
        by_cases hni : n - 1 = i
        · subst hni
          simp
        · simp [hni]
      have hsplit : mask' ||| (1 <<< (n - 1)) = mask := by
        apply Nat.eq_of_testBit_eq
        intro i
        rw [Nat.testBit_lor, hmask', and_not_testBit, testBit_shiftLeft_one]
        by_cases hni : n - 1 = i
        · subst hni
          simp [hbitn]
        · simp [hni]
      have hsum' : maskSum mask = maskSum mask' + 1 / (n : ℚ) := by
        rw [← hsplit, maskSum_lor_disjoint hdisj, maskSum_single]
        congr 2
        have h1n : (1 : Nat) ≤ n := by omega
        rw [Nat.cast_sub h1n, Nat.cast_one]
        ring
      have hrecip_pos : (0 : ℚ) < 1 / (n : ℚ) := by
        have : (0 : ℚ) < (n : ℚ) := by
          exact_mod_cast (by omega : 0 < n)
        positivity
      have hsumm' : maskSum mask' ≤ 1 := by
        rw [hsum'] at hsum
        linarith
      rcases ih mask' hm'bits hsumm' with ⟨e, he, hemask⟩
      rcases build_entries_inv0 lo c e he with ⟨h1, h2, h3, h4, h5, h6⟩
      have hnpos : (0 : Int) < (n : Int) := by exact_mod_cast (by omega : 0 < n)
      rcases add_one_over_n_spec e.1.1 e.1.2 (n : Int) h1 hnpos with ⟨hs1, hs2, hs3⟩
      have hguard : (add_one_over_n e.1 (n : Int)).1 ≤ (add_one_over_n e.1 (n : Int)).2 := by
        apply (pair_le_one_iff hs1).2
        have : pairQ (add_one_over_n (e.1.1, e.1.2) (n : Int)) =
            maskSum mask' + 1 / (n : ℚ) := by
          rw [hs3, h3, hemask]
          congr 1
        have hval : pairQ (add_one_over_n e.1 (n : Int)) = maskSum mask := by
          rw [hsum']
          convert this using 2
        rw [hval]
        exact hsum
      refine ⟨(add_one_over_n e.1 (n : Int), e.2.1 ||| (1 <<< (n - 1)), max e.2.2 n),
        ?_, ?_⟩
      · apply List.mem_append.2
        right
        apply List.mem_filterMap.2
        exact ⟨e, he, by simp only [if_pos hguard]⟩
      · simp only
        rw [hemask]
        exact hsplit
    · -- the top bit is absent: the mask lives in the shorter range
      have hm'bits : ∀ i, mask.testBit i = true → lo ≤ i + 1 ∧ i + 1 < lo + c := by
        intro i hi
        rcases hbits i hi with ⟨ha, hb⟩
        have hne : i ≠ n - 1 := by
          intro habs
          rw [habs] at hi
          rw [hi] at hbitn
          exact hbitn rfl
        constructor
        · exact ha
        · omega
      rcases ih mask hm'bits hsum with ⟨e, he, hemask⟩
      exact ⟨e, List.mem_append.2 (Or.inl he), hemask⟩

/-- Completeness at the half-list level. -/
theorem build_half_list_complete {lo hi : Nat} (hlo : 1 ≤ lo) (mask : Nat)
    (hbits : ∀ i, mask.testBit i = true → lo ≤ i + 1 ∧ i + 1 < hi)
    (hsum : maskSum mask ≤ 1) :
    ∃ e ∈ build_half_list lo hi, e.mask = mask := by
  have hbits' : ∀ i, mask.testBit i = true → lo ≤ i + 1 ∧ i + 1 < lo + (hi - lo) := by
    intro i hi2
    rcases hbits i hi2 with ⟨ha, hb⟩
    exact ⟨ha, by omega⟩
  rcases build_entries_complete lo hlo (hi - lo) mask hbits' hsum with ⟨e, he, hemask⟩
  refine ⟨HalfEntry.mk e.1.1 e.1.2 e.2.1 e.2.2, ?_, hemask⟩
  simp only [build_half_list]
  rw [mem_insertion_sort]
  exact List.mem_map.2 ⟨e, he, rfl⟩

/-- C10: every built half list contains the empty-subset entry
`HalfEntry 0 1 0 0` (value `0`, empty mask, `max_denom` `0`), that entry
sorts first, and both half lists are non-empty; consequently an
obstruction whose denominators all lie inside one half's range is still
emitted by the matcher, paired with the other half's empty-subset entry
(so the match carries exactly the obstruction's mask and largest
denominator). -/
theorem build_half_list_empty_entry (lo1 hi1 lo2 hi2 : Nat)
    (h1 : 1 ≤ lo1) (h2 : lo1 ≤ hi1) (h3 : hi1 ≤ lo2) (h4 : lo2 ≤ hi2) :
    (∀ lo hi : Nat, HalfEntry.mk 0 1 0 0 ∈ build_half_list lo hi ∧
      (build_half_list lo hi).head? = some (HalfEntry.mk 0 1 0 0) ∧
      build_half_list lo hi ≠ []) ∧
      (∀ mask, (∀ i, mask.testBit i = true → lo1 ≤ i + 1 ∧ i + 1 < hi1) →
        maskSum mask = 1 →
        Match.mk mask (maxDenomOf mask) ∈
          stream_unit_matches (build_half_list lo1 hi1) (build_half_list lo2 hi2)) ∧
      (∀ mask, (∀ i, mask.testBit i = true → lo2 ≤ i + 1 ∧ i + 1 < hi2) →
        maskSum mask = 1 →
        Match.mk mask (maxDenomOf mask) ∈
          stream_unit_matches (build_half_list lo1 hi1) (build_half_list lo2 hi2)) := by
  have hlo2 : 1 ≤ lo2 := by omega
  have hdenL : ∀ e ∈ build_half_list lo1 hi1, 0 < e.den :=
    fun e he => (build_half_list_mem0 lo1 hi1 e he).1
  have hdenR : ∀ e ∈ build_half_list lo2 hi2, 0 < e.den :=
    fun e he => (build_half_list_mem0 lo2 hi2 e he).1
  have hqd : qval dfltEntry = 0 := by simp [qval, dfltEntry]
  have hheadL := build_half_list_head lo1 hi1
  have hheadR := build_half_list_head lo2 hi2
  have hhead_getD : ∀ (l : List HalfEntry),
      l.head? = some (HalfEntry.mk 0 1 0 0) →
      0 < l.length ∧ l.getD 0 dfltEntry = HalfEntry.mk 0 1 0 0 := by
    intro l hl
    rcases l with _ | ⟨a, as⟩
    · cases hl
    · simp only [List.head?_cons, Option.some.injEq] at hl
      subst hl
      exact ⟨by simp, rfl⟩
  refine ⟨?_, ?_, ?_⟩
  · intro lo hi
    refine ⟨build_half_list_mem_init lo hi, build_half_list_head lo hi, ?_⟩
    intro hnil
    have := build_half_list_mem_init lo hi
    rw [hnil] at this
    cases this
  · intro mask hbits hsum
    rcases build_half_list_complete h1 mask hbits (le_of_eq hsum) with ⟨e, he, hemask⟩
    rcases List.mem_iff_getElem.1 he with ⟨idx, hidx, hgete⟩
    rcases build_half_list_mem0 lo1 hi1 e he with ⟨he1, _, he3, _, he5, _⟩
    rcases hhead_getD _ hheadR with ⟨hRlen, hRgetD⟩
    have hgetDe : (build_half_list lo1 hi1).getD idx dfltEntry = e := by
      rw [List.getD_eq_getElem _ dfltEntry hidx]
      exact hgete
    have hsumq : qval ((build_half_list lo1 hi1).getD idx dfltEntry) +
        qval ((build_half_list lo2 hi2).getD 0 dfltEntry) = 1 := by
      rw [hgetDe, hRgetD]
      have : qval (HalfEntry.mk 0 1 0 0) = 0 := by simp [qval]
      rw [this, he3, hemask, hsum]
      ring
    have hm := stream_unit_matches_complete hdenL hdenR
      (build_half_list_sorted0 lo1 hi1) (build_half_list_sorted0 lo2 hi2)
      idx 0 hidx hRlen hsumq
    rw [hgetDe, hRgetD] at hm
    have hmask_eq : e.mask ||| (HalfEntry.mk 0 1 0 0).mask = mask := by
      simp only
      rw [hemask]
      apply Nat.eq_of_testBit_eq
      intro i
      rw [Nat.testBit_lor, Nat.zero_testBit, Bool.or_false]
    have hmax_eq : max e.max_denom (HalfEntry.mk 0 1 0 0).max_denom =
        maxDenomOf mask := by
      simp only
      rw [Nat.max_zero, he5, hemask]
    rw [hmask_eq, hmax_eq] at hm
    exact hm
  · intro mask hbits hsum
    rcases build_half_list_complete hlo2 mask hbits (le_of_eq hsum) with ⟨e, he, hemask⟩
    rcases List.mem_iff_getElem.1 he with ⟨idx, hidx, hgete⟩
    rcases build_half_list_mem0 lo2 hi2 e he with ⟨he1, _, he3, _, he5, _⟩
    rcases hhead_getD _ hheadL with ⟨hLlen, hLgetD⟩
    have hgetDe : (build_half_list lo2 hi2).getD idx dfltEntry = e := by
      rw [List.getD_eq_getElem _ dfltEntry hidx]
      exact hgete
    have hsumq : qval ((build_half_list lo1 hi1).getD 0 dfltEntry) +
        qval ((build_half_list lo2 hi2).getD idx dfltEntry) = 1 := by
      rw [hgetDe, hLgetD]
      have : qval (HalfEntry.mk 0 1 0 0) = 0 := by simp [qval]
      rw [this, he3, hemask, hsum]
      ring
    have hm := stream_unit_matches_complete hdenL hdenR
      (build_half_list_sorted0 lo1 hi1) (build_half_list_sorted0 lo2 hi2)
      0 idx hLlen hidx hsumq
    rw [hgetDe, hLgetD] at hm
    have hmask_eq : (HalfEntry.mk 0 1 0 0).mask ||| e.mask = mask := by
      simp only
      rw [hemask]
      apply Nat.eq_of_testBit_eq
      intro i
      rw [Nat.testBit_lor, Nat.zero_testBit, Bool.false_or]
    have hmax_eq : max (HalfEntry.mk 0 1 0 0).max_denom e.max_denom =
        maxDenomOf mask := by
      simp only
      rw [Nat.zero_max, he5, hemask]
    rw [hmask_eq, hmax_eq] at hm
    exact hm

/-- Witness for C10 at ranges `[1, 3)` and `[3, 7)`. -/
theorem build_half_list_empty_entry_witness :
    (1 ≤ 1 ∧ 1 ≤ 3 ∧ 3 ≤ 3 ∧ 3 ≤ 7) ∧
      ((∀ lo hi : Nat, HalfEntry.mk 0 1 0 0 ∈ build_half_list lo hi ∧
        (build_half_list lo hi).head? = some (HalfEntry.mk 0 1 0 0) ∧
        build_half_list lo hi ≠ []) ∧
        (∀ mask, (∀ i, mask.testBit i = true → 1 ≤ i + 1 ∧ i + 1 < 3) →
          maskSum mask = 1 →
          Match.mk mask (maxDenomOf mask) ∈
            stream_unit_matches (build_half_list 1 3) (build_half_list 3 7)) ∧
        (∀ mask, (∀ i, mask.testBit i = true → 3 ≤ i + 1 ∧ i + 1 < 7) →
          maskSum mask = 1 →
          Match.mk mask (maxDenomOf mask) ∈
            stream_unit_matches (build_half_list 1 3) (build_half_list 3 7))) :=
  ⟨⟨by decide, by decide, by decide, by decide⟩,
    build_half_list_empty_entry 1 3 3 7 (by decide) (by decide) (by decide)
      (by decide)⟩

/-! ### Dictionary lemmas for the candidate map -/

theorem foldl_flatMap {α β γ : Type _} (f : γ → β → γ) (g : α → List β)
    (l : List α) (a : γ) :
    List.foldl f a (l.flatMap g) =
      l.foldl (fun acc x => (g x).foldl f acc) a := by
  induction l generalizing a with
  | nil => rfl
  | cons x l ih =>
    rw [List.flatMap_cons, List.foldl_append, List.foldl_cons, ih]

theorem foldl_filterMap {α β γ : Type _} (f : γ → β → γ) (g : α → Option β)
    (l : List α) (a : γ) :
    List.foldl f a (l.filterMap g) =
      l.foldl (fun acc x => match g x with | some y => f acc y | none => acc) a := by
  induction l generalizing a with
  | nil => rfl
  | cons x l ih =>
    rcases hg : g x with _ | y
    · rw [List.filterMap_cons_none hg, List.foldl_cons, hg, ih]
    · rw [List.filterMap_cons_some hg, List.foldl_cons, List.foldl_cons, hg, ih]
theorem dictGetD_nil (q : Nat) : dictGetD [] q = 0 := rfl

theorem dictGetD_cons (p : Nat × Nat) (d : List (Nat × Nat)) (q : Nat) :
    dictGetD (p :: d) q = if p.1 = q then p.2 else dictGetD d q := by
  simp only [dictGetD, List.find?_cons]
  by_cases h : p.1 = q
  · have hb : (p.1 == q) = true := beq_iff_eq.2 h
    rw [hb]
    simp [h]
  · have hb : (p.1 == q) = false := beq_eq_false_iff_ne.2 h
    rw [hb]
    simp [h]

theorem getD_map_overwrite (d : List (Nat × Nat)) (k v q : Nat) :
    dictGetD (d.map (fun p => if p.1 = k then (p.1, v) else p)) q =
      if q = k then (if d.any (fun p => p.1 == k) then v else 0)
      else dictGetD d q := by
  induction d with
  | nil =>
    by_cases hqk : q = k <;> simp [hqk, dictGetD_nil, dictGetD]
  | cons p d ih =>
    simp only [List.map_cons, List.any_cons]
    have hfst : (if p.1 = k then (p.1, v) else p).1 = p.1 := by
      by_cases h : p.1 = k <;> simp [h]
    rw [dictGetD_cons, hfst, dictGetD_cons]
    by_cases hpq : p.1 = q
    · rw [if_pos hpq, if_pos hpq]
      by_cases hqk : q = k
      · have hpk : p.1 = k := by omega
        rw [if_pos hqk]
        have hb : (p.1 == k) = true := beq_iff_eq.2 hpk
        simp only [hb, Bool.true_or, if_true]
        simp [hpk]
      · have hpk : ¬p.1 = k := by omega
        rw [if_neg hqk]
        simp [hpk]
    · rw [if_neg hpq, if_neg hpq, ih]
      by_cases hqk : q = k
      · rw [if_pos hqk, if_pos hqk]
        have hpk : ¬p.1 = k := by omega
        have hb : (p.1 == k) = false := beq_eq_false_iff_ne.2 hpk
        simp only [hb, Bool.false_or]
      · rw [if_neg hqk, if_neg hqk]

theorem dictGetD_append_notin (d1 d2 : List (Nat × Nat)) (q : Nat)
    (h : ∀ p ∈ d1, p.1 ≠ q) :
    dictGetD (d1 ++ d2) q = dictGetD d2 q := by
  induction d1 with
  | nil => rfl
  | cons p d1 ih =>
    rw [List.cons_append, dictGetD_cons, if_neg (h p (by simp)),
      ih (fun p2 hp2 => h p2 (by simp [List.mem_cons, hp2]))]

theorem dictGetD_append_of_ne (d : List (Nat × Nat)) (x : Nat × Nat) (q : Nat)
    (h : x.1 ≠ q) :
    dictGetD (d ++ [x]) q = dictGetD d q := by
  induction d with
  | nil => rw [List.nil_append, dictGetD_cons, if_neg h]
  | cons p d ih =>
    rw [List.cons_append, dictGetD_cons, dictGetD_cons, ih]

theorem dictGetD_dictSet (d : List (Nat × Nat)) (k v q : Nat) :
    dictGetD (dictSet d k v) q = if q = k then v else dictGetD d q := by
  rw [dictSet]
  by_cases hpres : d.any (fun p => p.1 == k)
  · rw [if_pos hpres, getD_map_overwrite]
    simp [hpres]
  · rw [if_neg hpres]
    by_cases hqk : q = k
    · subst hqk
      have hnotin : ∀ p ∈ d, p.1 ≠ q := by
        intro p hp habs
        exact hpres (List.any_eq_true.2 ⟨p, hp, beq_iff_eq.2 habs⟩)
      rw [dictGetD_append_notin d [(q, v)] q hnotin, dictGetD_cons]
      simp
    · rw [dictGetD_append_of_ne d (k, v) q (by simp; omega)]
      simp [hqk]

theorem dictSet_keys_mem (d : List (Nat × Nat)) (k v q : Nat) :
    q ∈ (dictSet d k v).map Prod.fst ↔ q ∈ d.map Prod.fst ∨ q = k := by
  rw [dictSet]
  by_cases hpres : d.any (fun p => p.1 == k)
  · rw [if_pos hpres]
    have hkeys : (d.map (fun p => if p.1 = k then (p.1, v) else p)).map Prod.fst =
        d.map Prod.fst := by
      rw [List.map_map]
      apply List.map_congr_left
      intro p _
      by_cases hpk : p.1 = k <;> simp [hpk]
    rw [hkeys]
    constructor
    · exact Or.inl
    · intro h
      rcases h with h | rfl
      · exact h
      · rcases List.any_eq_true.1 hpres with ⟨p, hp, hbeq⟩
        exact List.mem_map.2 ⟨p, hp, beq_iff_eq.1 hbeq⟩
  · rw [if_neg hpres, List.map_append]
    simp [List.mem_append]

theorem dictSet_keys_nodup (d : List (Nat × Nat)) (k v : Nat)
    (h : (d.map Prod.fst).Nodup) :
    ((dictSet d k v).map Prod.fst).Nodup := by
  rw [dictSet]
  by_cases hpres : d.any (fun p => p.1 == k)
  · rw [if_pos hpres]
    have hkeys : (d.map (fun p => if p.1 = k then (p.1, v) else p)).map Prod.fst =
        d.map Prod.fst := by
      rw [List.map_map]
      apply List.map_congr_left
      intro p _
      by_cases hpk : p.1 = k <;> simp [hpk]
    rw [hkeys]
    exact h
  · rw [if_neg hpres, List.map_append]
    have hknotin : k ∉ d.map Prod.fst := by
      intro hmem
      apply hpres
      rcases List.mem_map.1 hmem with ⟨p, hp, hpeq⟩
      exact List.any_eq_true.2 ⟨p, hp, beq_iff_eq.2 hpeq⟩
    simp only [List.map_cons, List.map_nil]
    rw [List.nodup_append]
    refine ⟨h, List.nodup_singleton k, ?_⟩
    intro a ha hb
    simp only [List.mem_singleton] at hb
    subst hb
    exact hknotin ha

theorem dict_mem_iff {d : List (Nat × Nat)} (h : (d.map Prod.fst).Nodup)
    (k v : Nat) :
    (k, v) ∈ d ↔ k ∈ d.map Prod.fst ∧ dictGetD d k = v := by
  induction d with
  | nil => simp [dictGetD_nil]
  | cons p d ih =>
    simp only [List.map_cons, List.nodup_cons] at h
    rcases h with ⟨hp1, hrest⟩
    rw [dictGetD_cons]
    constructor
    · intro hmem
      rcases List.mem_cons.1 hmem with heq | htail
      · have hk : p.1 = k := by rw [← heq]
        have hv : p.2 = v := by rw [← heq]
        rw [if_pos hk]
        exact ⟨by simp [← hk], hv⟩
      · have hkin : k ∈ d.map Prod.fst :=
          List.mem_map.2 ⟨(k, v), htail, rfl⟩
        have hkne : ¬p.1 = k := by
          intro habs
          rw [habs] at hp1
          exact hp1 hkin
        rw [if_neg hkne]
        rcases (ih hrest).1 htail with ⟨h1, h2⟩
        exact ⟨by simp [List.mem_cons, h1], h2⟩
    · intro hpair
      rcases hpair with ⟨hkin, hget⟩
      by_cases hpk : p.1 = k
      · rw [if_pos hpk] at hget
        exact List.mem_cons.2 (Or.inl (by rw [← hpk, ← hget]))
      · rw [if_neg hpk] at hget
        rcases List.mem_cons.1 hkin with heq | htail
        · exact absurd heq.symm hpk
        · right
          exact (ih hrest).2 ⟨htail, hget⟩
/-! ### Characterization of the candidate map -/

theorem buildElemToMask_eq_foldUpd (obs : List Nat) (n : Nat) :
    buildElemToMask obs n = (updatesOf obs n).foldl applyUpd [] := by
  rw [buildElemToMask, updatesOf, foldl_flatMap]
  apply congrArg (fun f => List.foldl f [] obs.enum)
  funext d p
  rw [foldl_filterMap]
  apply congrArg (fun f => List.foldl f d (bitPositions p.2 0))
  funext d2 dpos
  by_cases hle : dpos + 1 ≤ n
  · simp [hle, applyUpd]
  · simp [hle]

theorem foldUpd_getD_testBit (upds : List (Nat × Nat)) :
    ∀ (d0 : List (Nat × Nat)) (k i : Nat),
      (dictGetD (upds.foldl applyUpd d0) k).testBit i =
        ((dictGetD d0 k).testBit i ||
          upds.any (fun p => p.1 == k && p.2 == i)) := by
  induction upds with
  | nil => intro d0 k i; simp
  | cons u rest ih =>
    intro d0 k i
    rw [List.foldl_cons, ih, List.any_cons]
    have hstep : (dictGetD (applyUpd d0 u) k).testBit i =
        ((dictGetD d0 k).testBit i || (u.1 == k && u.2 == i)) := by
      rw [applyUpd, dictGetD_dictSet]
      by_cases hk : k = u.1
      · rw [if_pos hk, Nat.testBit_lor, testBit_shiftLeft_one]
        subst hk
        simp only [beq_self_eq_true, Bool.true_and]
        by_cases hi : u.2 = i
        · simp [hi]
        · simp [beq_eq_false_iff_ne.2 hi, decide_eq_false hi]
      · rw [if_neg hk]
        have hb : (u.1 == k) = false := beq_eq_false_iff_ne.2 (by omega)
        simp [hb]
    rw [hstep]
    cases (dictGetD d0 k).testBit i <;> cases (u.1 == k && u.2 == i) <;> simp

theorem foldUpd_keys (upds : List (Nat × Nat)) :
    ∀ (d0 : List (Nat × Nat)) (k : Nat),
      (k ∈ (upds.foldl applyUpd d0).map Prod.fst ↔
        k ∈ d0.map Prod.fst ∨ ∃ p ∈ upds, p.1 = k) := by
  induction upds with
  | nil => intro d0 k; simp
  | cons u rest ih =>
    intro d0 k
    rw [List.foldl_cons, ih]
    rw [applyUpd, dictSet_keys_mem]
    constructor
    · rintro (⟨h | h⟩ | ⟨p, hp, hpk⟩)
      · exact Or.inl h
      · exact Or.inr ⟨u, by simp, h.symm⟩
      · exact Or.inr ⟨p, by simp [List.mem_cons, hp], hpk⟩
    · rintro (h | ⟨p, hp, hpk⟩)
      · exact Or.inl (Or.inl h)
      · rcases List.mem_cons.1 hp with rfl | hp'
        · exact Or.inl (Or.inr hpk.symm)
        · exact Or.inr ⟨p, hp', hpk⟩

theorem foldUpd_nodup (upds : List (Nat × Nat)) :
    ∀ (d0 : List (Nat × Nat)), (d0.map Prod.fst).Nodup →
      ((upds.foldl applyUpd d0).map Prod.fst).Nodup := by
  induction upds with
  | nil => intro d0 h; exact h
  | cons u rest ih =>
    intro d0 h
    rw [List.foldl_cons]
    exact ih _ (dictSet_keys_nodup _ _ _ h)

theorem mem_updatesOf (obs : List Nat) (n k idx : Nat) :
    (k, idx) ∈ updatesOf obs n ↔
      idx < obs.length ∧ 1 ≤ k ∧ k ≤ n ∧
        (obs.getD idx 0).testBit (k - 1) = true := by
  rw [updatesOf, List.mem_flatMap]
  constructor
  · rintro ⟨p, hp, hmem⟩
    rcases List.mem_filterMap.1 hmem with ⟨dpos, hdpos, hsome⟩
    by_cases hle : dpos + 1 ≤ n
    swap
    · rw [if_neg hle] at hsome; cases hsome
    rw [if_pos hle] at hsome
    have hpair := Option.some.inj hsome
    have hk : dpos + 1 = k := congrArg Prod.fst hpair
    have hidx : p.1 = idx := congrArg Prod.snd hpair
    have henum := List.mem_enum (x := p.2) (i := p.1) (by
      rw [show (p.1, p.2) = p from rfl]; exact hp)
    rcases henum with ⟨hlt, hval⟩
    have hbit : p.2.testBit dpos = true := by
      rcases (mem_bitPositions p.2 0 dpos).1 hdpos with ⟨i2, hi2, hbit2⟩
      have heq2 : dpos = i2 := by omega
      rw [heq2]
      exact hbit2
    refine ⟨by omega, by omega, by omega, ?_⟩
    have hgd : obs.getD idx 0 = p.2 := by
      rw [← hidx, List.getD_eq_getElem obs 0 hlt]
      exact hval.symm
    rw [hgd]
    have hk1 : k - 1 = dpos := by omega
    rw [hk1]
    exact hbit
  · rintro ⟨hidx, hk1, hkn, hbit⟩
    refine ⟨(idx, obs.getD idx 0), ?_, ?_⟩
    · have hlen : idx < obs.enum.length := by
        rw [List.enum_length]
        exact hidx
      have := List.getElem_enum obs idx hlen
      rw [List.getD_eq_getElem obs 0 hidx]
      rw [← this]
      exact List.getElem_mem hlen
    · apply List.mem_filterMap.2
      refine ⟨k - 1, ?_, ?_⟩
      · apply (mem_bitPositions _ 0 (k - 1)).2
        exact ⟨k - 1, by omega, hbit⟩
      · have : k - 1 + 1 = k := by omega
        rw [this, if_pos hkn]

theorem buildElemToMask_getD_testBit (obs : List Nat) (n k i : Nat) :
    (dictGetD (buildElemToMask obs n) k).testBit i = true ↔
      (i < obs.length ∧ 1 ≤ k ∧ k ≤ n ∧
        (obs.getD i 0).testBit (k - 1) = true) := by
  rw [buildElemToMask_eq_foldUpd, foldUpd_getD_testBit, dictGetD_nil]
  rw [Nat.zero_testBit, Bool.false_or, List.any_eq_true]
  constructor
  · rintro ⟨p, hp, hbeq⟩
    rcases Bool.and_eq_true_iff.1 hbeq with ⟨h1, h2⟩
    have hp1 : p.1 = k := beq_iff_eq.1 h1
    have hp2 : p.2 = i := beq_iff_eq.1 h2
    have : (k, i) ∈ updatesOf obs n := by
      rw [← hp1, ← hp2]
      exact hp
    exact (mem_updatesOf obs n k i).1 this
  · intro h
    refine ⟨(k, i), (mem_updatesOf obs n k i).2 h, ?_⟩
    simp

theorem buildElemToMask_keys_iff (obs : List Nat) (n k : Nat) :
    k ∈ (buildElemToMask obs n).map Prod.fst ↔
      ∃ idx, idx < obs.length ∧ 1 ≤ k ∧ k ≤ n ∧
        (obs.getD idx 0).testBit (k - 1) = true := by
  rw [buildElemToMask_eq_foldUpd, foldUpd_keys]
  simp only [List.map_nil, List.not_mem_nil, false_or]
  constructor
  · rintro ⟨p, hp, hpk⟩
    have : (k, p.2) ∈ updatesOf obs n := by
      rw [← hpk]
      exact hp
    rcases (mem_updatesOf obs n k p.2).1 this with ⟨h1, h2, h3, h4⟩
    exact ⟨p.2, h1, h2, h3, h4⟩
  · rintro ⟨idx, h1, h2, h3, h4⟩
    exact ⟨(k, idx), (mem_updatesOf obs n k idx).2 ⟨h1, h2, h3, h4⟩, rfl⟩

theorem buildElemToMask_nodupKeys (obs : List Nat) (n : Nat) :
    ((buildElemToMask obs n).map Prod.fst).Nodup := by
  rw [buildElemToMask_eq_foldUpd]
  exact foldUpd_nodup _ [] (by simp)

theorem buildElemToMask_mem_iff (obs : List Nat) (n k v : Nat) :
    (k, v) ∈ buildElemToMask obs n ↔
      k ∈ (buildElemToMask obs n).map Prod.fst ∧
        dictGetD (buildElemToMask obs n) k = v :=
  dict_mem_iff (buildElemToMask_nodupKeys obs n) k v

theorem buildElemToMask_length_le (obs : List Nat) (n : Nat) :
    (buildElemToMask obs n).length ≤ n := by
  have hnodup := buildElemToMask_nodupKeys obs n
  have hsubset : (buildElemToMask obs n).map Prod.fst ⊆ List.range' 1 n := by
    intro k hk
    rcases (buildElemToMask_keys_iff obs n k).1 hk with ⟨_, _, h2, h3, _⟩
    rw [List.mem_range'_1]
    omega
  have := (hnodup.subperm hsubset).length_le
  rw [List.length_map] at this
  rw [List.length_range'] at this
  exact this

/-! ### Hitting sets over denominators versus over the candidate map -/

theorem denHS_iff_HS (obs : List Nat) (n t : Nat) :
    DenHS obs n t ↔ HS (buildElemToMask obs n) obs.length t := by
  constructor
  · rintro ⟨S, hnodup, hbounds, hlen, hcov⟩
    refine ⟨(buildElemToMask obs n).filter (fun p => S.any (fun d => d == p.1)),
      List.filter_sublist _, ?_, ?_⟩
    · have hkeysub : ((buildElemToMask obs n).filter
          (fun p => S.any (fun d => d == p.1))).map Prod.fst ⊆ S := by
        intro k hk
        rcases List.mem_map.1 hk with ⟨q, hq, rfl⟩
        rcases List.mem_filter.1 hq with ⟨_, hany⟩
        rcases List.any_eq_true.1 hany with ⟨d, hd, hbeq⟩
        have : d = q.1 := beq_iff_eq.1 hbeq
        rw [← this]
        exact hd
      have hkeynodup : (((buildElemToMask obs n).filter
          (fun p => S.any (fun d => d == p.1))).map Prod.fst).Nodup :=
        ((List.filter_sublist _).map Prod.fst).nodup
          (buildElemToMask_nodupKeys obs n)
      have := (hkeynodup.subperm hkeysub).length_le
      rw [List.length_map] at this
      omega
    · intro idx hidx
      rcases hcov idx hidx with ⟨d, hdS, hbit⟩
      rcases hbounds d hdS with ⟨hd1, hdn⟩
      have htb : (dictGetD (buildElemToMask obs n) d).testBit idx = true :=
        (buildElemToMask_getD_testBit obs n d idx).2 ⟨hidx, hd1, hdn, hbit⟩
      have hkey : d ∈ (buildElemToMask obs n).map Prod.fst :=
        (buildElemToMask_keys_iff obs n d).2 ⟨idx, hidx, hd1, hdn, hbit⟩
      have hmem : (d, dictGetD (buildElemToMask obs n) d) ∈ buildElemToMask obs n :=
        (buildElemToMask_mem_iff obs n d _).2 ⟨hkey, rfl⟩
      refine ⟨(d, dictGetD (buildElemToMask obs n) d), ?_, htb⟩
      apply List.mem_filter.2
      exact ⟨hmem, List.any_eq_true.2 ⟨d, hdS, beq_self_eq_true d⟩⟩
  · rintro ⟨sub, hsub, hlen, hcov⟩
    refine ⟨sub.map Prod.fst, ?_, ?_, by rw [List.length_map]; exact hlen, ?_⟩
    · exact (hsub.map Prod.fst).nodup (buildElemToMask_nodupKeys obs n)
    · intro d hd
      rcases List.mem_map.1 hd with ⟨q, hq, rfl⟩
      have hqelem := hsub.subset hq
      have := (buildElemToMask_mem_iff obs n q.1 q.2).1 (by
        rw [show (q.1, q.2) = q from rfl]; exact hqelem)
      rcases (buildElemToMask_keys_iff obs n q.1).1 this.1 with ⟨_, _, h2, h3, _⟩
      exact ⟨h2, h3⟩
    · intro idx hidx
      rcases hcov idx hidx with ⟨q, hq, hbit⟩
      have hqelem := hsub.subset hq
      have hmem := (buildElemToMask_mem_iff obs n q.1 q.2).1 (by
        rw [show (q.1, q.2) = q from rfl]; exact hqelem)
      have htb : (dictGetD (buildElemToMask obs n) q.1).testBit idx = true := by
        rw [hmem.2]
        exact hbit
      rcases (buildElemToMask_getD_testBit obs n q.1 idx).1 htb with ⟨_, _, _, hb⟩
      exact ⟨q.1, List.mem_map.2 ⟨q, hq, rfl⟩, hb⟩

/-! ### Active obstruction lists -/

theorem activeObs_zero (matchList : List Match) : activeObs matchList 0 = [] := rfl

theorem activeObs_succ (matchList : List Match) (n : Nat) :
    activeObs matchList (n + 1) = activeObs matchList n ++
      (matchList.filter (fun mt => mt.max_denom == n + 1)).map Match.mask := by
  rw [activeObs, activeObs]
  have hconcat : List.range' 1 (n + 1) = List.range' 1 n ++ [n + 1] := by
    have := (List.range'_concat 1 n : List.range' 1 (n + 1) 1 = _)
    simpa [Nat.add_comm] using this
  rw [hconcat, List.flatMap_append]
  simp

theorem activeObs_mem_bits {M : Nat} (hM : 2 ≤ M) :
    ∀ n mask, mask ∈ activeObs (theMatches M) n →
      mask ≠ 0 ∧ ∀ i, mask.testBit i = true → i + 1 ≤ n := by
  intro n mask hmask
  rw [activeObs, List.mem_flatMap] at hmask
  rcases hmask with ⟨k, hk, hmem⟩
  rcases List.mem_map.1 hmem with ⟨mt, hmt, rfl⟩
  rcases List.mem_filter.1 hmt with ⟨hmtmem, hmtk⟩
  have hkval : mt.max_denom = k := beq_iff_eq.1 hmtk
  have hsplit1 : 1 ≤ M * 5 / 9 := by
    have : 10 ≤ M * 5 := by omega
    omega
  have hinv := stream_unit_matches_invariant 1 (M * 5 / 9) (M * 5 / 9) M
    (by omega) hsplit1 (le_refl _) mt hmtmem
  rcases hinv with ⟨hsum, hmax⟩
  rw [List.mem_range'_1] at hk
  constructor
  · intro habs
    rw [habs, maskSum_zero] at hsum
    exact one_ne_zero hsum.symm
  · intro i hi
    have h1 := le_maxDenomOf hi
    rw [← hmax, hkval] at h1
    omega

/-! ### Facts about the minimum hitting-set size -/

theorem HS_mono {elems : List (Nat × Nat)} {numObs s t : Nat}
    (h : HS elems numObs s) (hst : s ≤ t) : HS elems numObs t := by
  rcases h with ⟨sub, h1, h2, h3⟩
  exact ⟨sub, h1, by omega, h3⟩

theorem HS_full (obs : List Nat) (n : Nat)
    (hbits : ∀ mask ∈ obs, mask ≠ 0 ∧ ∀ i, mask.testBit i = true → i + 1 ≤ n) :
    HS (buildElemToMask obs n) obs.length (buildElemToMask obs n).length := by
  refine ⟨buildElemToMask obs n, List.Sublist.refl _, le_refl _, ?_⟩
  intro idx hidx
  have hmem : obs.getD idx 0 ∈ obs := by
    rw [List.getD_eq_getElem obs 0 hidx]
    exact List.getElem_mem hidx
  rcases hbits _ hmem with ⟨hne, hle⟩
  rcases exists_testBit_of_ne_zero hne with ⟨j, hj⟩
  have hdn : j + 1 ≤ n := hle j hj
  have hkey : (j + 1) ∈ (buildElemToMask obs n).map Prod.fst :=
    (buildElemToMask_keys_iff obs n (j + 1)).2
      ⟨idx, hidx, by omega, hdn, by simpa using hj⟩
  have hpair : (j + 1, dictGetD (buildElemToMask obs n) (j + 1)) ∈
      buildElemToMask obs n :=
    (buildElemToMask_mem_iff obs n (j + 1) _).2 ⟨hkey, rfl⟩
  refine ⟨_, hpair, ?_⟩
  exact (buildElemToMask_getD_testBit obs n (j + 1) idx).2
    ⟨hidx, by omega, hdn, by simpa using hj⟩

theorem exists_least_HS (elems : List (Nat × Nat)) (numObs : Nat)
    (hex : ∃ t, HS elems numObs t) :
    ∃ t, LeastHS elems numObs t := by
  haveI : DecidablePred (HS elems numObs) := fun t =>
    decidable_of_iff _ (hs_iff elems numObs t)
  exact ⟨Nat.find hex, Nat.find_spec hex, fun s hs => Nat.find_min' hex hs⟩

theorem leastHS_unique {elems : List (Nat × Nat)} {numObs s t : Nat}
    (hs : LeastHS elems numObs s) (ht : LeastHS elems numObs t) : s = t :=
  le_antisymm (hs.2 t ht.1) (ht.2 s hs.1)

/-- Monotonicity of the minimum across a step of the orchestrator: any
hitting set for the enlarged obstruction list at step `n` restricts to one
of no greater size for the old obstruction list at step `n - 1`, because
members of old obstructions are denominators `≤ n - 1`. -/
theorem hs_step_mono {obs new : List Nat} {n s : Nat}
    (hobs : ∀ mask ∈ obs, ∀ i, mask.testBit i = true → i + 1 ≤ n - 1)
    (h : HS (buildElemToMask (obs ++ new) n) (obs ++ new).length s) :
    HS (buildElemToMask obs (n - 1)) obs.length s := by
  rcases h with ⟨sub, hsub, hlen, hcov⟩
  refine ⟨(buildElemToMask obs (n - 1)).filter
      (fun p => sub.any (fun q => q.1 == p.1)), List.filter_sublist _, ?_, ?_⟩
  · have hkeysub : (((buildElemToMask obs (n - 1)).filter
        (fun p => sub.any (fun q => q.1 == p.1))).map Prod.fst) ⊆
        sub.map Prod.fst := by
      intro k hk
      rcases List.mem_map.1 hk with ⟨q, hq, rfl⟩
      rcases List.mem_filter.1 hq with ⟨_, hany⟩
      rcases List.any_eq_true.1 hany with ⟨q2, hq2, hbeq⟩
      have : q2.1 = q.1 := beq_iff_eq.1 hbeq
      exact List.mem_map.2 ⟨q2, hq2, this⟩
    have hkeynodup : ((((buildElemToMask obs (n - 1)).filter
        (fun p => sub.any (fun q => q.1 == p.1)))).map Prod.fst).Nodup :=
      ((List.filter_sublist _).map Prod.fst).nodup
        (buildElemToMask_nodupKeys obs (n - 1))
    have h1 := (hkeynodup.subperm hkeysub).length_le
    rw [List.length_map, List.length_map] at h1
    omega
  · intro idx hidx
    have hidx2 : idx < (obs ++ new).length := by
      rw [List.length_append]
      omega
    rcases hcov idx hidx2 with ⟨q, hq, hbit⟩
    have hqelem := hsub.subset hq
    have hmem := (buildElemToMask_mem_iff (obs ++ new) n q.1 q.2).1 (by
      rw [show (q.1, q.2) = q from rfl]; exact hqelem)
    have htb : (dictGetD (buildElemToMask (obs ++ new) n) q.1).testBit idx = true := by
      rw [hmem.2]
      exact hbit
    rcases (buildElemToMask_getD_testBit (obs ++ new) n q.1 idx).1 htb with
      ⟨_, hq1, hqn, hb⟩
    have hgd : (obs ++ new).getD idx 0 = obs.getD idx 0 :=
      List.getD_append obs new 0 idx hidx
    rw [hgd] at hb
    have hobsmem : obs.getD idx 0 ∈ obs := by
      rw [List.getD_eq_getElem obs 0 hidx]
      exact List.getElem_mem hidx
    have hqle : q.1 ≤ n - 1 := by
      have := hobs _ hobsmem (q.1 - 1) hb
      omega
    have hkey : q.1 ∈ (buildElemToMask obs (n - 1)).map Prod.fst :=
      (buildElemToMask_keys_iff obs (n - 1) q.1).2 ⟨idx, hidx, hq1, hqle, hb⟩
    have hpair : (q.1, dictGetD (buildElemToMask obs (n - 1)) q.1) ∈
        buildElemToMask obs (n - 1) :=
      (buildElemToMask_mem_iff obs (n - 1) q.1 _).2 ⟨hkey, rfl⟩
    refine ⟨(q.1, dictGetD (buildElemToMask obs (n - 1)) q.1), ?_, ?_⟩
    · apply List.mem_filter.2
      refine ⟨hpair, List.any_eq_true.2 ⟨q, hq, ?_⟩⟩
      exact beq_self_eq_true q.1
    · exact (buildElemToMask_getD_testBit obs (n - 1) q.1 idx).2
        ⟨hidx, hq1, hqle, hb⟩

theorem find?_range'_least (p : Nat → Bool) (t0 : Nat)
    (hiff : ∀ x, p x = true ↔ t0 ≤ x) :
    ∀ len a, a ≤ t0 → t0 < a + len →
      (List.range' a len).find? p = some t0 := by
  intro len
  induction len with
  | zero => intro a h1 h2; omega
  | succ len ih =>
    intro a h1 h2
    rw [List.range'_succ]
    rw [List.find?_cons]
    rcases hpa : p a with _ | _
    · have hat0 : a < t0 := by
        rcases Nat.lt_or_ge a t0 with h | h
        · exact h
        · rw [(hiff a).2 h] at hpa
          cases hpa
      exact ih (a + 1) (by omega) (by omega)
    · have : t0 ≤ a := (hiff a).1 hpa
      have : a = t0 := by omega
      rw [this]

theorem A390393Step_empty (matchList : List Match) (st : LoopState) (n : Nat)
    (h : st.obs ++ (matchList.filter
      (fun mt => mt.max_denom == n)).map Match.mask = []) :
    A390393Step matchList st n = ⟨st.results ++ [n], [], 0⟩ := by
  simp only [A390393Step]
  rw [h]
  rfl

theorem A390393Step_found (matchList : List Match) (st : LoopState) (n k : Nat)
    (hfind : (List.range' st.current_k (n + 1 - st.current_k)).find?
      (fun j => exists_hitting_set
        (buildElemToMask (st.obs ++ (matchList.filter
          (fun mt => mt.max_denom == n)).map Match.mask) n)
        (st.obs ++ (matchList.filter
          (fun mt => mt.max_denom == n)).map Match.mask).length j) = some k)
    (hne : st.obs ++ (matchList.filter
      (fun mt => mt.max_denom == n)).map Match.mask ≠ []) :
    A390393Step matchList st n =
      ⟨st.results ++ [n - k],
        st.obs ++ (matchList.filter (fun mt => mt.max_denom == n)).map Match.mask,
        k⟩ := by
  have hc : ¬((st.obs ++ (matchList.filter
      (fun mt => mt.max_denom == n)).map Match.mask).isEmpty = true) := by
    rw [List.isEmpty_iff]
    exact hne
  simp only [A390393Step]
  rw [if_neg hc, hfind]

/-- The loop invariant holds after every prefix of the orchestrator's fold. -/
theorem loopInv_fold {M : Nat} (hM : 2 ≤ M) (n : Nat) :
    LoopInv (theMatches M) n
      ((List.range' 1 n).foldl (A390393Step (theMatches M)) ⟨[], [], 0⟩) := by
  induction n with
  | zero =>
    refine ⟨rfl, rfl, fun _ => rfl, fun h => absurd rfl h, ?_⟩
    intro j hj1 hj2
    omega
  | succ n ih =>
    obtain ⟨hobs, hlen, hck0, hckL, hres⟩ := ih
    have hconcat : List.range' 1 (n + 1) = List.range' 1 n ++ [n + 1] := by
      have := (List.range'_concat 1 n : List.range' 1 (n + 1) 1 = _)
      simpa [Nat.add_comm] using this
    rw [hconcat, List.foldl_append, List.foldl_cons, List.foldl_nil]
    set st := (List.range' 1 n).foldl (A390393Step (theMatches M)) ⟨[], [], 0⟩
      with hstdef
    set bucket := ((theMatches M).filter
      (fun mt => mt.max_denom == n + 1)).map Match.mask with hbucketdef
    have hobs2 : st.obs ++ bucket = activeObs (theMatches M) (n + 1) := by
      rw [activeObs_succ, hobs, hbucketdef]
    by_cases hE : st.obs ++ bucket = []
    · rw [A390393Step_empty (theMatches M) st (n + 1) hE]
      refine ⟨?_, ?_, fun _ => rfl, fun h => absurd rfl h, ?_⟩
      · rw [← hobs2]
        exact hE.symm
      · simp [hlen]
      · intro j hj1 hj2
        rcases Nat.lt_or_ge j (n + 1) with hjn | hjn
        · have hidx : j - 1 < st.results.length := by omega
          have hgd : (st.results ++ [n + 1]).getD (j - 1) 0 =
              st.results.getD (j - 1) 0 :=
            List.getD_append st.results [n + 1] 0 (j - 1) hidx
          refine ⟨?_, ?_⟩
          · intro hA
            rw [hgd]
            exact (hres j hj1 (by omega)).1 hA
          · intro t ht
            rw [hgd]
            exact (hres j hj1 (by omega)).2 t ht
        · have hj : j = n + 1 := by omega
          subst hj
          have hA : activeObs (theMatches M) (n + 1) = [] := by
            rw [← hobs2]
            exact hE
          have hgd : (st.results ++ [n + 1]).getD (n + 1 - 1) 0 = n + 1 := by
            have h1 : n + 1 - 1 = n := rfl
            rw [h1, List.getD_append_right st.results [n + 1] 0 n (by omega)]
            rw [hlen]
            simp
          refine ⟨fun _ => hgd, ?_⟩
          intro t ht
          rw [hA] at ht
          have hbe : buildElemToMask [] (n + 1) = [] := rfl
          rw [hbe] at ht
          have hHS0 : HS ([] : List (Nat × Nat)) ([] : List Nat).length 0 :=
            ⟨[], List.Sublist.refl _, le_refl _,
              fun i hi => absurd hi (Nat.not_lt_zero i)⟩
          have ht0 : t = 0 := by
            have := ht.2 0 hHS0
            omega
          rw [hgd, ht0]
          omega
    · have hbits : ∀ mask ∈ st.obs ++ bucket, mask ≠ 0 ∧
          ∀ i, mask.testBit i = true → i + 1 ≤ n + 1 := by
        intro mask hmask
        exact activeObs_mem_bits hM (n + 1) mask (hobs2 ▸ hmask)
      have hfull := HS_full (st.obs ++ bucket) (n + 1) hbits
      have hexist : ∃ t, HS (buildElemToMask (st.obs ++ bucket) (n + 1))
          (st.obs ++ bucket).length t := ⟨_, hfull⟩
      obtain ⟨t0, ht0⟩ := exists_least_HS _ _ hexist
      have ht0le : t0 ≤ n + 1 :=
        le_trans (ht0.2 _ hfull) (buildElemToMask_length_le _ _)
      have hckle : st.current_k ≤ t0 := by
        by_cases ho : st.obs = []
        · rw [hck0 ho]
          omega
        · have hL := hckL ho
          have hmono := hs_step_mono
            (fun mask hmask i hbit => by
              have h2 := (activeObs_mem_bits hM n mask (hobs ▸ hmask)).2 i hbit
              omega) ht0.1
          exact hL.2 t0 hmono
      have hiff : ∀ x, exists_hitting_set
          (buildElemToMask (st.obs ++ bucket) (n + 1))
          (st.obs ++ bucket).length x = true ↔ t0 ≤ x := by
        intro x
        rw [hs_iff]
        exact ⟨fun h => ht0.2 x h, fun h => HS_mono ht0.1 h⟩
      have hfind := find?_range'_least _ t0 hiff (n + 1 + 1 - st.current_k)
        st.current_k hckle (by omega)
      rw [A390393Step_found (theMatches M) st (n + 1) t0 hfind hE]
      refine ⟨hobs2, by simp [hlen], fun h => absurd h hE, fun _ => ht0, ?_⟩
      intro j hj1 hj2
      rcases Nat.lt_or_ge j (n + 1) with hjn | hjn
      · have hidx : j - 1 < st.results.length := by omega
        have hgd : (st.results ++ [n + 1 - t0]).getD (j - 1) 0 =
            st.results.getD (j - 1) 0 :=
          List.getD_append st.results [n + 1 - t0] 0 (j - 1) hidx
        refine ⟨?_, ?_⟩
        · intro hA
          rw [hgd]
          exact (hres j hj1 (by omega)).1 hA
        · intro t ht
          rw [hgd]
          exact (hres j hj1 (by omega)).2 t ht
      · have hj : j = n + 1 := by omega
        subst hj
        have hgd : (st.results ++ [n + 1 - t0]).getD (n + 1 - 1) 0 = n + 1 - t0 := by
          have h1 : n + 1 - 1 = n := rfl
          rw [h1, List.getD_append_right st.results [n + 1 - t0] 0 n (by omega)]
          rw [hlen]
          simp
        refine ⟨?_, ?_⟩
        · intro hA
          exact absurd (hobs2.trans hA) hE
        · intro t ht
          rw [← hobs2] at ht
          have htt0 : t = t0 := leastHS_unique ht ht0
          rw [hgd, htt0]

/-- The float prune fires at the root on singleton masks: with `N` one-bit
masks over `N` obstruction bits, the root call computes
`math.ceil(N / 1)` and prunes whenever the budget is below the rounded
value, returning `False` without branching. -/
theorem solveF_singletons (N k : Nat) (hN : N = k + 1) (c : Nat)
    (hpc : pyCeilDiv N 1 = some c) (hkc : k + 1 < c) :
    solveF ((List.range N).map (fun i => (1 : Nat) <<< i)) ((1 <<< N) - 1) N =
      Except.ok false := by
  subst hN
  rw [solveF_succ]
  have hfne : (1 <<< (k + 1) : Nat) - 1 ≠ 0 := by
    have h1 : (2 : Nat) ^ 1 ≤ 2 ^ (k + 1) :=
      Nat.pow_le_pow_right (by omega) (by omega)
    rw [Nat.shiftLeft_eq, one_mul]
    omega
  simp only [if_neg hfne]
  rw [popCount_two_pow_sub_one]
  have hbitne : ∀ i : Nat, ((1 : Nat) <<< i) ≠ 0 := by
    intro i
    rw [Nat.shiftLeft_eq, one_mul]
    exact Nat.pos_iff_ne_zero.1 (Nat.two_pow_pos i)
  have hland : ∀ i, i < k + 1 →
      ((1 : Nat) <<< i) &&& ((1 <<< (k + 1)) - 1) = 1 <<< i := by
    intro i hi
    apply Nat.eq_of_testBit_eq
    intro j
    rw [Nat.testBit_land, testBit_shiftLeft_one]
    by_cases hj : i = j
    · subst hj
      rw [(testBit_full_mask (k + 1) i).2 hi]
      simp
    · simp [hj]
  have hcand : ((List.range (k + 1)).map (fun i => (1 : Nat) <<< i)).filterMap
      (fun mask => if mask &&& ((1 <<< (k + 1)) - 1) ≠ 0 then
        some (popCount (mask &&& ((1 <<< (k + 1)) - 1)),
          mask &&& ((1 <<< (k + 1)) - 1)) else none)
      = (List.range (k + 1)).map (fun i => ((1 : Nat), (1 : Nat) <<< i)) := by
    rw [List.filterMap_map]
    apply filterMap_eq_map_of_some
    intro i hi
    have hii : i < k + 1 := List.mem_range.1 hi
    show (if ((1 : Nat) <<< i) &&& ((1 <<< (k + 1)) - 1) ≠ 0 then
        some (popCount (((1 : Nat) <<< i) &&& ((1 <<< (k + 1)) - 1)),
          ((1 : Nat) <<< i) &&& ((1 <<< (k + 1)) - 1)) else none) =
      some (1, (1 : Nat) <<< i)
    rw [hland i hii, if_pos (hbitne i), popCount_shiftLeft_one]
  rw [hcand]
  have hmc : ((List.range (k + 1)).map
      (fun i => ((1 : Nat), (1 : Nat) <<< i))).foldl
      (fun acc c2 => max acc c2.1) 0 = 1 := by
    apply le_antisymm
    · apply foldl_max_le
      · intro x hx
        rcases List.mem_map.1 hx with ⟨i, _, rfl⟩
        exact le_refl 1
      · omega
    · have h0 : ((1 : Nat), (1 : Nat) <<< 0) ∈
          (List.range (k + 1)).map (fun i => ((1 : Nat), (1 : Nat) <<< i)) :=
        List.mem_map.2 ⟨0, List.mem_range.2 (by omega), rfl⟩
      exact le_foldl_max h0 0
  rw [hmc]
  rw [if_neg (by omega : ¬((1 : Nat) = 0))]
  rw [hpc]
  rw [if_neg (Option.some_ne_none c), Option.getD_some]
  rw [if_pos hkc]

/-- The original solver claim is false of the float-pruned program: on the
mapping of `2 ^ 54 - 1` singleton masks over `2 ^ 54 - 1` obstruction bits
with budget `2 ^ 54 - 1`, taking every element is a hitting set within the
budget, yet the root prune computes `math.ceil((2 ^ 54 - 1) / 1)` — the
quotient rounds to the double `2 ^ 54` (ties to even) — and the program
returns `False`. -/
theorem exists_hitting_set_float_counterexample :
    exists_hitting_setF
        ((List.range (2 ^ 54 - 1)).map (fun i => (i + 1, 1 <<< i)))
        (2 ^ 54 - 1) (2 ^ 54 - 1) = Except.ok false ∧
      HS ((List.range (2 ^ 54 - 1)).map (fun i => (i + 1, 1 <<< i)))
        (2 ^ 54 - 1) (2 ^ 54 - 1) := by
  constructor
  · have hcomp : Prod.snd ∘ (fun i : Nat => (i + 1, 1 <<< i)) =
        fun i : Nat => (1 : Nat) <<< i := rfl
    have hmaps : (((List.range (2 ^ 54 - 1)).map
        (fun i => (i + 1, 1 <<< i))).map Prod.snd)
        = (List.range (2 ^ 54 - 1)).map (fun i => (1 : Nat) <<< i) := by
      rw [List.map_map, hcomp]
    show solveF (((List.range (2 ^ 54 - 1)).map
        (fun i => (i + 1, 1 <<< i))).map Prod.snd)
        ((1 <<< (2 ^ 54 - 1)) - 1) (2 ^ 54 - 1) = Except.ok false
    rw [hmaps]
    exact solveF_singletons (2 ^ 54 - 1) (2 ^ 54 - 2) (by norm_num) (2 ^ 54)
      (by rfl) (by norm_num)
  · refine ⟨(List.range (2 ^ 54 - 1)).map (fun i => (i + 1, 1 <<< i)),
      List.Sublist.refl _, ?_, ?_⟩
    · simp
    · intro i hi
      refine ⟨(i + 1, 1 <<< i),
        List.mem_map.2 ⟨i, List.mem_range.2 hi, rfl⟩, ?_⟩
      rw [testBit_shiftLeft_one]
      simp

/-- C3 (amended): for every mapping from candidate elements to obstruction
masks over `num_obs` obstruction bits with `num_obs ≤ 2 ^ 53` — every
ceiling the prune meets is then exactly representable as an IEEE double
and no `OverflowError` is possible — the float-pruned `exists_hitting_set`
returns `True` if and only if some set of at most `permitted` candidate
elements covers all `num_obs` bits, agreeing with brute-force subset
enumeration; beyond that bound the prune can discard a feasible instance,
as `exists_hitting_set_float_counterexample` shows. -/
theorem exists_hitting_setF_exact (elem_to_mask : List (Nat × Nat))
    (num_obs permitted : Nat) (h : num_obs ≤ 2 ^ 53) :
    exists_hitting_setF elem_to_mask num_obs permitted = Except.ok true ↔
      HS elem_to_mask num_obs permitted := by
  have hb : popCount ((1 <<< num_obs) - 1) ≤ 2 ^ 53 := by
    rw [popCount_two_pow_sub_one]
    exact h
  have hagree := solveF_eq_solve (elem_to_mask.map Prod.snd) permitted
    ((1 <<< num_obs) - 1) hb
  rw [← hs_iff]
  show solveF (elem_to_mask.map Prod.snd) ((1 <<< num_obs) - 1) permitted =
      Except.ok true ↔
    exists_hitting_set elem_to_mask num_obs permitted = true
  rw [hagree]
  constructor
  · intro h2
    exact Except.ok.inj h2
  · intro h2
    exact congrArg Except.ok h2

theorem exists_hitting_setF_exact_witness :
    (1 : Nat) ≤ 2 ^ 53 ∧
      (exists_hitting_setF [(1, 1)] 1 1 = Except.ok true ↔ HS [(1, 1)] 1 1) ∧
      exists_hitting_setF [(1, 1)] 1 1 = Except.ok true :=
  ⟨by norm_num, exists_hitting_setF_exact [(1, 1)] 1 1 (by norm_num), by rfl⟩

/-- Orchestrator exactness over the idealized exact-ceiling solver: for
every `N > 1` and every step `n` in `[1, N-1]` at which at least one
obstruction is active, the value emitted by `A390393List N` at position
`n` equals `n` minus the exact minimum size of a hitting set of all
active obstructions over candidate denominators in `[1, n]`; in
particular, warm-starting the budget search at the previous step's
`current_k` never makes the returned budget exceed the true minimum.
(The source's solver prunes with a float ceiling; by `solveF_eq_solve`
the idealization is exact while active-obstruction counts stay at most
`2 ^ 53`, but the claim-level universal statement over all `N` remains
open beyond that regime.) -/
theorem A390393List_emits_min (N : Int) (hN : 1 < N) (n t : Nat) (hn1 : 1 ≤ n)
    (hnN : n < N.toNat)
    (hobs : activeObs (theMatches N.toNat) n ≠ [])
    (hleast : LeastDenHS (activeObs (theMatches N.toNat) n) n t) :
    (A390393List N).getD (n - 1) 0 = n - t := by
  have hM : 2 ≤ N.toNat := by omega
  have hunfold : A390393List N = ((List.range' 1 (N.toNat - 1)).foldl
      (A390393Step (theMatches N.toNat)) ⟨[], [], 0⟩).results := by
    rw [A390393List, if_neg (show ¬(N ≤ 1) by omega)]
    rfl
  obtain ⟨_, _, _, _, hres⟩ := loopInv_fold hM (N.toNat - 1)
  have hL : LeastHS (buildElemToMask (activeObs (theMatches N.toNat) n) n)
      (activeObs (theMatches N.toNat) n).length t := by
    refine ⟨(denHS_iff_HS _ _ _).1 hleast.1, ?_⟩
    intro s hs
    exact hleast.2 s ((denHS_iff_HS _ _ _).2 hs)
  rw [hunfold]
  exact (hres n hn1 (by omega)).2 t hL

theorem A390393List_emits_min_witness :
    (1 : Int) < 3 ∧ 1 ≤ 1 ∧ 1 < (3 : Int).toNat ∧
      activeObs (theMatches (3 : Int).toNat) 1 ≠ [] ∧
      LeastDenHS (activeObs (theMatches (3 : Int).toNat) 1) 1 1 ∧
      (A390393List 3).getD (1 - 1) 0 = 1 - 1 := by
  have hobs : activeObs (theMatches (3 : Int).toNat) 1 ≠ [] := by decide
  have hden : DenHS (activeObs (theMatches (3 : Int).toNat) 1) 1 1 :=
    ⟨[1], by decide, by decide, by decide, by decide⟩
  have hmin : ∀ s, DenHS (activeObs (theMatches (3 : Int).toNat) 1) 1 s →
      1 ≤ s := by
    intro s hs
    rcases hs with ⟨S, _, _, hlenS, hcov⟩
    have h0 : 0 < (activeObs (theMatches (3 : Int).toNat) 1).length := by decide
    rcases hcov 0 h0 with ⟨d, hd, _⟩
    have hSne : S ≠ [] := by
      intro hnil
      rw [hnil] at hd
      cases hd
    have hSpos : 0 < S.length := List.length_pos.2 hSne
    omega
  exact ⟨by decide, le_refl 1, by decide, hobs, ⟨hden, hmin⟩,
    A390393List_emits_min 3 (by decide) 1 1 (le_refl 1) (by decide)
      hobs ⟨hden, hmin⟩⟩

end A390393
